import Mathlib

/-!
# SFS: a shallow embedding of `sfs.c`

The driver keeps all of its state in one image file that it reads and writes
through `disk_read` / `disk_write`.  The image is modelled as a total map from
byte offsets to bytes; every handler of `sfs.c` becomes a function from the
image (and its arguments) to a result and, for the mutating handlers, a new
image.

Conventions of the embedding.

* A C string (`const char *`) is the list of bytes found at the pointer; the
  string it denotes is the part before the first NUL (`cstr`).
* `none` stands for C undefined behaviour that the source can reach: a NULL
  pointer handed to `strcmp` or written through, an out-of-bounds index into
  the local `block_table` array, a division by a zero `SFS_BLOCK_SIZE`, or a
  loop that would never stop.
* The header `sfs.h` is not part of the sources, so its constants are the
  fields of `Layout`; the packed field order of `struct sfs_entry` is taken
  from the format description (filename, size, first_block; little-endian).
* A filename field is read as a C string up to its first NUL, or up to the end
  of the field when it holds no NUL.
* Automatic variables that the source reads before writing them are supplied
  by the caller of the model as explicit arguments (`uninit`, `stack`).
* Offsets handed to the disk shim are computed without wrap-around; the one
  value the source stores in an `unsigned`, `ret_entry_off`, is reduced mod
  `2 ^ 32`, and the `int` results of `sfs_read` are converted by `toInt32`.
-/

namespace SFS

/-! ## Bytes, layout, codec -/

abbrev Byte := Fin 256

abbrev CStr := List Byte

/-- Constants of `sfs.h` (absent from the sources), as parameters: the macros
`SFS_*` that `sfs.c` uses, and the widths in bytes of the `size` field and of
`blockidx_t`. -/
structure Layout where
  FILENAME_MAX : Nat
  SIZE_BYTES : Nat
  IDX_BYTES : Nat
  ROOTDIR_NENTRIES : Nat
  DIR_NENTRIES : Nat
  BLOCKTBL_NENTRIES : Nat
  BLOCK_SIZE : Nat
  ROOTDIR_OFF : Nat
  BLOCKTBL_OFF : Nat
  DATA_OFF : Nat
  BLOCKIDX_EMPTY : Nat
  BLOCKIDX_END : Nat
  DIRECTORY : Nat
  SIZEMASK : Nat
deriving DecidableEq, Repr

/-- Modelled from the spec: `sizeof(struct sfs_entry)` of the absent `sfs.h`, the
packed record of filename, size and first_block. -/
def Layout.ENTRY_SIZE (L : Layout) : Nat := L.FILENAME_MAX + L.SIZE_BYTES + L.IDX_BYTES

/-- Modelled from the spec: `SFS_ROOTDIR_SIZE` of the absent `sfs.h`, the root
array of `ROOT_NENTRIES` entries in bytes. -/
def Layout.ROOTDIR_SIZE (L : Layout) : Nat := L.ROOTDIR_NENTRIES * L.ENTRY_SIZE

/-- Modelled from the spec: `SFS_DIR_SIZE` of the absent `sfs.h`, a sub-directory
array of `DIR_NENTRIES` entries in bytes. -/
def Layout.DIR_SIZE (L : Layout) : Nat := L.DIR_NENTRIES * L.ENTRY_SIZE

/-- Modelled from the spec: `SFS_BLOCKTBL_SIZE` of the absent `sfs.h`, the block
table of `BLOCKTBL_NENTRIES` cells in bytes. -/
def Layout.BLOCKTBL_SIZE (L : Layout) : Nat := L.BLOCKTBL_NENTRIES * L.IDX_BYTES

/-- Number of values of `blockidx_t`. -/
def Layout.IDX_MOD (L : Layout) : Nat := 256 ^ L.IDX_BYTES

/-- Number of values of the `size` field. -/
def Layout.SIZE_MOD (L : Layout) : Nat := 256 ^ L.SIZE_BYTES

/-- Byte offset of data block `b`: `SFS_DATA_OFF + b * SFS_BLOCK_SIZE`. -/
def Layout.blockOff (L : Layout) (b : Nat) : Nat := L.DATA_OFF + b * L.BLOCK_SIZE

/-- In-memory `struct sfs_entry`. -/
structure Entry where
  filename : List Byte
  size : Nat
  first_block : Nat
deriving DecidableEq, Repr

/-- Little-endian value of a byte string. -/
def leDecode : List Byte → Nat
  | [] => 0
  | b :: bs => b.val + 256 * leDecode bs

/-- Little-endian bytes of `n`, `w` of them (the value is reduced mod `256 ^ w`). -/
def leEncode : Nat → Nat → List Byte
  | 0, _ => []
  | w + 1, n => Fin.ofNat n :: leEncode w (n / 256)

/-- Modelled from the spec: the layout of `struct sfs_entry` (declared in the
absent `sfs.h`): the filename bytes, then the size, then the first_block index,
both little-endian. -/
def decodeEntry (L : Layout) (bs : List Byte) : Entry :=
  { filename := bs.take L.FILENAME_MAX
    size := leDecode ((bs.drop L.FILENAME_MAX).take L.SIZE_BYTES)
    first_block := leDecode ((bs.drop (L.FILENAME_MAX + L.SIZE_BYTES)).take L.IDX_BYTES) }

/-- The bytes of one entry, in the layout of `decodeEntry`. -/
def encodeEntry (L : Layout) (e : Entry) : List Byte :=
  e.filename ++ leEncode L.SIZE_BYTES e.size ++ leEncode L.IDX_BYTES e.first_block

/-- The bytes of an entry array. -/
def encodeEntries (L : Layout) (es : List Entry) : List Byte :=
  (es.map (encodeEntry L)).flatten

/-- The bytes of a block table: one little-endian `blockidx_t` per cell. -/
def encodeTable (L : Layout) (t : List Nat) : List Byte :=
  (t.map (leEncode L.IDX_BYTES)).flatten

/-! ## The disk shim (`diskio.h`) -/

abbrev Disk := Nat → Byte

/-- Modelled from the spec: `disk_read(buf, len, off)` of the absent `diskio.h`,
the offset-addressed byte reader over the image. -/
def disk_read (d : Disk) (len off : Nat) : List Byte :=
  (List.range len).map (fun k => d (off + k))

/-- Modelled from the spec: `disk_write(buf, len, off)` of the absent `diskio.h`,
the offset-addressed byte writer over the image. -/
def disk_write (d : Disk) (buf : List Byte) (off : Nat) : Disk :=
  fun a => if off ≤ a ∧ a < off + buf.length then buf.getD (a - off) (d a) else d a

/-- One `struct sfs_entry` read at byte offset `off`. -/
def readEntry (L : Layout) (d : Disk) (off : Nat) : Entry :=
  decodeEntry L (disk_read d L.ENTRY_SIZE off)

/-- An array of `n` entries read at byte offset `off`
(`disk_read(arr, n * sizeof(struct sfs_entry), off)`). -/
def readEntries (L : Layout) (d : Disk) (off n : Nat) : List Entry :=
  (List.range n).map (fun i => readEntry L d (off + i * L.ENTRY_SIZE))

/-- The root directory array. -/
def readRoot (L : Layout) (d : Disk) : List Entry :=
  readEntries L d L.ROOTDIR_OFF L.ROOTDIR_NENTRIES

/-- The directory array found at data block `b`. -/
def readDir (L : Layout) (d : Disk) (b : Nat) : List Entry :=
  readEntries L d (L.blockOff b) L.DIR_NENTRIES

/-- One block-table cell. -/
def readIdx (L : Layout) (d : Disk) (i : Nat) : Nat :=
  leDecode (disk_read d L.IDX_BYTES (L.BLOCKTBL_OFF + i * L.IDX_BYTES))

/-- The block table (`disk_read(block_table, SFS_BLOCKTBL_SIZE, SFS_BLOCKTBL_OFF)`). -/
def readTable (L : Layout) (d : Disk) : List Nat :=
  (List.range L.BLOCKTBL_NENTRIES).map (readIdx L d)

/-- The call `disk_write(root_dir, SFS_ROOTDIR_SIZE, SFS_ROOTDIR_OFF)`. -/
def writeRoot (L : Layout) (d : Disk) (es : List Entry) : Disk :=
  disk_write d (encodeEntries L es) L.ROOTDIR_OFF

/-- The call `disk_write(entries, SFS_DIR_SIZE, SFS_DATA_OFF + b * SFS_BLOCK_SIZE)`. -/
def writeDir (L : Layout) (d : Disk) (b : Nat) (es : List Entry) : Disk :=
  disk_write d (encodeEntries L es) (L.blockOff b)

/-- The call `disk_write(block_table, SFS_BLOCKTBL_SIZE, SFS_BLOCKTBL_OFF)`. -/
def writeTable (L : Layout) (d : Disk) (t : List Nat) : Disk :=
  disk_write d (encodeTable L t) L.BLOCKTBL_OFF

/-! ## C strings -/

def SLASH : Byte := 47

/-- The string a `char *` denotes: the bytes before the first NUL. -/
def cstr (s : List Byte) : CStr := s.takeWhile (fun b => b ≠ 0)

/-- The value of `strlen`. -/
def strlen (s : List Byte) : Nat := (cstr s).length

/-- Effect of `strcpy(dst, src)` on the char array `dst`: the string and its NUL
overwrite the front of the array, the bytes behind them stay. -/
def strcpy (dst : List Byte) (src : CStr) : List Byte :=
  (cstr src ++ [0]) ++ dst.drop ((cstr src).length + 1)

/-- Effect of `dst[0] = 0` (also of `strcpy(dst, "\0")`, which copies one NUL). -/
def clearName (dst : List Byte) : List Byte :=
  match dst with
  | [] => []
  | _ :: t => 0 :: t

/-- The pair `strtok(copy, "/")`, `strtok(NULL, "")` of `get_entry_rec`: the
first slash-free token after the leading slashes, and what follows the slash
that ended it (NULL when nothing follows). -/
def strtok2 (s : CStr) : Option CStr × Option CStr :=
  let s1 := s.dropWhile (fun b => b = SLASH)
  match s1 with
  | [] => (none, none)
  | _ :: _ =>
    let tok := s1.takeWhile (fun b => b ≠ SLASH)
    let rest := (s1.dropWhile (fun b => b ≠ SLASH)).drop 1
    (some tok, if rest = [] then none else some rest)

/-- Position of the last `/` (the result of `strrchr(copy, '/')`). -/
def strrchr : CStr → Option Nat
  | [] => none
  | b :: bs =>
    match strrchr bs with
    | some k => some (k + 1)
    | none => if b = SLASH then some 0 else none

/-- The split all four path-taking writers perform: the text before the last
slash and the text after it; `none` when the path has no slash (the source
then writes through NULL). -/
def splitLast (path : List Byte) : Option (CStr × CStr) :=
  let copy := cstr path
  match strrchr copy with
  | none => none
  | some k => some (copy.take k, copy.drop (k + 1))

/-! ## Results -/

def ENOENT : Int := 2
def EISDIR : Int := 21
def EINVAL : Int := 22
def ENOSPC : Int := 28
def ENAMETOOLONG : Int := 36
def ENOTEMPTY : Int := 39

/-- What `get_entry` hands back: the return code and, on 0, the two out-parameters. -/
inductive Lookup where
  | found (entry : Entry) (off : Nat)
  | err (code : Int)
deriving DecidableEq, Repr

/-! ## get_entry_rec / get_entry -/

/-- The `for` loop of `get_entry_rec` over one entry array: the first slot whose
name equals `current` decides; `onHit` is the loop body under the `strcmp`.
The name of a slot is read inside its field (`cstr` of the FILENAME_MAX bytes):
that is what `strcmp` reads when the field holds a NUL, as the entry layout
prescribes.  On a field without a NUL `strcmp` reads on into the bytes that
follow (see `strAt`) and this loop does not follow it: the loop is that of the
source on images whose name fields hold a NUL, which `NamesTerminatedAlong`
states for the arrays scanned along a path. -/
def scanEntries (current : Option CStr) (onHit : Nat → Entry → Option Lookup) :
    Nat → List Entry → Option Lookup
  | _, [] => some (Lookup.err (-1))
  | i, e :: es =>
    match current with
    | none => none
    | some c => if c = cstr e.filename then onHit i e else scanEntries current onHit (i + 1) es

/-- Embedding of `get_entry_rec`.  The first argument bounds the recursion depth:
each call passes a strictly shorter string on, so the bound `get_entry` gives
is never used up.  The test `!path || !parent` is left out: no call of the
source passes a NULL there. -/
def get_entry_rec (L : Layout) (d : Disk) :
    Nat → List Byte → Nat → Nat → Option Lookup
  | 0, _, _, _ => none
  | fuel + 1, path, parent_nentries, parent_blockidx =>
    let toks := strtok2 (cstr path)
    let current := toks.1
    let next := toks.2
    if parent_nentries = L.ROOTDIR_NENTRIES then
      scanEntries current
        (fun i e =>
          match next with
          | none => some (Lookup.found e ((L.ROOTDIR_OFF + i * L.ENTRY_SIZE) % 2 ^ 32))
          | some nx => get_entry_rec L d fuel nx L.DIR_NENTRIES e.first_block)
        0 (readRoot L d)
    else if parent_nentries = L.DIR_NENTRIES then
      scanEntries current
        (fun i e =>
          match next with
          | none =>
            some (Lookup.found e ((L.blockOff parent_blockidx + i * L.ENTRY_SIZE) % 2 ^ 32))
          | some nx => get_entry_rec L d fuel nx L.DIR_NENTRIES e.first_block)
        0 (readDir L d parent_blockidx)
    else some (Lookup.err (-ENOENT))

/-- Embedding of `get_entry`. -/
def get_entry (L : Layout) (d : Disk) (path : List Byte) : Option Lookup :=
  get_entry_rec L d (path.length + 1) path L.ROOTDIR_NENTRIES 0

/-! ## sfs_getattr -/

/-- The fields of `struct stat` that `sfs_getattr` derives from the image
(uid, gid and the two timestamps come from the process and the clock). -/
structure Stat where
  st_mode : Nat
  st_nlink : Nat
  st_size : Nat
deriving DecidableEq, Repr

def S_IFDIR : Nat := 0o040000
def S_IFREG : Nat := 0o100000

/-- Embedding of `sfs_getattr`: the return code and the `struct stat` filled in. -/
def sfs_getattr (L : Layout) (d : Disk) (path : List Byte) : Option (Int × Stat) :=
  let st : Stat := { st_mode := 0, st_nlink := 0, st_size := 0 }
  if cstr path = [SLASH] then
    some (0, { st with st_mode := S_IFDIR ||| 0o755, st_nlink := 2 })
  else
    match get_entry L d path with
    | none => none
    | some (Lookup.found entry _) =>
      if entry.size &&& L.DIRECTORY ≠ 0 then
        some (0, { st with st_mode := S_IFDIR ||| 0o755, st_nlink := 2 })
      else
        some (0, { st with st_mode := S_IFREG ||| 0o644, st_nlink := 1,
                           st_size := entry.size &&& L.SIZEMASK })
    | some (Lookup.err _) => some (-ENOENT, st)

/-! ## sfs_readdir -/

def DOT : CStr := [46]
def DOTDOT : CStr := [46, 46]

/-- The C string read at offset `off` of an array that holds the bytes `mem`:
what a callee sees that is handed the address of a name field.  The read goes
on to the first NUL, past the end of the field when the field holds none (the
bytes of `size`, of `first_block` and of the next entries follow in memory);
`none` when no NUL follows inside the array, where the read leaves the array. -/
def strAt (mem : List Byte) (off : Nat) : Option CStr :=
  if (0 : Byte) ∈ mem.drop off then some (cstr (mem.drop off)) else none

/-- The listing loop over the array `disk_read` has filled, held as its bytes
`mem`: slots `i`, `i + 1`, ... (`k` of them), one `filler` call per slot whose
`filename[0]` is not NUL; `filler` gets the address of the name field and
reads a C string there. -/
def listNames (L : Layout) (mem : List Byte) : Nat → Nat → Option (List CStr)
  | _, 0 => some []
  | i, k + 1 =>
    if mem.getD (i * L.ENTRY_SIZE) 0 = 0 then listNames L mem (i + 1) k
    else
      match strAt mem (i * L.ENTRY_SIZE) with
      | none => none
      | some name => (listNames L mem (i + 1) k).map (fun names => name :: names)

/-- Embedding of `sfs_readdir`: the return code and the names handed to `filler`, in call order. -/
def sfs_readdir (L : Layout) (d : Disk) (path : List Byte) : Option (Int × List CStr) :=
  if cstr path = [SLASH] then
    (listNames L (disk_read d L.ROOTDIR_SIZE L.ROOTDIR_OFF) 0 L.ROOTDIR_NENTRIES).map
      (fun names => (0, DOT :: DOTDOT :: names))
  else
    match get_entry L d path with
    | none => none
    | some (Lookup.found entry _) =>
      if entry.size &&& L.DIRECTORY ≠ 0 then
        (listNames L (disk_read d L.DIR_SIZE (L.blockOff entry.first_block)) 0
          L.DIR_NENTRIES).map (fun names => (0, DOT :: DOTDOT :: names))
      else some (-ENOENT, [])
    | some (Lookup.err _) => some (-ENOENT, [])

/-! ## sfs_read -/

/-- Conversion of a `size_t` to the `int` the handler returns. -/
def toInt32 (n : Nat) : Int :=
  if n % 2 ^ 32 < 2 ^ 31 then ((n % 2 ^ 32 : Nat) : Int) else ((n % 2 ^ 32 : Nat) : Int) - 2 ^ 32

/-- First loop of `sfs_read`: follow `block_index` links, stopping at END. -/
def skipBlocks (L : Layout) (table : List Nat) : Nat → Nat → Option Nat
  | 0, block => some block
  | k + 1, block =>
    if block = L.BLOCKIDX_END then some block
    else
      match table[block]? with
      | none => none
      | some nb => if nb = L.BLOCKIDX_END then some nb else skipBlocks L table k nb

/-- Second loop of `sfs_read`: the bytes appended to `buf`; the first argument
bounds the number of iterations. -/
def copyLoop (L : Layout) (d : Disk) (table : List Nat) :
    Nat → Nat → Nat → Nat → Option (List Byte)
  | 0, size, block, _ => if 0 < size ∧ block ≠ L.BLOCKIDX_END then none else some []
  | fuel + 1, size, block, block_offset =>
    if 0 < size ∧ block ≠ L.BLOCKIDX_END then
      let block_buffer := disk_read d L.BLOCK_SIZE (L.blockOff block)
      let bytes_block :=
        if L.BLOCK_SIZE - block_offset > size then size else L.BLOCK_SIZE - block_offset
      let chunk := (block_buffer.drop block_offset).take bytes_block
      match table[block]? with
      | none => none
      | some nb => (copyLoop L d table fuel (size - bytes_block) nb 0).map (fun r => chunk ++ r)
    else some []

/-- Embedding of `sfs_read`: the return value and the bytes stored at `buf[0..)`. -/
def sfs_read (L : Layout) (d : Disk) (path : List Byte) (size : Nat) (offset : Int) :
    Option (Int × List Byte) :=
  match get_entry L d path with
  | none => none
  | some (Lookup.err _) => some (-EISDIR, [])
  | some (Lookup.found entry _) =>
    if entry.size &&& L.DIRECTORY ≠ 0 then some (-EISDIR, [])
    else
      let file_size := entry.size &&& L.SIZEMASK
      let uoff := (offset % 2 ^ 64).toNat
      if uoff ≥ file_size then some (0, [])
      else
        let size := if (size + uoff) % 2 ^ 64 > file_size then file_size - uoff else size
        if L.BLOCK_SIZE = 0 then none
        else
          let block_table := readTable L d
          let block_offset := ((Int.tmod offset L.BLOCK_SIZE) % 2 ^ 64).toNat
          let block_index := (Int.tdiv offset L.BLOCK_SIZE).toNat
          match skipBlocks L block_table block_index entry.first_block with
          | none => none
          | some block =>
            match copyLoop L d block_table size size block block_offset with
            | none => none
            | some buf => some (toInt32 buf.length, buf)

/-! ## Shared pieces of the writers -/

/-- Index of the first slot satisfying `p` (a `for` loop that stops at the first hit). -/
def findSlot (p : Entry → Bool) : List Entry → Option Nat
  | [] => none
  | e :: es => if p e then some 0 else (findSlot p es).map (fun i => i + 1)

/-- Slot test `strlen(e.filename) == 0`. -/
def isEmptySlot (e : Entry) : Bool := strlen e.filename = 0

/-- Slot test `strcmp(e.filename, name) == 0`. -/
def hasName (name : CStr) (e : Entry) : Bool := cstr e.filename = cstr name

/-- The scan of `sfs_mkdir` for two adjacent EMPTY cells, from index `i`, `k` indices to try. -/
def findFreePair (L : Layout) (table : List Nat) : Nat → Nat → Option Nat
  | _, 0 => none
  | i, k + 1 =>
    if table.getD i 0 = L.BLOCKIDX_EMPTY ∧ table.getD (i + 1) 0 = L.BLOCKIDX_EMPTY then some i
    else findFreePair L table (i + 1) k

/-- The release loop of `sfs_rmdir` and `sfs_unlink`.  Once a cell is met a
second time the walk is caught in it, so `SFS_BLOCKTBL_NENTRIES + 2` rounds
decide whether the loop ends. -/
def freeChain (L : Layout) : Nat → List Nat → Nat → Option (List Nat)
  | 0, _, _ => none
  | fuel + 1, table, block =>
    if block = L.BLOCKIDX_END then some table
    else
      match table[block]? with
      | none => none
      | some next => freeChain L fuel (table.set block (L.BLOCKIDX_EMPTY % L.IDX_MOD)) next

/-- The slot written by `sfs_mkdir` into its parent. -/
def mkdirSlot (L : Layout) (first_block : Nat) (new_dir : CStr) (e : Entry) : Entry :=
  { filename := strcpy e.filename new_dir
    size := L.DIRECTORY % L.SIZE_MOD
    first_block := first_block }

/-- The slot written by `sfs_create` into its parent. -/
def createSlot (L : Layout) (file : CStr) (e : Entry) : Entry :=
  { filename := strcpy e.filename file
    size := 0
    first_block := L.BLOCKIDX_END % L.IDX_MOD }

/-- The slot left behind by `sfs_rmdir` and `sfs_unlink`. -/
def clearedSlot (L : Layout) (e : Entry) : Entry :=
  { filename := clearName e.filename
    size := 0
    first_block := L.BLOCKIDX_EMPTY % L.IDX_MOD }

/-- The array `new_entries` of `sfs_mkdir` after its initialising loop; `stack`
holds the bytes the automatic array had before. -/
def newEntries (L : Layout) (stack : Disk) : List Entry :=
  (readEntries L stack 0 L.DIR_NENTRIES).map (clearedSlot L)

/-- The variable `parent_path` after the `strlen(parent_path) == 0` fix-up. -/
def fixParent (parent_path : CStr) : CStr :=
  if strlen parent_path = 0 then [SLASH] else parent_path

/-! ## sfs_mkdir -/

/-- The allocation step of `sfs_mkdir`: the value of `first_block` after the scan and the image after it. -/
def mkdirAlloc (L : Layout) (d : Disk) : Nat × Disk :=
  let block_table := readTable L d
  match findFreePair L block_table 0 (L.BLOCKTBL_NENTRIES - 1) with
  | some i =>
    let first_block := i % L.IDX_MOD
    let second_block := (i + 1) % L.IDX_MOD
    let t1 := block_table.set first_block second_block
    let t2 := t1.set second_block (L.BLOCKIDX_END % L.IDX_MOD)
    (first_block, writeTable L d t2)
  | none => (L.BLOCKIDX_EMPTY % L.IDX_MOD, d)

/-- Embedding of `sfs_mkdir`: the return code and the image afterwards; `stack`
holds the bytes of the automatic array `new_entries` before it is initialised. -/
def sfs_mkdir (L : Layout) (d : Disk) (stack : Disk) (path : List Byte) : Option (Int × Disk) :=
  match splitLast path with
  | none => none
  | some (parent0, new_dir) =>
    let parent_path := fixParent parent0
    if strlen new_dir ≥ L.FILENAME_MAX then some (-ENAMETOOLONG, d)
    else if L.BLOCKTBL_NENTRIES = 0 then none
    else
      let root_dir := readRoot L d
      let alloc := mkdirAlloc L d
      let first_block := alloc.1
      let d1 := alloc.2
      if cstr parent_path = [SLASH] then
        match findSlot isEmptySlot root_dir with
        | some i =>
          let d2 := writeRoot L d1 (root_dir.modify (mkdirSlot L first_block new_dir) i)
          some (0, writeDir L d2 first_block (newEntries L stack))
        | none => some (-1, d1)
      else
        match get_entry L d1 parent_path with
        | none => none
        | some (Lookup.err _) => some (-1, d1)
        | some (Lookup.found new_entry _) =>
          let entries := readDir L d1 new_entry.first_block
          match findSlot isEmptySlot entries with
          | some i =>
            let d2 := writeDir L d1 new_entry.first_block
              (entries.modify (mkdirSlot L first_block new_dir) i)
            some (0, writeDir L d2 first_block (newEntries L stack))
          | none => some (-1, d1)

/-! ## sfs_rmdir, sfs_unlink -/

/-- Last step of `sfs_rmdir` and `sfs_unlink`: release the chain starting at
`first_block` in the table read at entry, then write the table back. -/
def releaseChain (L : Layout) (block_table : List Nat) (first_block : Nat) (d2 : Disk) :
    Option (Int × Disk) :=
  match freeChain L (L.BLOCKTBL_NENTRIES + 2) block_table first_block with
  | none => none
  | some t => some (0, writeTable L d2 t)

/-- The part shared by `sfs_rmdir` and `sfs_unlink`: clear the first slot of the
parent named `name`, then release the chain of `target`. -/
def removeEntry (L : Layout) (d : Disk) (parent_path name : CStr) (target : Entry) :
    Option (Int × Disk) :=
  let root_dir := readRoot L d
  let block_table := readTable L d
  if cstr parent_path = [SLASH] then
    match findSlot (hasName name) root_dir with
    | some i =>
      releaseChain L block_table target.first_block
        (writeRoot L d (root_dir.modify (clearedSlot L) i))
    | none => releaseChain L block_table target.first_block d
  else
    match get_entry L d parent_path with
    | none => none
    | some (Lookup.err _) => some (-ENOENT, d)
    | some (Lookup.found parent_entry _) =>
      let parent_entries := readDir L d parent_entry.first_block
      match findSlot (hasName name) parent_entries with
      | some i =>
        releaseChain L block_table target.first_block
          (writeDir L d parent_entry.first_block (parent_entries.modify (clearedSlot L) i))
      | none => releaseChain L block_table target.first_block d

/-- The local `struct sfs_entry` after the unchecked `get_entry` call of
`sfs_rmdir` / `sfs_unlink`: filled on success, otherwise what it held before. -/
def entryAfter (uninit : Entry) : Lookup → Entry
  | Lookup.found e _ => e
  | Lookup.err _ => uninit

/-- Embedding of `sfs_rmdir`: the return code and the image afterwards; `uninit`
is what the automatic `dir_entry` holds before the `get_entry` call. -/
def sfs_rmdir (L : Layout) (d : Disk) (uninit : Entry) (path : List Byte) : Option (Int × Disk) :=
  match splitLast path with
  | none => none
  | some (parent0, dir) =>
    let parent_path := fixParent parent0
    match get_entry L d path with
    | none => none
    | some res =>
      let dir_entry := entryAfter uninit res
      let dir_entries := readDir L d dir_entry.first_block
      if dir_entries.any (fun e => e.filename.headD 0 ≠ 0) then some (-ENOTEMPTY, d)
      else removeEntry L d parent_path dir dir_entry

/-- Embedding of `sfs_unlink`: the return code and the image afterwards; `uninit`
is what the automatic `file_entry` holds before the `get_entry` call. -/
def sfs_unlink (L : Layout) (d : Disk) (uninit : Entry) (path : List Byte) : Option (Int × Disk) :=
  match splitLast path with
  | none => none
  | some (parent0, file) =>
    let parent_path := fixParent parent0
    match get_entry L d path with
    | none => none
    | some res => removeEntry L d parent_path file (entryAfter uninit res)

/-! ## sfs_create -/

/-- Embedding of `sfs_create`: the return code and the image afterwards. -/
def sfs_create (L : Layout) (d : Disk) (path : List Byte) : Option (Int × Disk) :=
  match splitLast path with
  | none => none
  | some (parent0, file) =>
    if strlen file ≥ L.FILENAME_MAX then some (-ENAMETOOLONG, d)
    else
      let parent_path := fixParent parent0
      let root_dir := readRoot L d
      if cstr parent_path = [SLASH] then
        match findSlot isEmptySlot root_dir with
        | some i => some (0, writeRoot L d (root_dir.modify (createSlot L file) i))
        | none => some (-ENOSPC, d)
      else
        match get_entry L d parent_path with
        | none => none
        | some (Lookup.err _) => some (-ENOENT, d)
        | some (Lookup.found parent_entry _) =>
          let parent_entries := readDir L d parent_entry.first_block
          match findSlot isEmptySlot parent_entries with
          | some i =>
            some (0, writeDir L d parent_entry.first_block
              (parent_entries.modify (createSlot L file) i))
          | none => some (-ENOSPC, d)

/-! ## Vocabulary of the statements -/

/-- An entry as it can sit in the image: name of full width, fields in range. -/
def Entry.WF (L : Layout) (e : Entry) : Prop :=
  e.filename.length = L.FILENAME_MAX ∧ e.size < L.SIZE_MOD ∧ e.first_block < L.IDX_MOD

/-- A path component: non-empty, free of slashes and NULs. -/
def validComp (c : CStr) : Prop := c ≠ [] ∧ ∀ b ∈ c, b ≠ SLASH ∧ b ≠ 0

instance (c : CStr) : Decidable (validComp c) :=
  decidable_of_iff (c ≠ [] ∧ c.all (fun b => b ≠ SLASH && b ≠ 0) = true)
    (by simp [validComp, List.all_eq_true])

/-- The text `c1/c2/.../cn` (what `get_entry_rec` receives below the top level). -/
def relPath : List CStr → List Byte
  | [] => []
  | [c] => c
  | c :: cs => c ++ SLASH :: relPath cs

/-- The absolute path `/c1/c2/.../cn`. -/
def joinPath (comps : List CStr) : List Byte := SLASH :: relPath comps

/-- Where an entry sits: slot `slot` of the root array (`block = none`) or of
the entry array in data block `b` (`block = some b`). -/
structure Place where
  block : Option Nat
  slot : Nat
  entry : Entry
deriving DecidableEq, Repr

/-- The entry array of a directory: the root region or a data block. -/
def dirArray (L : Layout) (d : Disk) : Option Nat → List Entry
  | none => readRoot L d
  | some b => readDir L d b

/-- Byte offset of the array of a directory. -/
def dirOff (L : Layout) : Option Nat → Nat
  | none => L.ROOTDIR_OFF
  | some b => L.blockOff b

/-- Number of slots of the array of a directory. -/
def dirLen (L : Layout) : Option Nat → Nat
  | none => L.ROOTDIR_NENTRIES
  | some _ => L.DIR_NENTRIES

/-- Byte offset of a place in the image. -/
def Place.off (L : Layout) (p : Place) : Nat := dirOff L p.block + p.slot * L.ENTRY_SIZE

/-- First-match resolution, written after the description of the resolver: in
the current array take the first slot whose name is the component; at the last
component stop there, otherwise go on in the block its `first_block` names. -/
def resolveFirst (L : Layout) (d : Disk) : List CStr → Option Nat → Option Place
  | [], _ => none
  | c :: cs, blk =>
    match (dirArray L d blk).findIdx? (fun e => decide (cstr e.filename = c)) with
    | none => none
    | some i =>
      match (dirArray L d blk)[i]? with
      | none => none
      | some e =>
        match cs with
        | [] => some { block := blk, slot := i, entry := e }
        | _ :: _ => resolveFirst L d cs (some e.first_block)

/-- The answer of `get_entry` that corresponds to a resolution result. -/
def toLookup (L : Layout) : Option Place → Lookup
  | some p => Lookup.found p.entry (p.off L % 2 ^ 32)
  | none => Lookup.err (-1)

/-! ## A worked image -/

/-- A small layout for worked examples: names of 4 bytes, 32-bit sizes with the
directory flag in the top bit, 16-bit block indices, 3 root slots, 2 slots per
sub-directory, 8 blocks of 20 bytes. -/
def demoLayout : Layout :=
  { FILENAME_MAX := 4, SIZE_BYTES := 4, IDX_BYTES := 2, ROOTDIR_NENTRIES := 3, DIR_NENTRIES := 2,
    BLOCKTBL_NENTRIES := 8, BLOCK_SIZE := 20, ROOTDIR_OFF := 2, BLOCKTBL_OFF := 32, DATA_OFF := 48,
    BLOCKIDX_EMPTY := 65535, BLOCKIDX_END := 65534, DIRECTORY := 2 ^ 31, SIZEMASK := 2 ^ 31 - 1 }

/-- The bytes of the worked image.  Root: directory `a` (blocks 0, 1), file `f`
of 25 bytes (blocks 4, 5), one empty slot.  Directory `a`: directory `b`
(blocks 2, 3) and one empty slot.  Directory `b` is empty.  Blocks 6 and 7 are free. -/
def demoBytes : List Byte :=
  [83, 70, 97, 0, 0, 0, 0, 0, 0, 128, 0, 0, 102, 0, 0, 0,
   25, 0, 0, 0, 4, 0, 0, 0, 0, 0, 0, 0, 0, 0, 255, 255,
   1, 0, 254, 255, 3, 0, 254, 255, 5, 0, 254, 255, 255, 255, 255, 255,
   98, 0, 0, 0, 0, 0, 0, 128, 2, 0, 0, 0, 0, 0, 0, 0,
   0, 0, 255, 255, 0, 0, 0, 0, 0, 0, 0, 0, 0, 0, 0, 0,
   0, 0, 0, 0, 0, 0, 0, 0, 0, 0, 0, 0, 0, 0, 0, 0,
   255, 255, 0, 0, 0, 0, 0, 0, 0, 0, 255, 255, 0, 0, 0, 0,
   0, 0, 0, 0, 0, 0, 0, 0, 0, 0, 0, 0, 0, 0, 0, 0,
   100, 101, 102, 103, 104, 105, 106, 107, 108, 109, 110, 111, 112, 113, 114, 115,
   116, 117, 118, 119, 120, 121, 122, 123, 124, 125, 126, 127, 128, 129, 130, 131,
   132, 133, 134, 135, 136, 137, 138, 139, 0, 0, 0, 0, 0, 0, 0, 0,
   0, 0, 0, 0, 0, 0, 0, 0, 0, 0, 0, 0, 0, 0, 0, 0,
   0, 0, 0, 0, 0, 0, 0, 0, 0, 0, 0, 0, 0, 0, 0, 0]

def demoImage : Disk := fun a => demoBytes.getD a 0

/-- The text `a`. -/
def nameA : CStr := [97]

/-- The text `b`. -/
def nameB : CStr := [98]

/-- The text `f`. -/
def nameF : CStr := [102]

/-- The text `x`. -/
def nameX : CStr := [120]

/-- The list `bs` is an initial stretch of the chain that starts at `b`: every
block on it is an index into the table and differs from END, and the table
links each block to the next. -/
def IsChain (L : Layout) (table : List Nat) : Nat → List Nat → Prop
  | _, [] => True
  | b, x :: xs =>
    x = b ∧ b ≠ L.BLOCKIDX_END ∧ b < table.length ∧ IsChain L table (table.getD b 0) xs

/-- Decision procedure for `IsChain`. -/
def IsChain.dec (L : Layout) (table : List Nat) :
    ∀ (b : Nat) (bs : List Nat), Decidable (IsChain L table b bs)
  | _, [] => isTrue trivial
  | b, x :: xs =>
    match IsChain.dec L table (table.getD b 0) xs with
    | isTrue h =>
      if h1 : x = b ∧ b ≠ L.BLOCKIDX_END ∧ b < table.length then
        isTrue ⟨h1.1, h1.2.1, h1.2.2, h⟩
      else isFalse (fun hh => h1 ⟨hh.1, hh.2.1, hh.2.2.1⟩)
    | isFalse h => isFalse (fun hh => h hh.2.2.2)

instance (L : Layout) (table : List Nat) (b : Nat) (bs : List Nat) :
    Decidable (IsChain L table b bs) := IsChain.dec L table b bs

/-- The data blocks of a chain, concatenated in chain order. -/
def chainBytes (L : Layout) (d : Disk) (bs : List Nat) : List Byte :=
  (bs.map (fun b => disk_read d L.BLOCK_SIZE (L.blockOff b))).flatten

/-- The directory a writer works in, located the way `sfs_create`, `sfs_mkdir`,
`sfs_rmdir` and `sfs_unlink` locate it: the root array when the parent path is
`/`, else the array in the block named by the entry that `get_entry` returns
for the parent path; `none` when the parent does not resolve. -/
def parentBlock (L : Layout) (d : Disk) (parent_path : CStr) : Option (Option Nat) :=
  if cstr parent_path = [SLASH] then some none
  else
    match get_entry L d parent_path with
    | some (Lookup.found parent_entry _) => some (some parent_entry.first_block)
    | _ => none

/-- The list `bs` is the whole chain of an entry whose `first_block` is `b`:
the blocks met from `b` by following the table, up to the END mark. -/
def IsFullChain (L : Layout) (table : List Nat) : Nat → List Nat → Prop
  | b, [] => b = L.BLOCKIDX_END
  | b, x :: xs =>
    x = b ∧ b ≠ L.BLOCKIDX_END ∧ b < table.length ∧ IsFullChain L table (table.getD b 0) xs

/-- Decision procedure for `IsFullChain`. -/
def IsFullChain.dec (L : Layout) (table : List Nat) :
    ∀ (b : Nat) (bs : List Nat), Decidable (IsFullChain L table b bs)
  | b, [] => inferInstanceAs (Decidable (b = L.BLOCKIDX_END))
  | b, x :: xs =>
    match IsFullChain.dec L table (table.getD b 0) xs with
    | isTrue h =>
      if h1 : x = b ∧ b ≠ L.BLOCKIDX_END ∧ b < table.length then
        isTrue ⟨h1.1, h1.2.1, h1.2.2, h⟩
      else isFalse (fun hh => h1 ⟨hh.1, hh.2.1, hh.2.2.1⟩)
    | isFalse h => isFalse (fun hh => h hh.2.2.2)

instance (L : Layout) (table : List Nat) (b : Nat) (bs : List Nat) :
    Decidable (IsFullChain L table b bs) := IsFullChain.dec L table b bs

/-- The table after the release loop: the cells of the chain hold EMPTY. -/
def clearCells (L : Layout) (bs : List Nat) (t : List Nat) : List Nat :=
  bs.foldl (fun t x => t.set x (L.BLOCKIDX_EMPTY % L.IDX_MOD)) t

/-- The array in which the component that follows the prefix `pre` is looked
up: the root array after the empty prefix, else the block named by the entry
the prefix resolves to. -/
def lookupArr (L : Layout) (d : Disk) (pre : List CStr) : Option (Option Nat) :=
  if pre = [] then some none
  else (resolveFirst L d pre none).map (fun q => some q.entry.first_block)

/-- The prefix `pre` resolves to an entry that carries the DIRECTORY flag. -/
def IsDirAt (L : Layout) (d : Disk) (pre : List CStr) : Prop :=
  match resolveFirst L d pre none with
  | some q => q.entry.size &&& L.DIRECTORY ≠ 0
  | none => False

instance (L : Layout) (d : Disk) (pre : List CStr) : Decidable (IsDirAt L d pre) := by
  unfold IsDirAt
  cases resolveFirst L d pre none with
  | none => exact isFalse (fun h => h)
  | some q => exact inferInstanceAs (Decidable (q.entry.size &&& L.DIRECTORY ≠ 0))

/-- Every component of `cs` is reached through directories and is itself a
directory: each non-empty prefix of `cs` resolves to an entry with the
DIRECTORY flag (the traversal rule of the path resolver's description). -/
def DirsAlong (L : Layout) (d : Disk) (cs : List CStr) : Prop :=
  ∀ k, k < cs.length → IsDirAt L d (cs.take (k + 1))

instance (L : Layout) (d : Disk) (cs : List CStr) : Decidable (DirsAlong L d cs) :=
  inferInstanceAs (Decidable (∀ k, k < cs.length → IsDirAt L d (cs.take (k + 1))))

/-- The blocks named by the entries met along `cs` are in use: for each
non-empty prefix of `cs` that resolves, the table cell of the resolved entry's
`first_block` is not EMPTY (a block on a live chain is not free). -/
def InUseAlong (L : Layout) (d : Disk) (cs : List CStr) : Prop :=
  ∀ k, k < cs.length →
    match resolveFirst L d (cs.take (k + 1)) none with
    | some q => (readTable L d)[q.entry.first_block]? ≠ some L.BLOCKIDX_EMPTY
    | none => True

instance (L : Layout) (d : Disk) (cs : List CStr) : Decidable (InUseAlong L d cs) := by
  unfold InUseAlong
  have : ∀ k, Decidable (match resolveFirst L d (cs.take (k + 1)) none with
      | some q => (readTable L d)[q.entry.first_block]? ≠ some L.BLOCKIDX_EMPTY
      | none => True) := by
    intro k
    cases resolveFirst L d (cs.take (k + 1)) none with
    | none => exact isTrue trivial
    | some q =>
      exact inferInstanceAs
        (Decidable ((readTable L d)[q.entry.first_block]? ≠ some L.BLOCKIDX_EMPTY))
  exact Nat.decidableBallLT _ _

/-! ## Sequences of calls -/

/-- One call of the operation engine, together with what the automatic
variables it reads before writing hold at that moment. -/
inductive Op where
  | create (path : List Byte)
  | mkdir (path : List Byte) (stack : Disk)
  | unlink (path : List Byte) (uninit : Entry)
  | rmdir (path : List Byte) (uninit : Entry)

/-- The call an `Op` stands for. -/
def Op.run (L : Layout) (d : Disk) : Op → Option (Int × Disk)
  | Op.create path => sfs_create L d path
  | Op.mkdir path stack => sfs_mkdir L d stack path
  | Op.unlink path uninit => sfs_unlink L d uninit path
  | Op.rmdir path uninit => sfs_rmdir L d uninit path

/-- The image after a sequence of calls, each working on what the one before
left (whatever it returned); `none` when one of them does not return. -/
def runOps (L : Layout) (d : Disk) : List Op → Option Disk
  | [] => some d
  | op :: ops =>
    match op.run L d with
    | none => none
    | some r => runOps L r.2 ops

/-- The return codes of a sequence of calls, in call order. -/
def runCodes (L : Layout) (d : Disk) : List Op → Option (List Int)
  | [] => some []
  | op :: ops =>
    match op.run L d with
    | none => none
    | some r => (runCodes L r.2 ops).map (fun cs => r.1 :: cs)

/-- A freshly formatted image: every root slot empty, every table cell EMPTY. -/
def Fresh (L : Layout) (d : Disk) : Prop :=
  (∀ e ∈ readRoot L d, cstr e.filename = []) ∧ (∀ x ∈ readTable L d, x = L.BLOCKIDX_EMPTY)

instance (L : Layout) (d : Disk) : Decidable (Fresh L d) :=
  inferInstanceAs (Decidable ((∀ e ∈ readRoot L d, cstr e.filename = []) ∧
    (∀ x ∈ readTable L d, x = L.BLOCKIDX_EMPTY)))

/-- The bytes of a freshly formatted image for `demoLayout`. -/
def freshBytes : List Byte :=
  [83, 70, 0, 0, 0, 0, 0, 0, 0, 0, 255, 255, 0, 0, 0, 0,
   0, 0, 0, 0, 255, 255, 0, 0, 0, 0, 0, 0, 0, 0, 255, 255,
   255, 255, 255, 255, 255, 255, 255, 255, 255, 255, 255, 255, 255, 255, 255, 255,
   0, 0, 0, 0, 0, 0, 0, 0, 0, 0, 0, 0, 0, 0, 0, 0,
   0, 0, 0, 0, 0, 0, 0, 0, 0, 0, 0, 0, 0, 0, 0, 0,
   0, 0, 0, 0, 0, 0, 0, 0, 0, 0, 0, 0, 0, 0, 0, 0,
   0, 0, 0, 0, 0, 0, 0, 0, 0, 0, 0, 0, 0, 0, 0, 0,
   0, 0, 0, 0, 0, 0, 0, 0, 0, 0, 0, 0, 0, 0, 0, 0,
   0, 0, 0, 0, 0, 0, 0, 0, 0, 0, 0, 0, 0, 0, 0, 0,
   0, 0, 0, 0, 0, 0, 0, 0, 0, 0, 0, 0, 0, 0, 0, 0,
   0, 0, 0, 0, 0, 0, 0, 0, 0, 0, 0, 0, 0, 0, 0, 0,
   0, 0, 0, 0, 0, 0, 0, 0, 0, 0, 0, 0, 0, 0, 0, 0,
   0, 0, 0, 0, 0, 0, 0, 0, 0, 0, 0, 0, 0, 0, 0, 0]

def demoFresh : Disk := fun a => freshBytes.getD a 0

/-- The bytes of a second worked image: as `demoBytes`, but the third root slot
holds a file `g` of 5 bytes in block 6 (all of whose bytes are 0), so that the
block table has no two adjacent EMPTY cells. -/
def fullBytes : List Byte :=
  [83, 70, 97, 0, 0, 0, 0, 0, 0, 128, 0, 0, 102, 0, 0, 0,
   25, 0, 0, 0, 4, 0, 103, 0, 0, 0, 5, 0, 0, 0, 6, 0,
   1, 0, 254, 255, 3, 0, 254, 255, 5, 0, 254, 255, 254, 255, 255, 255,
   98, 0, 0, 0, 0, 0, 0, 128, 2, 0, 0, 0, 0, 0, 0, 0,
   0, 0, 255, 255, 0, 0, 0, 0, 0, 0, 0, 0, 0, 0, 0, 0,
   0, 0, 0, 0, 0, 0, 0, 0, 0, 0, 0, 0, 0, 0, 0, 0,
   255, 255, 0, 0, 0, 0, 0, 0, 0, 0, 255, 255, 0, 0, 0, 0,
   0, 0, 0, 0, 0, 0, 0, 0, 0, 0, 0, 0, 0, 0, 0, 0,
   100, 101, 102, 103, 104, 105, 106, 107, 108, 109, 110, 111, 112, 113, 114, 115,
   116, 117, 118, 119, 120, 121, 122, 123, 124, 125, 126, 127, 128, 129, 130, 131,
   132, 133, 134, 135, 136, 137, 138, 139, 0, 0, 0, 0, 0, 0, 0, 0,
   0, 0, 0, 0, 0, 0, 0, 0, 0, 0, 0, 0, 0, 0, 0, 0,
   0, 0, 0, 0, 0, 0, 0, 0, 0, 0, 0, 0, 0, 0, 0, 0]

def demoFull : Disk := fun a => fullBytes.getD a 0

/-- The text `g`. -/
def nameG : CStr := [103]

/-- The text `c`. -/
def nameC : CStr := [99]

/-- The text `defg`, which the first four bytes of the file `f` spell. -/
def nameDEFG : CStr := [100, 101, 102, 103]

/-! ## Invariants of the image -/

/-- No two non-empty slots of an entry array carry the same filename. -/
def UniqueNames (es : List Entry) : Prop :=
  es.Pairwise (fun (a b : Entry) => cstr a.filename ≠ [] → cstr a.filename ≠ cstr b.filename)

instance (es : List Entry) : Decidable (UniqueNames es) :=
  inferInstanceAs (Decidable (es.Pairwise
    (fun (a b : Entry) => cstr a.filename ≠ [] → cstr a.filename ≠ cstr b.filename)))

/-- The entry arrays of the live directories: the root array, and the array in
the block named by a non-empty slot with the DIRECTORY flag of a live array. -/
inductive LiveArr (L : Layout) (d : Disk) : Option Nat → Prop
  | root : LiveArr L d none
  | sub (blk : Option Nat) (k : Nat) (e : Entry) :
      LiveArr L d blk → (dirArray L d blk)[k]? = some e → cstr e.filename ≠ [] →
      e.size &&& L.DIRECTORY ≠ 0 → LiveArr L d (some e.first_block)

/-- The uniqueness invariant: within the root directory and within every
sub-directory's entry array, non-empty filenames are distinct. -/
def Uniqueness (L : Layout) (d : Disk) : Prop :=
  ∀ blk, LiveArr L d blk → UniqueNames (dirArray L d blk)

/-- The condition under which a host that looks a name up before it creates it
calls the engine: `sfs_create` and `sfs_mkdir` get a path `/c1/.../cn` that
does not resolve at the time of the call; `sfs_unlink` and `sfs_rmdir` get any
path. -/
def Op.OnNewPath (L : Layout) (d : Disk) : Op → Prop
  | Op.create path =>
    ∃ cs c, (∀ x ∈ cs ++ [c], validComp x) ∧ path = joinPath (cs ++ [c]) ∧
      get_entry L d path = some (Lookup.err (-1))
  | Op.mkdir path _ =>
    ∃ cs c, (∀ x ∈ cs ++ [c], validComp x) ∧ path = joinPath (cs ++ [c]) ∧
      get_entry L d path = some (Lookup.err (-1))
  | Op.unlink _ _ => True
  | Op.rmdir _ _ => True

/-- Every call of the sequence satisfies `Op.OnNewPath` in the image it works on. -/
def NewPathsOnly (L : Layout) : Disk → List Op → Prop
  | _, [] => True
  | d, op :: ops =>
    op.OnNewPath L d ∧
      match op.run L d with
      | none => True
      | some r => NewPathsOnly L r.2 ops

/-- A set of arrays that holds the root array, is closed under following
non-empty DIRECTORY slots, and in which names are unique: the form in which
uniqueness is carried from one call to the next. -/
def UniqInv (L : Layout) (d : Disk) : Prop :=
  ∃ S : Option Nat → Prop, S none ∧ ∀ blk, S blk →
    UniqueNames (dirArray L d blk) ∧
    ∀ (k : Nat) (e : Entry), (dirArray L d blk)[k]? = some e → cstr e.filename ≠ [] →
      e.size &&& L.DIRECTORY ≠ 0 → S (some e.first_block)

/-- The worked image with the chain of `f` cut short: the table cell of block 4
holds END, so the chain of the 25-byte file has one block of 20 bytes. -/
def demoShort : Disk :=
  writeTable demoLayout demoImage [1, 65534, 3, 65534, 65534, 65535, 65535, 65535]

/-- The worked image with the chain of `f` closed into a cycle: block 4 links
to block 5 and block 5 back to block 4. -/
def demoCycle : Disk :=
  writeTable demoLayout demoImage [1, 65534, 3, 65534, 5, 4, 65535, 65535]

/-- Every name field the resolver compares on its way along `comps` holds a
NUL, so that `strcmp` ends inside the field: for each proper prefix of `comps`
(the empty one leads to the root array) that leads to an array, every entry
of that array has a NUL among its FILENAME_MAX name bytes. -/
def NamesTerminatedAlong (L : Layout) (d : Disk) (comps : List CStr) : Prop :=
  ∀ k, k < comps.length →
    match lookupArr L d (comps.take k) with
    | some blk => ∀ e ∈ dirArray L d blk, (0 : Byte) ∈ e.filename
    | none => True

instance (L : Layout) (d : Disk) (comps : List CStr) :
    Decidable (NamesTerminatedAlong L d comps) := by
  unfold NamesTerminatedAlong
  have : ∀ k, Decidable (match lookupArr L d (comps.take k) with
      | some blk => ∀ e ∈ dirArray L d blk, (0 : Byte) ∈ e.filename
      | none => True) := by
    intro k
    cases lookupArr L d (comps.take k) with
    | none => exact isTrue trivial
    | some blk =>
      exact inferInstanceAs (Decidable (∀ e ∈ dirArray L d blk, (0 : Byte) ∈ e.filename))
  exact Nat.decidableBallLT _ _

/-- The worked image with the first block of the file `f` rewritten: its 20
bytes are those of an entry array whose first slot is named `de` (size 7,
first_block END) and whose second slot is empty. -/
def demoThrough : Disk :=
  disk_write demoImage
    [100, 101, 0, 0, 7, 0, 0, 0, 254, 255, 0, 0, 0, 0, 0, 0, 0, 0, 255, 255]
    (demoLayout.blockOff 4)

/-- The text `de`. -/
def nameDE : CStr := [100, 101]

/-! # Proofs -/

/-! ### Codec and disk -/

theorem length_leEncode (w n : Nat) : (leEncode w n).length = w := by
  induction w generalizing n with
  | zero => rfl
  | succ w ih => simp [leEncode, ih]

theorem leDecode_leEncode (w n : Nat) : leDecode (leEncode w n) = n % 256 ^ w := by
  induction w generalizing n with
  | zero => simp [leEncode, leDecode, Nat.mod_one]
  | succ w ih =>
    simp only [leEncode, leDecode, ih, Fin.ofNat]
    rw [pow_succ, Nat.mul_comm (256 ^ w) 256, Nat.mod_mul]

theorem leDecode_lt (bs : List Byte) : leDecode bs < 256 ^ bs.length := by
  induction bs with
  | nil => simp [leDecode]
  | cons b bs ih =>
    simp only [leDecode, List.length_cons, pow_succ]
    have := b.isLt
    omega

theorem leEncode_leDecode (bs : List Byte) : leEncode bs.length (leDecode bs) = bs := by
  induction bs with
  | nil => rfl
  | cons b bs ih =>
    simp only [List.length_cons, leEncode, leDecode]
    have hb := b.isLt
    congr 1
    · apply Fin.ext
      simp [Fin.ofNat]
    · have : (b.val + 256 * leDecode bs) / 256 = leDecode bs := by omega
      rw [this, ih]

@[simp] theorem length_disk_read (d : Disk) (len off : Nat) : (disk_read d len off).length = len := by
  simp [disk_read]

theorem getElem?_disk_read (d : Disk) (len off k : Nat) :
    (disk_read d len off)[k]? = if k < len then some (d (off + k)) else none := by
  simp only [disk_read, List.getElem?_map, List.getElem?_range']
  by_cases h : k < len
  · simp [h, List.getElem?_range h]
  · simp [h, List.getElem?_eq_none (l := List.range len) (by simpa using h)]

theorem disk_read_congr {d d' : Disk} {len off : Nat}
    (h : ∀ a, off ≤ a → a < off + len → d a = d' a) :
    disk_read d len off = disk_read d' len off := by
  simp only [disk_read]
  apply List.map_congr_left
  intro k hk
  exact h _ (by omega) (by have := List.mem_range.1 hk; omega)

theorem disk_write_out (d : Disk) (buf : List Byte) (off a : Nat)
    (h : a < off ∨ off + buf.length ≤ a) : disk_write d buf off a = d a := by
  simp only [disk_write]
  rw [if_neg]
  omega

theorem disk_write_in (d : Disk) (buf : List Byte) (off a : Nat)
    (h1 : off ≤ a) (h2 : a < off + buf.length) :
    disk_write d buf off a = buf.getD (a - off) (d a) := by
  simp only [disk_write]
  rw [if_pos ⟨h1, h2⟩]

theorem disk_read_write_out (d : Disk) (buf : List Byte) (off len o : Nat)
    (h : o + len ≤ off ∨ off + buf.length ≤ o) :
    disk_read (disk_write d buf off) len o = disk_read d len o := by
  apply disk_read_congr
  intro a h1 h2
  apply disk_write_out
  omega

theorem disk_read_write_in (d : Disk) (buf : List Byte) (off len o : Nat)
    (h1 : off ≤ o) (h2 : o + len ≤ off + buf.length) :
    disk_read (disk_write d buf off) len o = (buf.drop (o - off)).take len := by
  apply List.ext_getElem?
  intro k
  rw [getElem?_disk_read]
  by_cases hk : k < len
  · rw [if_pos hk, List.getElem?_take_of_lt hk, List.getElem?_drop,
      disk_write_in _ _ _ _ (by omega) (by omega)]
    have : o - off + k = o + k - off := by omega
    rw [this, List.getD_eq_getElem?_getD, List.getElem?_eq_getElem (by omega)]
    simp
  · rw [if_neg hk]
    symm
    apply List.getElem?_eq_none
    simp only [List.length_take]
    omega

/-- Slices of a concatenation of equally long pieces. -/
theorem drop_take_flatten {α : Type} (w : Nat) (xs : List (List α))
    (hw : ∀ x ∈ xs, x.length = w) (i : Nat) (hi : i < xs.length) :
    (xs.flatten.drop (i * w)).take w = xs[i] := by
  induction xs generalizing i with
  | nil => simp at hi
  | cons x xs ih =>
    have hx : x.length = w := hw x (by simp)
    cases i with
    | zero =>
      subst hx
      simp [List.take_append_eq_append_take]
    | succ i =>
      have : (i + 1) * w = x.length + i * w := by rw [hx]; ring
      simp only [List.flatten_cons, this, List.drop_append, List.getElem_cons_succ]
      exact ih (fun y hy => hw y (by simp [hy])) i (by simpa using hi)

theorem length_flatten_of_length {α : Type} (w : Nat) (xs : List (List α))
    (hw : ∀ x ∈ xs, x.length = w) : xs.flatten.length = xs.length * w := by
  induction xs with
  | nil => simp
  | cons x xs ih =>
    simp only [List.flatten_cons, List.length_append, List.length_cons]
    rw [ih (fun y hy => hw y (by simp [hy])), hw x (by simp)]
    ring

theorem decodeEntry_WF (L : Layout) (bs : List Byte) (h : bs.length = L.ENTRY_SIZE) :
    (decodeEntry L bs).WF L := by
  simp only [Layout.ENTRY_SIZE] at h
  refine ⟨?_, ?_, ?_⟩
  · simp only [decodeEntry, List.length_take]; omega
  · have := leDecode_lt ((bs.drop L.FILENAME_MAX).take L.SIZE_BYTES)
    have h2 : ((bs.drop L.FILENAME_MAX).take L.SIZE_BYTES).length = L.SIZE_BYTES := by
      simp only [List.length_take, List.length_drop]; omega
    rw [h2] at this
    exact this
  · have := leDecode_lt ((bs.drop (L.FILENAME_MAX + L.SIZE_BYTES)).take L.IDX_BYTES)
    have h2 : ((bs.drop (L.FILENAME_MAX + L.SIZE_BYTES)).take L.IDX_BYTES).length
        = L.IDX_BYTES := by
      simp only [List.length_take, List.length_drop]; omega
    rw [h2] at this
    exact this

theorem readEntry_WF (L : Layout) (d : Disk) (off : Nat) : (readEntry L d off).WF L :=
  decodeEntry_WF L _ (length_disk_read _ _ _)

theorem length_encodeEntry (L : Layout) (e : Entry) (h : e.WF L) :
    (encodeEntry L e).length = L.ENTRY_SIZE := by
  simp [encodeEntry, length_leEncode, h.1, Layout.ENTRY_SIZE, Nat.add_assoc]

theorem decodeEntry_encodeEntry (L : Layout) (e : Entry) (h : e.WF L) :
    decodeEntry L (encodeEntry L e) = e := by
  obtain ⟨h1, h2, h3⟩ := h
  have hs : leDecode (leEncode L.SIZE_BYTES e.size) = e.size := by
    rw [leDecode_leEncode]; exact Nat.mod_eq_of_lt h2
  have hb : leDecode (leEncode L.IDX_BYTES e.first_block) = e.first_block := by
    rw [leDecode_leEncode]; exact Nat.mod_eq_of_lt h3
  cases e with
  | mk fn sz fb =>
    simp only at h1 hs hb
    simp only [decodeEntry, encodeEntry, Entry.mk.injEq, List.append_assoc]
    refine ⟨?_, ?_, ?_⟩
    · rw [List.take_append_of_le_length (by omega), ← h1, List.take_length]
    · rw [← h1, List.drop_left, List.take_append_of_le_length (by simp [length_leEncode]),
        List.take_of_length_le (by simp [length_leEncode]), hs]
    · rw [← List.append_assoc, ← h1]
      have : fn.length + L.SIZE_BYTES = (fn ++ leEncode L.SIZE_BYTES sz).length := by
        simp [length_leEncode]
      rw [this, List.drop_left, List.take_of_length_le (by simp [length_leEncode]), hb]

theorem encodeEntry_decodeEntry (L : Layout) (bs : List Byte) (h : bs.length = L.ENTRY_SIZE) :
    encodeEntry L (decodeEntry L bs) = bs := by
  simp only [Layout.ENTRY_SIZE] at h
  have h1 : ((bs.drop L.FILENAME_MAX).take L.SIZE_BYTES).length = L.SIZE_BYTES := by
    simp only [List.length_take, List.length_drop]; omega
  have h2 : ((bs.drop (L.FILENAME_MAX + L.SIZE_BYTES)).take L.IDX_BYTES).length
      = L.IDX_BYTES := by
    simp only [List.length_take, List.length_drop]; omega
  have e1 := leEncode_leDecode ((bs.drop L.FILENAME_MAX).take L.SIZE_BYTES)
  have e2 := leEncode_leDecode ((bs.drop (L.FILENAME_MAX + L.SIZE_BYTES)).take L.IDX_BYTES)
  rw [h1] at e1
  rw [h2] at e2
  simp only [encodeEntry, decodeEntry, e1, e2]
  rw [List.take_of_length_le (l := List.drop (L.FILENAME_MAX + L.SIZE_BYTES) bs)
    (by simp only [List.length_drop]; omega)]
  rw [← List.drop_drop, List.append_assoc, List.take_append_drop, List.take_append_drop]

theorem length_readEntries (L : Layout) (d : Disk) (off n : Nat) :
    (readEntries L d off n).length = n := by
  simp [readEntries]

theorem getElem_readEntries (L : Layout) (d : Disk) (off n i : Nat)
    (h : i < (readEntries L d off n).length) :
    (readEntries L d off n)[i] = readEntry L d (off + i * L.ENTRY_SIZE) := by
  simp [readEntries]

theorem readEntries_WF (L : Layout) (d : Disk) (off n : Nat) :
    ∀ e ∈ readEntries L d off n, e.WF L := by
  intro e he
  simp only [readEntries, List.mem_map] at he
  obtain ⟨i, _, rfl⟩ := he
  exact readEntry_WF L d _

theorem length_encodeEntries (L : Layout) (es : List Entry) (h : ∀ e ∈ es, e.WF L) :
    (encodeEntries L es).length = es.length * L.ENTRY_SIZE := by
  have := length_flatten_of_length L.ENTRY_SIZE (es.map (encodeEntry L)) (by
    intro x hx
    obtain ⟨e, he, rfl⟩ := List.mem_map.1 hx
    exact length_encodeEntry L e (h e he))
  simpa [encodeEntries] using this

theorem readEntry_congr (L : Layout) {d d' : Disk} {off : Nat}
    (h : ∀ a, off ≤ a → a < off + L.ENTRY_SIZE → d a = d' a) :
    readEntry L d off = readEntry L d' off := by
  simp only [readEntry, disk_read_congr h]

theorem readEntries_congr (L : Layout) {d d' : Disk} {off n : Nat}
    (h : ∀ a, off ≤ a → a < off + n * L.ENTRY_SIZE → d a = d' a) :
    readEntries L d off n = readEntries L d' off n := by
  simp only [readEntries]
  apply List.map_congr_left
  intro i hi
  have hi := List.mem_range.1 hi
  apply readEntry_congr
  intro a h1 h2
  apply h a (by omega)
  have : (i + 1) * L.ENTRY_SIZE ≤ n * L.ENTRY_SIZE := Nat.mul_le_mul_right _ hi
  have : (i + 1) * L.ENTRY_SIZE = i * L.ENTRY_SIZE + L.ENTRY_SIZE := by ring
  omega

/-- Reading slot `i` back out of an array just written. -/
theorem readEntry_write (L : Layout) (d : Disk) (es : List Entry) (off i : Nat)
    (hwf : ∀ e ∈ es, e.WF L) (hi : i < es.length) :
    readEntry L (disk_write d (encodeEntries L es) off) (off + i * L.ENTRY_SIZE) = es[i] := by
  have hlen := length_encodeEntries L es hwf
  have h1 : (i + 1) * L.ENTRY_SIZE ≤ es.length * L.ENTRY_SIZE := Nat.mul_le_mul_right _ hi
  have h2 : (i + 1) * L.ENTRY_SIZE = i * L.ENTRY_SIZE + L.ENTRY_SIZE := by ring
  simp only [readEntry]
  rw [disk_read_write_in _ _ _ _ _ (by omega) (by omega)]
  have h3 : off + i * L.ENTRY_SIZE - off = i * L.ENTRY_SIZE := by omega
  rw [h3]
  have := drop_take_flatten L.ENTRY_SIZE (es.map (encodeEntry L)) (by
    intro x hx
    obtain ⟨e, he, rfl⟩ := List.mem_map.1 hx
    exact length_encodeEntry L e (hwf e he)) i (by simpa using hi)
  simp only [encodeEntries, this, List.getElem_map]
  exact decodeEntry_encodeEntry L _ (hwf _ (List.getElem_mem _))

theorem readEntries_write (L : Layout) (d : Disk) (es : List Entry) (off : Nat)
    (hwf : ∀ e ∈ es, e.WF L) :
    readEntries L (disk_write d (encodeEntries L es) off) off es.length = es := by
  apply List.ext_getElem
  · simp [readEntries]
  · intro i h1 h2
    rw [getElem_readEntries, readEntry_write L d es off i hwf h2]

/-! ### The block table -/

theorem length_readTable (L : Layout) (d : Disk) : (readTable L d).length = L.BLOCKTBL_NENTRIES := by
  simp [readTable]

theorem getElem?_readTable (L : Layout) (d : Disk) (i : Nat) (h : i < L.BLOCKTBL_NENTRIES) :
    (readTable L d)[i]? = some (readIdx L d i) := by
  simp [readTable, List.getElem?_range h]

theorem readIdx_lt (L : Layout) (d : Disk) (i : Nat) : readIdx L d i < L.IDX_MOD := by
  have := leDecode_lt (disk_read d L.IDX_BYTES (L.BLOCKTBL_OFF + i * L.IDX_BYTES))
  simpa [readIdx, Layout.IDX_MOD] using this

theorem readTable_lt (L : Layout) (d : Disk) : ∀ x ∈ readTable L d, x < L.IDX_MOD := by
  intro x hx
  simp only [readTable, List.mem_map] at hx
  obtain ⟨i, _, rfl⟩ := hx
  exact readIdx_lt L d i

theorem readTable_congr (L : Layout) {d d' : Disk}
    (h : ∀ a, L.BLOCKTBL_OFF ≤ a → a < L.BLOCKTBL_OFF + L.BLOCKTBL_SIZE → d a = d' a) :
    readTable L d = readTable L d' := by
  simp only [readTable]
  apply List.map_congr_left
  intro i hi
  have hi := List.mem_range.1 hi
  simp only [readIdx]
  congr 1
  apply disk_read_congr
  intro a h1 h2
  apply h a (by omega)
  have : (i + 1) * L.IDX_BYTES ≤ L.BLOCKTBL_NENTRIES * L.IDX_BYTES := Nat.mul_le_mul_right _ hi
  have : (i + 1) * L.IDX_BYTES = i * L.IDX_BYTES + L.IDX_BYTES := by ring
  simp only [Layout.BLOCKTBL_SIZE]
  omega

theorem length_encodeTable (L : Layout) (t : List Nat) :
    (encodeTable L t).length = t.length * L.IDX_BYTES := by
  have := length_flatten_of_length L.IDX_BYTES (t.map (leEncode L.IDX_BYTES)) (by
    intro x hx
    obtain ⟨e, _, rfl⟩ := List.mem_map.1 hx
    exact length_leEncode _ _)
  simpa [encodeTable] using this

theorem readTable_writeTable (L : Layout) (d : Disk) (t : List Nat)
    (hlen : t.length = L.BLOCKTBL_NENTRIES) (hlt : ∀ x ∈ t, x < L.IDX_MOD) :
    readTable L (writeTable L d t) = t := by
  apply List.ext_getElem
  · simp [readTable, hlen]
  · intro i h1 h2
    have hlenE := length_encodeTable L t
    have h3 : (i + 1) * L.IDX_BYTES ≤ t.length * L.IDX_BYTES := Nat.mul_le_mul_right _ h2
    have h4 : (i + 1) * L.IDX_BYTES = i * L.IDX_BYTES + L.IDX_BYTES := by ring
    simp only [readTable, List.getElem_map, List.getElem_range, readIdx, writeTable]
    rw [disk_read_write_in _ _ _ _ _ (by omega) (by omega)]
    have h5 : L.BLOCKTBL_OFF + i * L.IDX_BYTES - L.BLOCKTBL_OFF = i * L.IDX_BYTES := by omega
    rw [h5]
    have := drop_take_flatten L.IDX_BYTES (t.map (leEncode L.IDX_BYTES)) (by
      intro x hx
      obtain ⟨e, _, rfl⟩ := List.mem_map.1 hx
      exact length_leEncode _ _) i (by simpa using h2)
    simp only [encodeTable, this, List.getElem_map, leDecode_leEncode]
    exact Nat.mod_eq_of_lt (hlt _ (List.getElem_mem _))

/-! ### Paths -/

theorem cstr_of_noNul (s : List Byte) (h : ∀ b ∈ s, b ≠ 0) : cstr s = s := by
  simp only [cstr]
  rw [List.takeWhile_eq_self_iff]
  intro b hb
  simpa using h b hb

theorem cstr_comp {c : CStr} (h : validComp c) : cstr c = c :=
  cstr_of_noNul c (fun b hb => (h.2 b hb).2)

theorem relPath_cons_cons (c c' : CStr) (cs : List CStr) :
    relPath (c :: c' :: cs) = c ++ SLASH :: relPath (c' :: cs) := rfl

theorem relPath_noNul (comps : List CStr) (h : ∀ c ∈ comps, validComp c) :
    ∀ b ∈ relPath comps, b ≠ 0 := by
  induction comps with
  | nil => simp [relPath]
  | cons c cs ih =>
    cases cs with
    | nil =>
      intro b hb
      exact ((h c (by simp)).2 b (by simpa [relPath] using hb)).2
    | cons c' cs =>
      intro b hb
      rw [relPath_cons_cons] at hb
      simp only [List.mem_append, List.mem_cons] at hb
      rcases hb with hb | hb | hb
      · exact ((h c (by simp)).2 b hb).2
      · subst hb; decide
      · exact ih (fun x hx => h x (by simp [hx])) b hb

theorem relPath_ne_nil (c : CStr) (cs : List CStr) (h : validComp c) : relPath (c :: cs) ≠ [] := by
  cases cs with
  | nil => exact h.1
  | cons c' cs =>
    rw [relPath_cons_cons]
    obtain ⟨b, t, rfl⟩ := List.exists_cons_of_ne_nil h.1
    simp

theorem cstr_relPath (comps : List CStr) (h : ∀ c ∈ comps, validComp c) :
    cstr (relPath comps) = relPath comps :=
  cstr_of_noNul _ (relPath_noNul comps h)

theorem cstr_joinPath (comps : List CStr) (h : ∀ c ∈ comps, validComp c) :
    cstr (joinPath comps) = joinPath comps := by
  apply cstr_of_noNul
  intro b hb
  simp only [joinPath, List.mem_cons] at hb
  rcases hb with hb | hb
  · subst hb; decide
  · exact relPath_noNul comps h b hb

theorem length_relPath_lt (c : CStr) (cs : List CStr) :
    (relPath cs).length < (relPath (c :: cs)).length + 1 := by
  cases cs with
  | nil => simp [relPath]
  | cons c' cs =>
    rw [relPath_cons_cons]
    simp
    omega

/-- What the two `strtok` calls see on `c1/c2/.../cn`. -/
theorem strtok2_relPath (c : CStr) (cs : List CStr) (hc : validComp c)
    (hcs : ∀ x ∈ cs, validComp x) :
    strtok2 (relPath (c :: cs)) = (some c, if cs = [] then none else some (relPath cs)) := by
  obtain ⟨b, t, rfl⟩ := List.exists_cons_of_ne_nil hc.1
  have hb : b ≠ SLASH := (hc.2 b (by simp)).1
  have hall : ∀ a ∈ b :: t, (decide (a ≠ SLASH)) = true := by
    intro a ha
    simpa using (hc.2 a ha).1
  cases cs with
  | nil =>
    have h1 : List.dropWhile (fun x => decide (x = SLASH)) (b :: t) = b :: t := by
      rw [List.dropWhile_cons_of_neg (by simpa using hb)]
    simp only [strtok2, relPath, h1]
    have h2 : List.takeWhile (fun x => decide (x ≠ SLASH)) (b :: t) = b :: t := by
      rw [List.takeWhile_eq_self_iff]; exact hall
    have h3 : List.dropWhile (fun x => decide (x ≠ SLASH)) (b :: t) = [] := by
      rw [List.dropWhile_eq_nil_iff]; exact hall
    rw [h2, h3]
    simp
  | cons c' cs =>
    have hne := relPath_ne_nil c' cs (hcs c' (by simp))
    rw [relPath_cons_cons]
    have h1 : List.dropWhile (fun x => decide (x = SLASH)) ((b :: t) ++ SLASH :: relPath (c' :: cs))
        = (b :: t) ++ SLASH :: relPath (c' :: cs) := by
      rw [List.cons_append, List.dropWhile_cons_of_neg (by simpa using hb)]
    simp only [strtok2, h1]
    have h2 : List.takeWhile (fun x => decide (x ≠ SLASH))
        ((b :: t) ++ SLASH :: relPath (c' :: cs)) = b :: t := by
      rw [List.takeWhile_append_of_pos hall, List.takeWhile_cons_of_neg (by simp)]
      simp
    have h3 : List.dropWhile (fun x => decide (x ≠ SLASH))
        ((b :: t) ++ SLASH :: relPath (c' :: cs)) = SLASH :: relPath (c' :: cs) := by
      rw [List.dropWhile_append_of_pos hall, List.dropWhile_cons_of_neg (by simp)]
    simp only [List.cons_append] at h2 h3
    simp only [List.cons_append, h2, h3, List.drop_succ_cons, List.drop_zero]
    simp [hne]

/-- What the two `strtok` calls see on `/c1/c2/.../cn`. -/
theorem strtok2_joinPath (c : CStr) (cs : List CStr) (hc : validComp c)
    (hcs : ∀ x ∈ cs, validComp x) :
    strtok2 (joinPath (c :: cs)) = (some c, if cs = [] then none else some (relPath cs)) := by
  rw [← strtok2_relPath c cs hc hcs]
  simp only [strtok2, joinPath]
  rw [List.dropWhile_cons_of_pos (by simp)]

/-! ### The resolver -/

theorem length_relPath_cons_cons (c c' : CStr) (cs : List CStr) :
    (relPath (c' :: cs)).length < (relPath (c :: c' :: cs)).length := by
  rw [relPath_cons_cons c]
  simp
  omega

theorem findIdx?_start {α : Type} (p : α → Bool) (xs : List α) (s : Nat) :
    xs.findIdx? p s = (xs.findIdx? p 0).map (fun k => k + s) := by
  induction xs generalizing s with
  | nil => simp
  | cons x xs ih =>
    simp only [List.findIdx?_cons]
    by_cases h : p x
    · simp [h]
    · simp only [h, Bool.false_eq_true, if_false]
      rw [ih (s + 1), ih (0 + 1)]
      simp only [Option.map_map]
      congr 1
      funext k
      simp only [Function.comp]
      omega

theorem findIdx?_cons_neg {α : Type} (p : α → Bool) (x : α) (xs : List α) (h : p x = false) :
    (x :: xs).findIdx? p = (xs.findIdx? p).map (fun k => k + 1) := by
  rw [List.findIdx?_cons, h, findIdx?_start]
  simp

theorem findIdx?_some_getElem? {α : Type} (p : α → Bool) (xs : List α) (k : Nat)
    (h : xs.findIdx? p = some k) : ∃ x, xs[k]? = some x ∧ p x = true := by
  induction xs generalizing k with
  | nil => simp at h
  | cons x xs ih =>
    by_cases hx : p x
    · rw [List.findIdx?_cons, if_pos hx] at h
      cases h
      exact ⟨x, by simp, hx⟩
    · rw [findIdx?_cons_neg _ _ _ (by simpa using hx)] at h
      cases hf : List.findIdx? p xs with
      | none => simp [hf] at h
      | some j =>
        simp only [hf, Option.map_some', Option.some.injEq] at h
        subst h
        obtain ⟨y, hy, hpy⟩ := ih j hf
        exact ⟨y, by simpa using hy, hpy⟩

/-- The scan loop of `get_entry_rec` stops at the first slot carrying the name. -/
theorem scanEntries_eq (c : CStr) (onHit : Nat → Entry → Option Lookup) (es : List Entry) (i : Nat) :
    scanEntries (some c) onHit i es =
      match es.findIdx? (fun e => decide (cstr e.filename = c)) with
      | none => some (Lookup.err (-1))
      | some k =>
        match es[k]? with
        | none => none
        | some e => onHit (i + k) e := by
  induction es generalizing i with
  | nil => simp [scanEntries]
  | cons e es ih =>
    by_cases h : c = cstr e.filename
    · simp [scanEntries, List.findIdx?_cons, h]
    · have h' : ¬ cstr e.filename = c := fun h2 => h h2.symm
      rw [findIdx?_cons_neg _ _ _ (by simpa using h')]
      simp only [scanEntries, h, if_false]
      rw [ih (i + 1)]
      cases hf : List.findIdx? (fun e => decide (cstr e.filename = c)) es with
      | none => simp
      | some k =>
        simp only [Option.map_some', List.getElem?_cons_succ]
        have : i + 1 + k = i + (k + 1) := by omega
        rw [this]

theorem get_entry_rec_succ (L : Layout) (d : Disk) (fuel : Nat) (path : List Byte) (pn pb : Nat) :
    get_entry_rec L d (fuel + 1) path pn pb =
      if pn = L.ROOTDIR_NENTRIES then
        scanEntries (strtok2 (cstr path)).1
          (fun i e =>
            match (strtok2 (cstr path)).2 with
            | none => some (Lookup.found e ((L.ROOTDIR_OFF + i * L.ENTRY_SIZE) % 2 ^ 32))
            | some nx => get_entry_rec L d fuel nx L.DIR_NENTRIES e.first_block)
          0 (readRoot L d)
      else if pn = L.DIR_NENTRIES then
        scanEntries (strtok2 (cstr path)).1
          (fun i e =>
            match (strtok2 (cstr path)).2 with
            | none => some (Lookup.found e ((L.blockOff pb + i * L.ENTRY_SIZE) % 2 ^ 32))
            | some nx => get_entry_rec L d fuel nx L.DIR_NENTRIES e.first_block)
          0 (readDir L d pb)
      else some (Lookup.err (-ENOENT)) := rfl

theorem resolveFirst_cons (L : Layout) (d : Disk) (c : CStr) (cs : List CStr) (blk : Option Nat) :
    resolveFirst L d (c :: cs) blk =
      match (dirArray L d blk).findIdx? (fun e => decide (cstr e.filename = c)) with
      | none => none
      | some i =>
        match (dirArray L d blk)[i]? with
        | none => none
        | some e =>
          match cs with
          | [] => some { block := blk, slot := i, entry := e }
          | _ :: _ => resolveFirst L d cs (some e.first_block) := rfl

theorem get_entry_rec_dir (L : Layout) (d : Disk)
    (hnd : L.ROOTDIR_NENTRIES ≠ L.DIR_NENTRIES) :
    ∀ (comps : List CStr), comps ≠ [] → (∀ c ∈ comps, validComp c) →
      ∀ (fuel pb : Nat), (relPath comps).length < fuel →
        get_entry_rec L d fuel (relPath comps) L.DIR_NENTRIES pb
          = some (toLookup L (resolveFirst L d comps (some pb))) := by
  intro comps
  induction comps with
  | nil => intro h; exact absurd rfl h
  | cons c cs ih =>
    intro _ hv fuel pb hfuel
    have hc : validComp c := hv c (by simp)
    have hcs : ∀ x ∈ cs, validComp x := fun x hx => hv x (by simp [hx])
    cases fuel with
    | zero => omega
    | succ fuel =>
      have hne : L.DIR_NENTRIES ≠ L.ROOTDIR_NENTRIES := fun h => hnd h.symm
      rw [get_entry_rec_succ, if_neg hne, if_pos rfl, cstr_relPath _ hv,
        strtok2_relPath c cs hc hcs, scanEntries_eq, resolveFirst_cons]
      simp only [dirArray]
      cases hf : List.findIdx? (fun e => decide (cstr e.filename = c)) (readDir L d pb) with
      | none => simp [toLookup]
      | some k =>
        obtain ⟨e, hg, -⟩ := findIdx?_some_getElem? _ _ _ hf
        simp only [hg]
        · cases cs with
          | nil => simp [toLookup, Place.off, dirOff]
          | cons c' cs =>
            simp only [if_false, List.cons_ne_nil]
            apply ih (by simp) hcs
            have := length_relPath_cons_cons c c' cs
            omega

/-- On a path `/c1/.../cn` the resolver returns what first-match resolution finds. -/
theorem get_entry_joinPath (L : Layout) (d : Disk)
    (hnd : L.ROOTDIR_NENTRIES ≠ L.DIR_NENTRIES)
    (comps : List CStr) (hne : comps ≠ []) (hv : ∀ c ∈ comps, validComp c) :
    get_entry L d (joinPath comps) = some (toLookup L (resolveFirst L d comps none)) := by
  cases comps with
  | nil => exact absurd rfl hne
  | cons c cs =>
    have hc : validComp c := hv c (by simp)
    have hcs : ∀ x ∈ cs, validComp x := fun x hx => hv x (by simp [hx])
    rw [get_entry, get_entry_rec_succ, if_pos rfl, cstr_joinPath _ hv,
      strtok2_joinPath c cs hc hcs, scanEntries_eq, resolveFirst_cons]
    simp only [dirArray]
    cases hf : List.findIdx? (fun e => decide (cstr e.filename = c)) (readRoot L d) with
    | none => simp [toLookup]
    | some k =>
      obtain ⟨e, hg, -⟩ := findIdx?_some_getElem? _ _ _ hf
      simp only [hg]
      · cases cs with
        | nil => simp [toLookup, Place.off, dirOff]
        | cons c' cs =>
          simp only [if_false, List.cons_ne_nil]
          apply get_entry_rec_dir L d hnd _ (by simp) hcs
          have := length_relPath_cons_cons c c' cs
          simp only [joinPath, List.length_cons]
          omega

theorem findIdx?_some_min {α : Type} (p : α → Bool) (xs : List α) (k : Nat)
    (h : xs.findIdx? p = some k) : ∀ j, j < k → ∀ y, xs[j]? = some y → p y = false := by
  induction xs generalizing k with
  | nil => simp at h
  | cons x xs ih =>
    by_cases hx : p x
    · rw [List.findIdx?_cons, if_pos hx] at h
      cases h
      intro j hj; omega
    · rw [findIdx?_cons_neg _ _ _ (by simpa using hx)] at h
      cases hf : List.findIdx? p xs with
      | none => simp [hf] at h
      | some i =>
        simp only [hf, Option.map_some', Option.some.injEq] at h
        subst h
        intro j hj y hy
        cases j with
        | zero =>
          simp only [List.getElem?_cons_zero, Option.some.injEq] at hy
          subst hy
          simpa using hx
        | succ j =>
          simp only [List.getElem?_cons_succ] at hy
          exact ih i hf j (by omega) y hy

theorem findIdx?_none_all {α : Type} (p : α → Bool) (xs : List α)
    (h : xs.findIdx? p = none) : ∀ y ∈ xs, p y = false := by
  induction xs with
  | nil => simp
  | cons x xs ih =>
    by_cases hx : p x
    · rw [List.findIdx?_cons, if_pos hx] at h
      cases h
    · rw [findIdx?_cons_neg _ _ _ (by simpa using hx)] at h
      intro y hy
      simp only [List.mem_cons] at hy
      rcases hy with rfl | hy
      · simpa using hx
      · exact ih (by simpa using h) y hy

theorem dirArray_eq (L : Layout) (d : Disk) (blk : Option Nat) :
    dirArray L d blk = readEntries L d (dirOff L blk) (dirLen L blk) := by
  cases blk <;> rfl

theorem length_dirArray (L : Layout) (d : Disk) (blk : Option Nat) :
    (dirArray L d blk).length = dirLen L blk := by
  rw [dirArray_eq, length_readEntries]

theorem dirArray_WF (L : Layout) (d : Disk) (blk : Option Nat) :
    ∀ e ∈ dirArray L d blk, e.WF L := by
  rw [dirArray_eq]; exact readEntries_WF L d _ _

theorem getElem?_dirArray (L : Layout) (d : Disk) (blk : Option Nat) (i : Nat) (e : Entry)
    (h : (dirArray L d blk)[i]? = some e) :
    i < dirLen L blk ∧ readEntry L d (dirOff L blk + i * L.ENTRY_SIZE) = e := by
  rw [dirArray_eq] at h
  obtain ⟨hi, he⟩ := List.getElem?_eq_some_iff.1 h
  rw [getElem_readEntries] at he
  exact ⟨by simpa [length_readEntries] using hi, he⟩

/-- Resolution of a single component in one array. -/
theorem resolveFirst_single (L : Layout) (d : Disk) (c : CStr) (blk : Option Nat) (p : Place) :
    resolveFirst L d [c] blk = some p ↔
      (dirArray L d blk).findIdx? (fun e => decide (cstr e.filename = c)) = some p.slot ∧
      (dirArray L d blk)[p.slot]? = some p.entry ∧ p.block = blk := by
  rw [resolveFirst_cons]
  cases hf : (dirArray L d blk).findIdx? (fun e => decide (cstr e.filename = c)) with
  | none => simp
  | some k =>
    obtain ⟨e, hg, -⟩ := findIdx?_some_getElem? _ _ _ hf
    simp only [hg, Option.some.injEq]
    constructor
    · rintro rfl
      exact ⟨rfl, hg, rfl⟩
    · rintro ⟨h1, h2, h3⟩
      cases p with
      | mk b s e' =>
        simp only at h1 h2 h3
        subst h1
        subst h3
        rw [hg] at h2
        cases h2
        rfl

/-- Resolution of `cs ++ [c]` is resolution of `cs` followed by one lookup in the block found. -/
theorem resolveFirst_snoc (L : Layout) (d : Disk) (c : CStr) :
    ∀ (cs : List CStr) (blk : Option Nat), cs ≠ [] →
      resolveFirst L d (cs ++ [c]) blk =
        (resolveFirst L d cs blk).bind (fun q => resolveFirst L d [c] (some q.entry.first_block)) := by
  intro cs
  induction cs with
  | nil => intro _ h; exact absurd rfl h
  | cons x xs ih =>
    intro blk _
    rw [List.cons_append, resolveFirst_cons, resolveFirst_cons L d x xs]
    cases hf : (dirArray L d blk).findIdx? (fun e => decide (cstr e.filename = x)) with
    | none => simp
    | some k =>
      obtain ⟨e, hg, -⟩ := findIdx?_some_getElem? _ _ _ hf
      simp only [hg]
      cases xs with
      | nil => simp
      | cons y ys =>
        simp only [List.cons_append]
        exact ih (some e.first_block) (by simp)

theorem resolveFirst_nil (L : Layout) (d : Disk) (blk : Option Nat) :
    resolveFirst L d [] blk = none := rfl

/-- The array in which the last component of `comps` is looked up: the root
array for a single component, else the block named by the resolved prefix. -/
theorem resolveFirst_last (L : Layout) (d : Disk) (cs : List CStr) (c : CStr) (p : Place)
    (h : resolveFirst L d (cs ++ [c]) none = some p) :
    resolveFirst L d [c] p.block = some p ∧
      ((cs = [] ∧ p.block = none) ∨
        (cs ≠ [] ∧ ∃ q, resolveFirst L d cs none = some q ∧ p.block = some q.entry.first_block)) := by
  cases cs with
  | nil =>
    simp only [List.nil_append] at h
    have hb := ((resolveFirst_single L d c none p).1 h).2.2
    rw [hb]
    exact ⟨h, Or.inl ⟨rfl, rfl⟩⟩
  | cons x xs =>
    rw [resolveFirst_snoc L d c (x :: xs) none (by simp)] at h
    cases hq : resolveFirst L d (x :: xs) none with
    | none => simp [hq] at h
    | some q =>
      simp only [hq, Option.some_bind] at h
      have hb := ((resolveFirst_single L d c _ p).1 h).2.2
      rw [hb]
      exact ⟨h, Or.inr ⟨by simp, q, rfl, rfl⟩⟩

theorem resolveFirst_block_lt (L : Layout) (d : Disk) (comps : List CStr) (p : Place) (b : Nat)
    (h : resolveFirst L d comps none = some p) (hb : p.block = some b) : b < L.IDX_MOD := by
  rcases List.eq_nil_or_concat comps with rfl | ⟨cs, c, rfl⟩
  · simp [resolveFirst_nil] at h
  · simp only [List.concat_eq_append] at h
    obtain ⟨-, h2⟩ := resolveFirst_last L d cs c p h
    rcases h2 with ⟨-, h3⟩ | ⟨hcs, q, hq, h3⟩
    · rw [h3] at hb; cases hb
    · rw [h3] at hb
      cases hb
      rcases List.eq_nil_or_concat cs with rfl | ⟨cs', c', rfl⟩
      · exact absurd rfl hcs
      · simp only [List.concat_eq_append] at hq
        obtain ⟨hq1, -⟩ := resolveFirst_last L d cs' c' q hq
        have := ((resolveFirst_single L d c' _ q).1 hq1).2.1
        exact (dirArray_WF L d _ _ (List.getElem?_mem this)).2.2

theorem scanEntries_total (c : CStr) (onHit : Nat → Entry → Option Lookup) (es : List Entry)
    (i : Nat) (h : ∀ k e, ∃ r, onHit k e = some r) : ∃ r, scanEntries (some c) onHit i es = some r := by
  rw [scanEntries_eq]
  cases hf : es.findIdx? (fun e => decide (cstr e.filename = c)) with
  | none => exact ⟨_, rfl⟩
  | some k =>
    obtain ⟨e, hg, -⟩ := findIdx?_some_getElem? _ _ _ hf
    simp only [hg]
    exact h _ _

/-- On `c1/.../cn` the recursion of `get_entry_rec` reaches a `return`, whatever the array sizes. -/
theorem get_entry_rec_total (L : Layout) (d : Disk) :
    ∀ (comps : List CStr), comps ≠ [] → (∀ c ∈ comps, validComp c) →
      ∀ (fuel pn pb : Nat), (relPath comps).length < fuel →
        ∃ r, get_entry_rec L d fuel (relPath comps) pn pb = some r := by
  intro comps
  induction comps with
  | nil => intro h; exact absurd rfl h
  | cons c cs ih =>
    intro _ hv fuel pn pb hfuel
    have hc : validComp c := hv c (by simp)
    have hcs : ∀ x ∈ cs, validComp x := fun x hx => hv x (by simp [hx])
    cases fuel with
    | zero => omega
    | succ fuel =>
      rw [get_entry_rec_succ, cstr_relPath _ hv, strtok2_relPath c cs hc hcs]
      have key : ∀ (pb' : Nat) (k : Nat) (e : Entry) (off : Nat), ∃ r,
          (match (if cs = [] then none else some (relPath cs)) with
            | none => some (Lookup.found e off)
            | some nx => get_entry_rec L d fuel nx L.DIR_NENTRIES e.first_block) = some r := by
        intro pb' k e off
        cases cs with
        | nil => exact ⟨_, rfl⟩
        | cons c' cs =>
          simp only [if_false, List.cons_ne_nil]
          apply ih (by simp) hcs
          have := length_relPath_cons_cons c c' cs
          omega
      by_cases h1 : pn = L.ROOTDIR_NENTRIES
      · rw [if_pos h1]
        exact scanEntries_total _ _ _ _ (fun k e => key 0 k e _)
      · rw [if_neg h1]
        by_cases h2 : pn = L.DIR_NENTRIES
        · rw [if_pos h2]
          exact scanEntries_total _ _ _ _ (fun k e => key 0 k e _)
        · rw [if_neg h2]
          exact ⟨_, rfl⟩

theorem get_entry_total (L : Layout) (d : Disk) (comps : List CStr) (hne : comps ≠ [])
    (hv : ∀ c ∈ comps, validComp c) : ∃ r, get_entry L d (joinPath comps) = some r := by
  cases comps with
  | nil => exact absurd rfl hne
  | cons c cs =>
    have hc : validComp c := hv c (by simp)
    have hcs : ∀ x ∈ cs, validComp x := fun x hx => hv x (by simp [hx])
    rw [get_entry, get_entry_rec_succ, if_pos rfl, cstr_joinPath _ hv,
      strtok2_joinPath c cs hc hcs]
    apply scanEntries_total
    intro k e
    cases cs with
    | nil => exact ⟨_, rfl⟩
    | cons c' cs =>
      simp only [if_false, List.cons_ne_nil]
      apply get_entry_rec_total L d _ (by simp) hcs
      have := length_relPath_cons_cons c c' cs
      simp only [joinPath, List.length_cons]
      omega

theorem joinPath_ne_slash (comps : List CStr) (hne : comps ≠ []) (hv : ∀ c ∈ comps, validComp c) :
    cstr (joinPath comps) ≠ [SLASH] := by
  rw [cstr_joinPath _ hv]
  cases comps with
  | nil => exact absurd rfl hne
  | cons c cs =>
    have := relPath_ne_nil c cs (hv c (by simp))
    simp only [joinPath, ne_eq, List.cons.injEq, true_and]
    exact this

/-- C2: on a path `/c1/.../cn` of non-empty components (root and sub-directory
arrays of different sizes, every array offset fitting an `unsigned`),
`get_entry` returns 0 exactly when first-match resolution succeeds, and then
hands back the first slot named `cn` of the last array together with that
slot's byte offset (`ROOT_OFF + i * entry_size` for `n = 1`, `DATA_OFF + b *
BLOCK_SIZE + i * entry_size` with `b` the parent's `first_block` otherwise);
decoding the image at that offset gives the entry, and the slot is not empty. -/
theorem get_entry_first_match (L : Layout) (d : Disk) (cs : List CStr) (c : CStr)
    (hv : ∀ x ∈ cs ++ [c], validComp x)
    (hnd : L.ROOTDIR_NENTRIES ≠ L.DIR_NENTRIES)
    (hroot : L.ROOTDIR_OFF + L.ROOTDIR_SIZE ≤ 2 ^ 32)
    (hdata : L.blockOff (L.IDX_MOD - 1) + L.DIR_SIZE ≤ 2 ^ 32) :
    get_entry L d (joinPath (cs ++ [c])) =
        some (match resolveFirst L d (cs ++ [c]) none with
              | some p => Lookup.found p.entry (p.off L)
              | none => Lookup.err (-1)) ∧
    ∀ p, resolveFirst L d (cs ++ [c]) none = some p →
      readEntry L d (p.off L) = p.entry ∧
      (dirArray L d p.block)[p.slot]? = some p.entry ∧
      cstr p.entry.filename = c ∧ cstr p.entry.filename ≠ [] ∧
      (∀ j, j < p.slot → ∀ e, (dirArray L d p.block)[j]? = some e → cstr e.filename ≠ c) ∧
      ((cs = [] ∧ p.block = none ∧ p.off L = L.ROOTDIR_OFF + p.slot * L.ENTRY_SIZE) ∨
       (cs ≠ [] ∧ ∃ q, resolveFirst L d cs none = some q ∧
          p.block = some q.entry.first_block ∧
          p.off L = L.DATA_OFF + q.entry.first_block * L.BLOCK_SIZE + p.slot * L.ENTRY_SIZE)) := by
  have hfacts : ∀ p, resolveFirst L d (cs ++ [c]) none = some p →
      p.off L < 2 ^ 32 ∧
      readEntry L d (p.off L) = p.entry ∧
      (dirArray L d p.block)[p.slot]? = some p.entry ∧
      cstr p.entry.filename = c ∧ cstr p.entry.filename ≠ [] ∧
      (∀ j, j < p.slot → ∀ e, (dirArray L d p.block)[j]? = some e → cstr e.filename ≠ c) ∧
      ((cs = [] ∧ p.block = none ∧ p.off L = L.ROOTDIR_OFF + p.slot * L.ENTRY_SIZE) ∨
       (cs ≠ [] ∧ ∃ q, resolveFirst L d cs none = some q ∧
          p.block = some q.entry.first_block ∧
          p.off L = L.DATA_OFF + q.entry.first_block * L.BLOCK_SIZE + p.slot * L.ENTRY_SIZE)) := by
    intro p hp
    obtain ⟨h1, h2⟩ := resolveFirst_last L d cs c p hp
    obtain ⟨hidx, hget, -⟩ := (resolveFirst_single L d c p.block p).1 h1
    obtain ⟨hslot, hread⟩ := getElem?_dirArray L d p.block p.slot p.entry hget
    obtain ⟨e', he', hname⟩ := findIdx?_some_getElem? _ _ _ hidx
    rw [hget] at he'
    cases he'
    have hname : cstr p.entry.filename = c := by simpa using hname
    have hcv : validComp c := hv c (by simp)
    have hlt : (p.slot + 1) * L.ENTRY_SIZE ≤ dirLen L p.block * L.ENTRY_SIZE :=
      Nat.mul_le_mul_right _ hslot
    have hexp : (p.slot + 1) * L.ENTRY_SIZE = p.slot * L.ENTRY_SIZE + L.ENTRY_SIZE := by ring
    have hES : 0 < L.ENTRY_SIZE ∨ L.ENTRY_SIZE = 0 := by omega
    refine ⟨?_, hread, hget, hname, by rw [hname]; exact hcv.1, ?_, ?_⟩
    · cases hb : p.block with
      | none =>
        simp only [Place.off, hb, dirOff]
        simp only [hb, dirLen] at hlt
        simp only [Layout.ROOTDIR_SIZE] at hroot
        have hpos : 0 < L.ENTRY_SIZE := by
          have := (dirArray_WF L d _ _ (List.getElem?_mem hget)).1
          have hl : 0 < p.entry.filename.length := by
            cases hf : p.entry.filename with
            | nil => rw [hf] at hname; simp [cstr] at hname; exact absurd hname hcv.1
            | cons _ _ => simp
          simp only [Layout.ENTRY_SIZE]
          omega
        omega
      | some b =>
        have hbl := resolveFirst_block_lt L d _ p b hp hb
        simp only [Place.off, hb, dirOff, Layout.blockOff]
        simp only [hb, dirLen] at hlt
        simp only [Layout.DIR_SIZE, Layout.blockOff] at hdata
        have hpos : 0 < L.ENTRY_SIZE := by
          have := (dirArray_WF L d _ _ (List.getElem?_mem hget)).1
          have hl : 0 < p.entry.filename.length := by
            cases hf : p.entry.filename with
            | nil => rw [hf] at hname; simp [cstr] at hname; exact absurd hname hcv.1
            | cons _ _ => simp
          simp only [Layout.ENTRY_SIZE]
          omega
        have : b * L.BLOCK_SIZE ≤ (L.IDX_MOD - 1) * L.BLOCK_SIZE :=
          Nat.mul_le_mul_right _ (by omega)
        omega
    · intro j hj e he hc
      have := findIdx?_some_min _ _ _ hidx j hj e he
      simp [hc] at this
    · rcases h2 with ⟨h3, h4⟩ | ⟨h3, q, hq, h4⟩
      · exact Or.inl ⟨h3, h4, by simp [Place.off, h4, dirOff]⟩
      · exact Or.inr ⟨h3, q, hq, h4, by simp [Place.off, h4, dirOff, Layout.blockOff]⟩
  refine ⟨?_, fun p hp => (hfacts p hp).2⟩
  rw [get_entry_joinPath L d hnd _ (by simp) hv]
  cases hp : resolveFirst L d (cs ++ [c]) none with
  | none => rfl
  | some p =>
    simp only [toLookup]
    rw [Nat.mod_eq_of_lt (hfacts p hp).1]

theorem get_entry_first_match_witness :
    get_entry demoLayout demoImage (joinPath ([nameA] ++ [nameB])) =
      some (Lookup.found { filename := [98, 0, 0, 0], size := 2 ^ 31, first_block := 2 } 48) ∧
    get_entry demoLayout demoImage (joinPath ([nameA] ++ [nameX])) = some (Lookup.err (-1)) := by
  have h1 := (get_entry_first_match demoLayout demoImage [nameA] nameB (by decide) (by decide)
    (by norm_num [demoLayout, Layout.ROOTDIR_SIZE, Layout.ENTRY_SIZE])
    (by norm_num [demoLayout, Layout.DIR_SIZE, Layout.ENTRY_SIZE, Layout.blockOff,
      Layout.IDX_MOD])).1
  have h2 := (get_entry_first_match demoLayout demoImage [nameA] nameX (by decide) (by decide)
    (by norm_num [demoLayout, Layout.ROOTDIR_SIZE, Layout.ENTRY_SIZE])
    (by norm_num [demoLayout, Layout.DIR_SIZE, Layout.ENTRY_SIZE, Layout.blockOff,
      Layout.IDX_MOD])).1
  have e1 : resolveFirst demoLayout demoImage ([nameA] ++ [nameB]) none
      = some ⟨some 0, 0, ⟨[98, 0, 0, 0], 2 ^ 31, 2⟩⟩ := by decide
  have e2 : resolveFirst demoLayout demoImage ([nameA] ++ [nameX]) none = none := by decide
  rw [e1] at h1
  rw [e2] at h2
  exact ⟨h1, h2⟩

/-- C3: `sfs_getattr` on `/` reports a directory, mode 0755, 2 links; on any
other path it reports, from what the resolver returns, a directory (0755, 2
links, size 0) for an entry with the DIRECTORY flag, a regular file (0644, 1
link, size `entry.size & SIZEMASK`) for an entry without it, and `-ENOENT`
when the resolver fails; on every path `/c1/.../cn` the resolver does return,
so one of these cases applies. -/
theorem sfs_getattr_classifies (L : Layout) (d : Disk) (path : List Byte) :
    (cstr path = [SLASH] →
      sfs_getattr L d path = some (0, { st_mode := S_IFDIR ||| 0o755, st_nlink := 2, st_size := 0 })) ∧
    (cstr path ≠ [SLASH] → ∀ e off, get_entry L d path = some (Lookup.found e off) →
      (e.size &&& L.DIRECTORY ≠ 0 →
        sfs_getattr L d path
          = some (0, { st_mode := S_IFDIR ||| 0o755, st_nlink := 2, st_size := 0 })) ∧
      (e.size &&& L.DIRECTORY = 0 →
        sfs_getattr L d path
          = some (0, { st_mode := S_IFREG ||| 0o644, st_nlink := 1,
                       st_size := e.size &&& L.SIZEMASK }))) ∧
    (cstr path ≠ [SLASH] → ∀ code, get_entry L d path = some (Lookup.err code) →
      sfs_getattr L d path = some (-ENOENT, { st_mode := 0, st_nlink := 0, st_size := 0 })) ∧
    (∀ comps : List CStr, comps ≠ [] → (∀ c ∈ comps, validComp c) → path = joinPath comps →
      cstr path ≠ [SLASH] ∧ ∃ r, get_entry L d path = some r) := by
  refine ⟨?_, ?_, ?_, ?_⟩
  · intro h
    simp [sfs_getattr, h]
  · intro h e off hres
    constructor
    · intro hf
      simp [sfs_getattr, h, hres, hf]
    · intro hf
      simp [sfs_getattr, h, hres, hf]
  · intro h code hres
    simp [sfs_getattr, h, hres]
  · intro comps hne hv hp
    subst hp
    exact ⟨joinPath_ne_slash comps hne hv, get_entry_total L d comps hne hv⟩

theorem sfs_getattr_classifies_witness :
    sfs_getattr demoLayout demoImage (joinPath [nameA, nameB])
      = some (0, { st_mode := S_IFDIR ||| 0o755, st_nlink := 2, st_size := 0 }) ∧
    sfs_getattr demoLayout demoImage (joinPath [nameF])
      = some (0, { st_mode := S_IFREG ||| 0o644, st_nlink := 1, st_size := 25 }) ∧
    sfs_getattr demoLayout demoImage (joinPath [nameX])
      = some (-ENOENT, { st_mode := 0, st_nlink := 0, st_size := 0 }) :=
  ⟨((sfs_getattr_classifies demoLayout demoImage (joinPath [nameA, nameB])).2.1 (by decide)
      { filename := [98, 0, 0, 0], size := 2 ^ 31, first_block := 2 } 48 (by decide)).1 (by decide),
   ((sfs_getattr_classifies demoLayout demoImage (joinPath [nameF])).2.1 (by decide)
      { filename := [102, 0, 0, 0], size := 25, first_block := 4 } 12 (by decide)).2 (by decide),
   (sfs_getattr_classifies demoLayout demoImage (joinPath [nameX])).2.2.1 (by decide)
      (-1) (by decide)⟩

/-! ### sfs_read -/

theorem IsChain_drop (L : Layout) (table : List Nat) :
    ∀ (k b : Nat) (bs : List Nat), IsChain L table b bs → (h : k < bs.length) →
      IsChain L table bs[k] (bs.drop k) := by
  intro k
  induction k with
  | zero =>
    intro b bs hc h
    cases bs with
    | nil => simp at h
    | cons x xs =>
      obtain ⟨rfl, h2⟩ := hc
      exact ⟨rfl, h2⟩
  | succ k ih =>
    intro b bs hc h
    cases bs with
    | nil => simp at h
    | cons x xs =>
      simp only [List.getElem_cons_succ, List.drop_succ_cons]
      exact ih _ xs hc.2.2.2 (by simpa using h)

theorem getElem?_of_lt_getD (table : List Nat) (x : Nat) (h : x < table.length) :
    table[x]? = some (table.getD x 0) := by
  rw [List.getD_eq_getElem?_getD, List.getElem?_eq_getElem h]; rfl

theorem skipBlocks_chain (L : Layout) (table : List Nat) :
    ∀ (k b : Nat) (bs : List Nat), IsChain L table b bs → (h : k < bs.length) →
      skipBlocks L table k b = some bs[k] := by
  intro k
  induction k with
  | zero =>
    intro b bs hc h
    cases bs with
    | nil => simp at h
    | cons x xs =>
      obtain ⟨rfl, -⟩ := hc
      rfl
  | succ k ih =>
    intro b bs hc h
    cases bs with
    | nil => simp at h
    | cons x xs =>
      obtain ⟨rfl, hne, hlt, hrest⟩ := hc
      have hk : k < xs.length := by simpa using h
      cases xs with
      | nil => simp at hk
      | cons y ys =>
        have hy : y = table.getD x 0 := hrest.1
        have hyne := hrest.2.1
        rw [← hy] at hrest hyne
        simp only [skipBlocks, if_neg hne, getElem?_of_lt_getD table x hlt, ← hy, if_neg hyne,
          List.getElem_cons_succ]
        exact ih y (y :: ys) hrest hk

theorem length_chainBytes (L : Layout) (d : Disk) (bs : List Nat) :
    (chainBytes L d bs).length = bs.length * L.BLOCK_SIZE := by
  have := length_flatten_of_length L.BLOCK_SIZE
    (bs.map (fun b => disk_read d L.BLOCK_SIZE (L.blockOff b))) (by
      intro x hx
      obtain ⟨b, _, rfl⟩ := List.mem_map.1 hx
      simp)
  simpa [chainBytes] using this

theorem chainBytes_cons (L : Layout) (d : Disk) (b : Nat) (bs : List Nat) :
    chainBytes L d (b :: bs) = disk_read d L.BLOCK_SIZE (L.blockOff b) ++ chainBytes L d bs := by
  simp [chainBytes]

theorem chainBytes_drop (L : Layout) (d : Disk) (bs : List Nat) (k : Nat) :
    (chainBytes L d bs).drop (k * L.BLOCK_SIZE) = chainBytes L d (bs.drop k) := by
  induction bs generalizing k with
  | nil => simp [chainBytes]
  | cons b bs ih =>
    cases k with
    | zero => simp
    | succ k =>
      rw [chainBytes_cons, List.drop_succ_cons, ← ih k]
      have : (k + 1) * L.BLOCK_SIZE
          = (disk_read d L.BLOCK_SIZE (L.blockOff b)).length + k * L.BLOCK_SIZE := by
        rw [length_disk_read]; ring
      rw [this, List.drop_append]

/-- The copy loop of `sfs_read` on a chain long enough for the request. -/
theorem copyLoop_chain (L : Layout) (d : Disk) (table : List Nat) (hBS : 0 < L.BLOCK_SIZE) :
    ∀ (fuel n block boff : Nat) (cs : List Nat), IsChain L table block cs →
      n + boff ≤ cs.length * L.BLOCK_SIZE → boff < L.BLOCK_SIZE → n ≤ fuel →
      copyLoop L d table fuel n block boff = some (((chainBytes L d cs).drop boff).take n) := by
  intro fuel
  induction fuel with
  | zero =>
    intro n block boff cs _ _ _ hn
    have : n = 0 := by omega
    subst this
    simp [copyLoop]
  | succ fuel ih =>
    intro n block boff cs hc hlen hboff hn
    by_cases hn0 : n = 0
    · subst hn0
      simp [copyLoop]
    · cases cs with
      | nil => simp at hlen; omega
      | cons x xs =>
        obtain ⟨rfl, hne, hlt, hrest⟩ := hc
        have hpos : 0 < n := Nat.pos_of_ne_zero hn0
        simp only [List.length_cons] at hlen
        have hexp : (xs.length + 1) * L.BLOCK_SIZE = xs.length * L.BLOCK_SIZE + L.BLOCK_SIZE := by
          ring
        rw [copyLoop, if_pos ⟨hpos, hne⟩]
        simp only [getElem?_of_lt_getD table x hlt]
        rw [chainBytes_cons, List.drop_append_of_le_length (by simp; omega),
          List.take_append_eq_append_take]
        simp only [List.length_drop, length_disk_read]
        by_cases hbig : L.BLOCK_SIZE - boff > n
        · rw [if_pos hbig]
          rw [ih (n - n) _ 0 xs hrest (by omega) hBS (by omega)]
          have : n - (L.BLOCK_SIZE - boff) = 0 := by omega
          simp [this]
        · rw [if_neg hbig]
          rw [ih (n - (L.BLOCK_SIZE - boff)) _ 0 xs hrest (by omega) hBS (by omega)]
          simp only [List.drop_zero, Option.map_some', Option.some.injEq]
          congr 1
          rw [List.take_of_length_le (by simp), List.take_of_length_le (by simp; omega)]

theorem toInt32_small (n : Nat) (h : n < 2 ^ 31) : toInt32 n = (n : Int) := by
  have h1 : n % 2 ^ 32 = n := Nat.mod_eq_of_lt (by omega)
  simp only [toInt32, h1, if_pos h]

/-- C1: for a path that resolves to a regular file whose chain (from
`first_block`) has a stretch `bs` of valid block indices covering
`file_size = entry.size & SIZEMASK` bytes, and for `offset + size` within
`size_t`: when `offset < file_size`, `sfs_read` returns
`n = min(size, file_size - offset)` and stores in `buf[0..n)` the bytes
`[offset, offset + n)` of the concatenation of the chain's data blocks; when
`offset >= file_size` it returns 0 and stores nothing. -/
theorem sfs_read_returns_bytes (L : Layout) (d : Disk) (path : List Byte) (e : Entry)
    (eoff : Nat) (bs : List Nat) (size offset : Nat)
    (hBS : 0 < L.BLOCK_SIZE) (hmask : L.SIZEMASK < 2 ^ 31)
    (hres : get_entry L d path = some (Lookup.found e eoff))
    (hreg : e.size &&& L.DIRECTORY = 0)
    (hchain : IsChain L (readTable L d) e.first_block bs)
    (hlen : e.size &&& L.SIZEMASK ≤ bs.length * L.BLOCK_SIZE)
    (hsz : offset + size < 2 ^ 64) :
    (offset < e.size &&& L.SIZEMASK →
      sfs_read L d path size (offset : Int) =
        some (((min size ((e.size &&& L.SIZEMASK) - offset) : Nat) : Int),
              ((chainBytes L d bs).drop offset).take
                (min size ((e.size &&& L.SIZEMASK) - offset)))) ∧
    (e.size &&& L.SIZEMASK ≤ offset → sfs_read L d path size (offset : Int) = some (0, [])) := by
  have huoff : ((offset : Int) % 2 ^ 64).toNat = offset := by
    have : ((offset : Int) % 2 ^ 64) = ((offset % 2 ^ 64 : Nat) : Int) := by
      norm_cast
    rw [this, Int.toNat_ofNat, Nat.mod_eq_of_lt (by omega)]
  constructor
  · intro hoff
    have hfs : e.size &&& L.SIZEMASK ≤ L.SIZEMASK := Nat.and_le_right
    set fs := e.size &&& L.SIZEMASK with hfsdef
    set n := min size (fs - offset) with hn
    have hsize : (if (size + offset) % 2 ^ 64 > fs then fs - offset else size) = n := by
      rw [Nat.mod_eq_of_lt (by omega)]
      by_cases h : size + offset > fs
      · rw [if_pos h, hn]; omega
      · rw [if_neg h, hn]; omega
    have hbo : ((Int.tmod (offset : Int) (L.BLOCK_SIZE : Int)) % 2 ^ 64).toNat
        = offset % L.BLOCK_SIZE := by
      rw [← Int.ofNat_tmod]
      have : (((offset % L.BLOCK_SIZE : Nat) : Int) % 2 ^ 64)
          = (((offset % L.BLOCK_SIZE) % 2 ^ 64 : Nat) : Int) := by norm_cast
      rw [this, Int.toNat_ofNat]
      apply Nat.mod_eq_of_lt
      have := Nat.mod_le offset L.BLOCK_SIZE
      omega
    have hbi : (Int.tdiv (offset : Int) (L.BLOCK_SIZE : Int)).toNat = offset / L.BLOCK_SIZE := by
      rw [← Int.ofNat_tdiv, Int.toNat_ofNat]
    have hk : offset / L.BLOCK_SIZE < bs.length := by
      rw [Nat.div_lt_iff_lt_mul hBS]; omega
    have hdm := Nat.div_add_mod offset L.BLOCK_SIZE
    have hmod := Nat.mod_lt offset hBS
    have hkm : L.BLOCK_SIZE * (offset / L.BLOCK_SIZE) = offset / L.BLOCK_SIZE * L.BLOCK_SIZE :=
      Nat.mul_comm _ _
    have hskip := skipBlocks_chain L (readTable L d) _ _ bs hchain hk
    have hcs := IsChain_drop L (readTable L d) _ _ bs hchain hk
    have hcopy := copyLoop_chain L d (readTable L d) hBS n n bs[offset / L.BLOCK_SIZE]
      (offset % L.BLOCK_SIZE) (bs.drop (offset / L.BLOCK_SIZE)) hcs (by
        have h1 : (bs.drop (offset / L.BLOCK_SIZE)).length * L.BLOCK_SIZE
            = bs.length * L.BLOCK_SIZE - offset / L.BLOCK_SIZE * L.BLOCK_SIZE := by
          rw [List.length_drop, Nat.sub_mul]
        have h2 : offset / L.BLOCK_SIZE * L.BLOCK_SIZE ≤ bs.length * L.BLOCK_SIZE :=
          Nat.mul_le_mul_right _ (Nat.le_of_lt hk)
        omega) hmod (le_refl _)
    have hbytes : ((chainBytes L d (bs.drop (offset / L.BLOCK_SIZE))).drop
        (offset % L.BLOCK_SIZE)) = (chainBytes L d bs).drop offset := by
      rw [← chainBytes_drop, List.drop_drop]
      congr 1
      omega
    have hlenbuf : (((chainBytes L d bs).drop offset).take n).length = n := by
      rw [List.length_take, List.length_drop, length_chainBytes]
      omega
    have hne : ¬ offset ≥ fs := by omega
    simp only [sfs_read, hres, hreg, ne_eq, not_true_eq_false, if_false, huoff, hsize, hbo, hbi,
      ← hfsdef, hne, Nat.pos_iff_ne_zero.1 hBS, hskip, hcopy, hbytes, hlenbuf]
    rw [toInt32_small n (by omega)]
  · intro hoff
    simp only [sfs_read, hres, hreg, ne_eq, not_true_eq_false, if_false, huoff, ge_iff_le, hoff,
      if_true]

theorem sfs_read_returns_bytes_witness :
    sfs_read demoLayout demoImage (joinPath [nameF]) 100 ((18 : Nat) : Int)
      = some (7, [118, 119, 120, 121, 122, 123, 124]) ∧
    sfs_read demoLayout demoImage (joinPath [nameF]) 100 ((25 : Nat) : Int) = some (0, []) := by
  have h := sfs_read_returns_bytes demoLayout demoImage (joinPath [nameF])
    { filename := [102, 0, 0, 0], size := 25, first_block := 4 } 12 [4, 5] 100
  have h1 := (h 18 (by decide) (by decide) (by decide) (by decide) (by decide) (by decide)
    (by norm_num)).1 (by decide)
  have h2 := (h 25 (by decide) (by decide) (by decide) (by decide) (by decide) (by decide)
    (by norm_num)).2 (by decide)
  have e1 : ((chainBytes demoLayout demoImage [4, 5]).drop 18).take
      (min 100 ((25 &&& demoLayout.SIZEMASK) - 18)) = [118, 119, 120, 121, 122, 123, 124] := by
    decide
  have e2 : (((min 100 ((25 &&& demoLayout.SIZEMASK) - 18) : Nat)) : Int) = 7 := by decide
  simp only at h1
  rw [e1, e2] at h1
  exact ⟨h1, h2⟩

/-! ### Writing one slot of an array -/

theorem disk_read_add (d : Disk) (a b off : Nat) :
    disk_read d (a + b) off = disk_read d a off ++ disk_read d b (off + a) := by
  apply List.ext_getElem?
  intro k
  rw [getElem?_disk_read]
  by_cases h : k < a
  · rw [List.getElem?_append_left (by simpa using h), getElem?_disk_read, if_pos h,
      if_pos (by omega)]
  · rw [List.getElem?_append_right (by simpa using h), getElem?_disk_read, length_disk_read]
    by_cases h2 : k < a + b
    · rw [if_pos h2, if_pos (by omega)]
      congr 2
      omega
    · rw [if_neg h2, if_neg (by omega)]

theorem encodeEntries_append (L : Layout) (xs ys : List Entry) :
    encodeEntries L (xs ++ ys) = encodeEntries L xs ++ encodeEntries L ys := by
  simp [encodeEntries]

theorem encodeEntries_cons (L : Layout) (x : Entry) (xs : List Entry) :
    encodeEntries L (x :: xs) = encodeEntry L x ++ encodeEntries L xs := by
  simp [encodeEntries]

theorem encodeEntry_readEntry (L : Layout) (d : Disk) (off : Nat) :
    encodeEntry L (readEntry L d off) = disk_read d L.ENTRY_SIZE off :=
  encodeEntry_decodeEntry L _ (length_disk_read _ _ _)

theorem readEntries_succ (L : Layout) (d : Disk) (off n : Nat) :
    readEntries L d off (n + 1)
      = readEntries L d off n ++ [readEntry L d (off + n * L.ENTRY_SIZE)] := by
  simp [readEntries, List.range_succ]

theorem readEntries_succ_left (L : Layout) (d : Disk) (off n : Nat) :
    readEntries L d off (n + 1)
      = readEntry L d off :: readEntries L d (off + L.ENTRY_SIZE) n := by
  simp only [readEntries, List.range_succ_eq_map, List.map_cons, List.map_map, zero_mul,
    add_zero, List.cons.injEq, true_and]
  apply List.map_congr_left
  intro i _
  simp only [Function.comp]
  congr 1
  rw [Nat.succ_mul]
  omega

/-- Writing back an array that was read gives the bytes that were there. -/
theorem encodeEntries_readEntries (L : Layout) (d : Disk) (off n : Nat) :
    encodeEntries L (readEntries L d off n) = disk_read d (n * L.ENTRY_SIZE) off := by
  induction n with
  | zero => simp [readEntries, encodeEntries, disk_read]
  | succ n ih =>
    rw [readEntries_succ, encodeEntries_append, ih, encodeEntries_cons, encodeEntry_readEntry]
    have : encodeEntries L [] = [] := rfl
    rw [this, List.append_nil, Nat.succ_mul, disk_read_add]

theorem readEntries_add (L : Layout) (d : Disk) (off a b : Nat) :
    readEntries L d off (a + b)
      = readEntries L d off a ++ readEntries L d (off + a * L.ENTRY_SIZE) b := by
  induction b with
  | zero => simp [readEntries]
  | succ b ih =>
    rw [← Nat.add_assoc, readEntries_succ, ih, readEntries_succ, List.append_assoc]
    congr 3
    rw [Nat.add_mul, Nat.add_assoc]

/-- Writing a buffer whose head and tail repeat what the image holds changes only the middle. -/
theorem disk_write_frame (d : Disk) (p s off : Nat) (X : List Byte) :
    disk_write d (disk_read d p off ++ X ++ disk_read d s (off + p + X.length)) off
      = disk_write d X (off + p) := by
  funext a
  simp only [disk_write, List.length_append, length_disk_read]
  by_cases h1 : off ≤ a ∧ a < off + (p + X.length + s)
  · rw [if_pos h1, List.getD_eq_getElem?_getD]
    by_cases h2 : a < off + p
    · rw [if_neg (by omega), List.append_assoc,
        List.getElem?_append_left (by simp; omega), getElem?_disk_read, if_pos (by omega)]
      have : off + (a - off) = a := by omega
      simp [this]
    · by_cases h3 : a < off + p + X.length
      · rw [if_pos (by omega), List.append_assoc,
          List.getElem?_append_right (by simp; omega),
          List.getElem?_append_left (by simp; omega), length_disk_read,
          List.getD_eq_getElem?_getD]
        congr 2
        omega
      · rw [if_neg (by omega), List.getElem?_append_right (by simp; omega), getElem?_disk_read,
          if_pos (by simp; omega)]
        simp only [List.length_append, length_disk_read, Option.getD_some]
        congr 1
        omega
  · rw [if_neg h1, if_neg (by omega)]

theorem take_readEntries (L : Layout) (d : Disk) (off n i : Nat) (h : i ≤ n) :
    (readEntries L d off n).take i = readEntries L d off i := by
  obtain ⟨m, rfl⟩ := Nat.exists_eq_add_of_le h
  rw [readEntries_add, List.take_left' (length_readEntries _ _ _ _)]

theorem drop_readEntries (L : Layout) (d : Disk) (off n i : Nat) (h : i ≤ n) :
    (readEntries L d off n).drop i = readEntries L d (off + i * L.ENTRY_SIZE) (n - i) := by
  obtain ⟨m, rfl⟩ := Nat.exists_eq_add_of_le h
  rw [readEntries_add, List.drop_left' (length_readEntries _ _ _ _)]
  simp

/-- Writing back an array with slot `i` replaced rewrites exactly the bytes of slot `i`. -/
theorem disk_write_modify (L : Layout) (d : Disk) (off n i : Nat) (f : Entry → Entry)
    (hi : i < n) (hf : (f (readEntry L d (off + i * L.ENTRY_SIZE))).WF L) :
    disk_write d (encodeEntries L ((readEntries L d off n).modify f i)) off
      = disk_write d (encodeEntry L (f (readEntry L d (off + i * L.ENTRY_SIZE))))
          (off + i * L.ENTRY_SIZE) := by
  have hlen : i < (readEntries L d off n).length := by simpa [length_readEntries] using hi
  rw [List.modify_eq_take_cons_drop hlen, take_readEntries L d off n i (by omega),
    drop_readEntries L d off n (i + 1) (by omega), getElem_readEntries,
    encodeEntries_append, encodeEntries_cons, encodeEntries_readEntries,
    encodeEntries_readEntries, ← List.append_assoc]
  have := disk_write_frame d (i * L.ENTRY_SIZE) ((n - (i + 1)) * L.ENTRY_SIZE) off
    (encodeEntry L (f (readEntry L d (off + i * L.ENTRY_SIZE))))
  rw [length_encodeEntry L _ hf] at this
  have e : off + i * L.ENTRY_SIZE + L.ENTRY_SIZE = off + (i + 1) * L.ENTRY_SIZE := by ring
  rw [e] at this
  exact this

/-- After one slot is written, that slot decodes to what was written. -/
theorem readEntry_write_slot (L : Layout) (d : Disk) (o : Nat) (e : Entry) (he : e.WF L) :
    readEntry L (disk_write d (encodeEntry L e) o) o = e := by
  simp only [readEntry]
  rw [disk_read_write_in _ _ _ _ _ (le_refl _) (by rw [length_encodeEntry L e he])]
  simp only [Nat.sub_self, List.drop_zero]
  rw [← length_encodeEntry L e he, List.take_length, decodeEntry_encodeEntry L e he]

/-- After one slot of an array is written, the array is the old one with that slot replaced. -/
theorem readEntries_write_slot (L : Layout) (d : Disk) (off n i : Nat) (e : Entry)
    (he : e.WF L) :
    readEntries L (disk_write d (encodeEntry L e) (off + i * L.ENTRY_SIZE)) off n
      = (readEntries L d off n).set i e := by
  apply List.ext_getElem
  · simp [length_readEntries]
  · intro j h1 h2
    rw [getElem_readEntries, List.getElem_set]
    by_cases hij : i = j
    · subst hij
      rw [if_pos rfl, readEntry_write_slot L d _ e he]
    · rw [if_neg hij, getElem_readEntries]
      apply readEntry_congr
      intro a ha1 ha2
      apply disk_write_out
      rw [length_encodeEntry L e he]
      rcases Nat.lt_or_gt_of_ne hij with h | h
      · right
        have : (i + 1) * L.ENTRY_SIZE ≤ j * L.ENTRY_SIZE := Nat.mul_le_mul_right _ h
        have : (i + 1) * L.ENTRY_SIZE = i * L.ENTRY_SIZE + L.ENTRY_SIZE := by ring
        omega
      · left
        have : (j + 1) * L.ENTRY_SIZE ≤ i * L.ENTRY_SIZE := Nat.mul_le_mul_right _ h
        have : (j + 1) * L.ENTRY_SIZE = j * L.ENTRY_SIZE + L.ENTRY_SIZE := by ring
        omega

/-! ### Slots -/

theorem findSlot_eq_some (p : Entry → Bool) (es : List Entry) (i : Nat) (e0 : Entry)
    (hi : es[i]? = some e0) (hp : p e0 = true) (hmin : ∀ e ∈ es.take i, p e = false) :
    findSlot p es = some i := by
  induction es generalizing i with
  | nil => simp at hi
  | cons e es ih =>
    cases i with
    | zero =>
      simp only [List.getElem?_cons_zero, Option.some.injEq] at hi
      subst hi
      simp [findSlot, hp]
    | succ i =>
      have he : p e = false := hmin e (by simp)
      simp only [List.getElem?_cons_succ] at hi
      simp only [findSlot, he, Bool.false_eq_true, if_false]
      rw [ih i hi (fun x hx => hmin x (by simp [hx]))]
      rfl

theorem findSlot_some_spec (p : Entry → Bool) (es : List Entry) (i : Nat)
    (h : findSlot p es = some i) :
    (∃ e, es[i]? = some e ∧ p e = true) ∧ ∀ e ∈ es.take i, p e = false := by
  induction es generalizing i with
  | nil => simp [findSlot] at h
  | cons e es ih =>
    by_cases he : p e = true
    · simp only [findSlot, he, if_true, Option.some.injEq] at h
      subst h
      exact ⟨⟨e, by simp, he⟩, by simp⟩
    · simp only [findSlot, he, if_false, Bool.false_eq_true] at h
      cases hf : findSlot p es with
      | none => simp [hf] at h
      | some j =>
        simp only [hf, Option.map_some', Option.some.injEq] at h
        subst h
        obtain ⟨⟨x, hx, hpx⟩, hmin⟩ := ih j hf
        refine ⟨⟨x, by simpa using hx, hpx⟩, ?_⟩
        intro y hy
        simp only [List.take_succ_cons, List.mem_cons] at hy
        rcases hy with rfl | hy
        · simpa using he
        · exact hmin y hy

theorem findSlot_none_spec (p : Entry → Bool) (es : List Entry)
    (h : findSlot p es = none) : ∀ e ∈ es, p e = false := by
  induction es with
  | nil => simp
  | cons e es ih =>
    by_cases he : p e = true
    · simp [findSlot, he] at h
    · simp only [findSlot, he, if_false, Bool.false_eq_true, Option.map_eq_none'] at h
      intro y hy
      simp only [List.mem_cons] at hy
      rcases hy with rfl | hy
      · simpa using he
      · exact ih h y hy

/-! ### Strings written into name fields -/

theorem cstr_cstr (s : List Byte) : cstr (cstr s) = cstr s := by
  apply cstr_of_noNul
  intro b hb
  have := List.mem_takeWhile_imp hb
  simpa using this

theorem cstr_append_nul (s t : List Byte) (h : ∀ b ∈ s, b ≠ 0) : cstr (s ++ 0 :: t) = s := by
  simp only [cstr]
  rw [List.takeWhile_append_of_pos (by intro b hb; simpa using h b hb)]
  simp

theorem cstr_noNul (s : List Byte) : ∀ b ∈ cstr s, b ≠ 0 := by
  intro b hb
  have := List.mem_takeWhile_imp hb
  simpa using this

theorem cstr_strcpy (dst : List Byte) (src : CStr) : cstr (strcpy dst src) = cstr src := by
  simp only [strcpy, List.append_assoc, List.singleton_append]
  exact cstr_append_nul _ _ (cstr_noNul src)

theorem length_strcpy (dst : List Byte) (src : CStr) (h : strlen src < dst.length) :
    (strcpy dst src).length = dst.length := by
  simp only [strlen] at h
  simp only [strcpy, List.length_append, List.length_singleton, List.length_drop]
  omega

theorem length_clearName (dst : List Byte) : (clearName dst).length = dst.length := by
  cases dst <;> rfl

theorem cstr_clearName (dst : List Byte) : cstr (clearName dst) = [] := by
  cases dst with
  | nil => rfl
  | cons b t => simp [clearName, cstr]

theorem IDX_MOD_pos (L : Layout) : 0 < L.IDX_MOD := by
  simp [Layout.IDX_MOD]

theorem SIZE_MOD_pos (L : Layout) : 0 < L.SIZE_MOD := by
  simp [Layout.SIZE_MOD]

theorem createSlot_WF (L : Layout) (file : CStr) (e : Entry) (he : e.WF L)
    (h : strlen file < L.FILENAME_MAX) : (createSlot L file e).WF L :=
  ⟨by rw [createSlot, length_strcpy _ _ (by rw [he.1]; exact h), he.1], SIZE_MOD_pos L,
    Nat.mod_lt _ (IDX_MOD_pos L)⟩

theorem mkdirSlot_WF (L : Layout) (fb : Nat) (name : CStr) (e : Entry) (he : e.WF L)
    (h : strlen name < L.FILENAME_MAX) (hfb : fb < L.IDX_MOD) : (mkdirSlot L fb name e).WF L :=
  ⟨by rw [mkdirSlot, length_strcpy _ _ (by rw [he.1]; exact h), he.1],
    Nat.mod_lt _ (SIZE_MOD_pos L), hfb⟩

theorem clearedSlot_WF (L : Layout) (e : Entry) (he : e.WF L) : (clearedSlot L e).WF L :=
  ⟨by rw [clearedSlot, length_clearName, he.1], SIZE_MOD_pos L, Nat.mod_lt _ (IDX_MOD_pos L)⟩

/-! ### Path splitting -/

theorem splitLast_cstr (path : List Byte) (parent file : CStr)
    (h : splitLast path = some (parent, file)) : cstr parent = parent ∧ cstr file = file := by
  simp only [splitLast] at h
  cases hk : strrchr (cstr path) with
  | none => simp [hk] at h
  | some k =>
    simp only [hk, Option.some.injEq, Prod.mk.injEq] at h
    obtain ⟨rfl, rfl⟩ := h
    constructor
    · apply cstr_of_noNul
      intro b hb
      exact cstr_noNul path b (List.mem_of_mem_take hb)
    · apply cstr_of_noNul
      intro b hb
      exact cstr_noNul path b (List.mem_of_mem_drop hb)

/-! ### One slot of a directory rewritten -/

/-- What the write-back of a directory array with slot `i` changed does to the image. -/
theorem write_slot_effects (L : Layout) (d : Disk) (blk : Option Nat) (i : Nat) (f : Entry → Entry)
    (e0 : Entry) (hslot : (dirArray L d blk)[i]? = some e0) (hf : (f e0).WF L) :
    disk_write d (encodeEntries L ((dirArray L d blk).modify f i)) (dirOff L blk)
        = disk_write d (encodeEntry L (f e0)) (dirOff L blk + i * L.ENTRY_SIZE) ∧
    dirArray L (disk_write d (encodeEntry L (f e0)) (dirOff L blk + i * L.ENTRY_SIZE)) blk
        = (dirArray L d blk).set i (f e0) ∧
    ∀ a, (a < dirOff L blk + i * L.ENTRY_SIZE ∨ dirOff L blk + (i + 1) * L.ENTRY_SIZE ≤ a) →
      disk_write d (encodeEntry L (f e0)) (dirOff L blk + i * L.ENTRY_SIZE) a = d a := by
  obtain ⟨hi, hread⟩ := getElem?_dirArray L d blk i e0 hslot
  refine ⟨?_, ?_, ?_⟩
  · rw [dirArray_eq, disk_write_modify L d _ _ i f hi (by rw [hread]; exact hf), hread]
  · rw [dirArray_eq, dirArray_eq, readEntries_write_slot L d _ _ i _ hf]
  · intro a ha
    apply disk_write_out
    rw [length_encodeEntry L _ hf]
    have : (i + 1) * L.ENTRY_SIZE = i * L.ENTRY_SIZE + L.ENTRY_SIZE := by
      rw [Nat.add_mul]; omega
    omega

/-- A write confined to one directory slot leaves the block table alone. -/
theorem readTable_slot_frame (L : Layout) (d d' : Disk) (blk : Option Nat) (i : Nat)
    (hroot : L.ROOTDIR_OFF + L.ROOTDIR_SIZE ≤ L.BLOCKTBL_OFF)
    (htbl : L.BLOCKTBL_OFF + L.BLOCKTBL_SIZE ≤ L.DATA_OFF)
    (hi : i < dirLen L blk)
    (hframe : ∀ a, (a < dirOff L blk + i * L.ENTRY_SIZE ∨
      dirOff L blk + (i + 1) * L.ENTRY_SIZE ≤ a) → d' a = d a) :
    readTable L d' = readTable L d := by
  apply readTable_congr
  intro a h1 h2
  apply hframe
  have h3 : (i + 1) * L.ENTRY_SIZE ≤ dirLen L blk * L.ENTRY_SIZE := Nat.mul_le_mul_right _ hi
  cases blk with
  | none =>
    right
    simp only [dirOff, dirLen, Layout.ROOTDIR_SIZE] at *
    omega
  | some b =>
    left
    simp only [dirOff, Layout.blockOff]
    omega

theorem parentBlock_cases (L : Layout) (d : Disk) (pp : CStr) (blk : Option Nat)
    (h : parentBlock L d pp = some blk) :
    (cstr pp = [SLASH] ∧ blk = none) ∨
    (cstr pp ≠ [SLASH] ∧ ∃ pe off, get_entry L d pp = some (Lookup.found pe off) ∧
      blk = some pe.first_block) := by
  simp only [parentBlock] at h
  by_cases hp : cstr pp = [SLASH]
  · rw [if_pos hp] at h
    cases h
    exact Or.inl ⟨hp, rfl⟩
  · rw [if_neg hp] at h
    right
    refine ⟨hp, ?_⟩
    cases hg : get_entry L d pp with
    | none => simp [hg] at h
    | some r =>
      cases r with
      | err c => simp [hg] at h
      | found pe off =>
        simp only [hg, Option.some.injEq] at h
        exact ⟨pe, off, rfl, h.symm⟩

theorem isEmptySlot_iff (e : Entry) : isEmptySlot e = true ↔ cstr e.filename = [] := by
  simp [isEmptySlot, strlen]

/-- C5: for a path whose basename is shorter than FILENAME_MAX and whose parent
is `/` or resolves, if slot `i` is the lowest slot of the parent's array with
an empty filename, `sfs_create` returns 0; afterwards that array is the old
one with slot `i` replaced by `{filename = basename, size = 0, first_block =
END}`, and every byte of the image outside slot `i` (all other slots, the
block table, every other region) is unchanged. -/
theorem sfs_create_fills_first_empty (L : Layout) (d : Disk) (path : List Byte)
    (parent file : CStr) (blk : Option Nat) (i : Nat) (e0 : Entry)
    (hroot : L.ROOTDIR_OFF + L.ROOTDIR_SIZE ≤ L.BLOCKTBL_OFF)
    (htbl : L.BLOCKTBL_OFF + L.BLOCKTBL_SIZE ≤ L.DATA_OFF)
    (hEND : L.BLOCKIDX_END < L.IDX_MOD)
    (hsplit : splitLast path = some (parent, file))
    (hname : strlen file < L.FILENAME_MAX)
    (hpar : parentBlock L d (fixParent parent) = some blk)
    (hslot : (dirArray L d blk)[i]? = some e0)
    (hempty : cstr e0.filename = [])
    (hmin : ∀ e ∈ (dirArray L d blk).take i, cstr e.filename ≠ []) :
    ∃ d', sfs_create L d path = some (0, d') ∧
      dirArray L d' blk = (dirArray L d blk).set i
        { filename := strcpy e0.filename file, size := 0, first_block := L.BLOCKIDX_END } ∧
      cstr (strcpy e0.filename file) = file ∧
      readTable L d' = readTable L d ∧
      ∀ a, (a < dirOff L blk + i * L.ENTRY_SIZE ∨ dirOff L blk + (i + 1) * L.ENTRY_SIZE ≤ a) →
        d' a = d a := by
  have hwf0 : e0.WF L := dirArray_WF L d blk e0 (List.getElem?_mem hslot)
  have hwf : (createSlot L file e0).WF L := createSlot_WF L file e0 hwf0 hname
  have hfind : findSlot isEmptySlot (dirArray L d blk) = some i :=
    findSlot_eq_some _ _ i e0 hslot ((isEmptySlot_iff e0).2 hempty) (by
      intro e he
      have := hmin e he
      cases hb : isEmptySlot e with
      | false => rfl
      | true => exact absurd ((isEmptySlot_iff e).1 hb) this)
  obtain ⟨hw1, hw2, hw3⟩ := write_slot_effects L d blk i (createSlot L file) e0 hslot hwf
  have hi := (getElem?_dirArray L d blk i e0 hslot).1
  have hcs : createSlot L file e0
      = { filename := strcpy e0.filename file, size := 0, first_block := L.BLOCKIDX_END } := by
    simp only [createSlot, Nat.mod_eq_of_lt hEND]
  refine ⟨disk_write d (encodeEntry L (createSlot L file e0)) (dirOff L blk + i * L.ENTRY_SIZE),
    ?_, by rw [hw2, hcs], by rw [cstr_strcpy, (splitLast_cstr path parent file hsplit).2],
    readTable_slot_frame L d _ blk i hroot htbl hi hw3, hw3⟩
  have hnl : ¬ strlen file ≥ L.FILENAME_MAX := by omega
  rcases parentBlock_cases L d _ blk hpar with ⟨hp, rfl⟩ | ⟨hp, pe, off, hg, rfl⟩
  · simp only [sfs_create, hsplit, hnl, if_false, hp, if_true]
    simp only [dirArray] at hfind hw1
    simp only [hfind, writeRoot]
    rw [← hw1]
    rfl
  · simp only [sfs_create, hsplit, hnl, if_false, hp, hg]
    simp only [dirArray] at hfind hw1
    simp only [hfind, writeDir]
    rw [← hw1]
    rfl

theorem sfs_create_fills_first_empty_witness :
    ∃ d', sfs_create demoLayout demoImage (joinPath [nameA, nameX]) = some (0, d') ∧
      dirArray demoLayout d' (some 0) = (dirArray demoLayout demoImage (some 0)).set 1
        { filename := strcpy [0, 0, 0, 0] nameX, size := 0,
          first_block := demoLayout.BLOCKIDX_END } ∧
      cstr (strcpy [0, 0, 0, 0] nameX) = nameX ∧
      readTable demoLayout d' = readTable demoLayout demoImage ∧
      ∀ a, (a < dirOff demoLayout (some 0) + 1 * demoLayout.ENTRY_SIZE ∨
          dirOff demoLayout (some 0) + (1 + 1) * demoLayout.ENTRY_SIZE ≤ a) →
        d' a = demoImage a :=
  sfs_create_fills_first_empty demoLayout demoImage (joinPath [nameA, nameX]) (joinPath [nameA])
    nameX (some 0) 1 { filename := [0, 0, 0, 0], size := 0, first_block := 65535 }
    (by decide) (by decide) (by decide) (by decide) (by decide) (by decide) (by decide)
    (by decide) (by decide)

/-! ### sfs_mkdir: allocation -/

theorem findFreePair_spec (L : Layout) (t : List Nat) :
    ∀ (k s i : Nat), s ≤ i → i < s + k →
      (t.getD i 0 = L.BLOCKIDX_EMPTY ∧ t.getD (i + 1) 0 = L.BLOCKIDX_EMPTY) →
      (∀ j, s ≤ j → j < i →
        ¬ (t.getD j 0 = L.BLOCKIDX_EMPTY ∧ t.getD (j + 1) 0 = L.BLOCKIDX_EMPTY)) →
      findFreePair L t s k = some i := by
  intro k
  induction k with
  | zero => intro s i h1 h2; omega
  | succ k ih =>
    intro s i h1 h2 hfree hmin
    by_cases hs : s = i
    · subst hs
      simp only [findFreePair, hfree, and_self, if_true]
    · have := hmin s (le_refl _) (by omega)
      simp only [findFreePair, this, if_false]
      exact ih (s + 1) i (by omega) (by omega) hfree (fun j hj1 hj2 => hmin j (by omega) hj2)

theorem findFreePair_none (L : Layout) (t : List Nat) :
    ∀ (k s : Nat), findFreePair L t s k = none →
      ∀ j, s ≤ j → j < s + k →
        ¬ (t.getD j 0 = L.BLOCKIDX_EMPTY ∧ t.getD (j + 1) 0 = L.BLOCKIDX_EMPTY) := by
  intro k
  induction k with
  | zero => intro s _ j h1 h2; omega
  | succ k ih =>
    intro s h j h1 h2
    by_cases hp : t.getD s 0 = L.BLOCKIDX_EMPTY ∧ t.getD (s + 1) 0 = L.BLOCKIDX_EMPTY
    · rw [findFreePair, if_pos hp] at h
      cases h
    · simp only [findFreePair, hp, if_false] at h
      by_cases hs : s = j
      · subst hs; exact hp
      · exact ih (s + 1) h j (by omega) (by omega)

theorem findFreePair_some (L : Layout) (t : List Nat) :
    ∀ (k s i : Nat), findFreePair L t s k = some i →
      s ≤ i ∧ i < s + k ∧
      (t.getD i 0 = L.BLOCKIDX_EMPTY ∧ t.getD (i + 1) 0 = L.BLOCKIDX_EMPTY) := by
  intro k
  induction k with
  | zero => intro s i h; simp [findFreePair] at h
  | succ k ih =>
    intro s i h
    by_cases hp : t.getD s 0 = L.BLOCKIDX_EMPTY ∧ t.getD (s + 1) 0 = L.BLOCKIDX_EMPTY
    · simp only [findFreePair, hp, and_self, if_true, Option.some.injEq] at h
      subst h
      exact ⟨le_refl _, by omega, hp⟩
    · simp only [findFreePair, hp, if_false] at h
      obtain ⟨h1, h2, h3⟩ := ih (s + 1) i h
      exact ⟨by omega, by omega, h3⟩

theorem getD_of_getElem? (t : List Nat) (i x : Nat) (h : t[i]? = some x) : t.getD i 0 = x := by
  rw [List.getD_eq_getElem?_getD, h]; rfl

/-- The table `sfs_mkdir` writes when `i` is the lowest index of two adjacent EMPTY cells. -/
theorem mkdirAlloc_pair (L : Layout) (d : Disk) (i : Nat)
    (hN : L.BLOCKTBL_NENTRIES ≤ L.IDX_MOD)
    (hi : i + 1 < L.BLOCKTBL_NENTRIES)
    (hfree : (readTable L d)[i]? = some L.BLOCKIDX_EMPTY ∧
      (readTable L d)[i + 1]? = some L.BLOCKIDX_EMPTY)
    (hmin : ∀ j, j < i → ¬ ((readTable L d)[j]? = some L.BLOCKIDX_EMPTY ∧
      (readTable L d)[j + 1]? = some L.BLOCKIDX_EMPTY)) :
    mkdirAlloc L d = (i, writeTable L d
      (((readTable L d).set i (i + 1)).set (i + 1) (L.BLOCKIDX_END % L.IDX_MOD))) := by
  have hfind : findFreePair L (readTable L d) 0 (L.BLOCKTBL_NENTRIES - 1) = some i := by
    apply findFreePair_spec L _ _ 0 i (Nat.zero_le _) (by omega)
      ⟨getD_of_getElem? _ _ _ hfree.1, getD_of_getElem? _ _ _ hfree.2⟩
    intro j _ hj hp
    apply hmin j hj
    rw [getElem?_readTable L d j (by omega), getElem?_readTable L d (j + 1) (by omega)]
    have h1 := getD_of_getElem? _ _ _ (getElem?_readTable L d j (by omega))
    have h2 := getD_of_getElem? _ _ _ (getElem?_readTable L d (j + 1) (by omega))
    rw [← h1, ← h2, hp.1, hp.2]
    exact ⟨rfl, rfl⟩
  simp only [mkdirAlloc, hfind]
  rw [Nat.mod_eq_of_lt (by omega : i < L.IDX_MOD), Nat.mod_eq_of_lt (by omega : i + 1 < L.IDX_MOD)]

theorem readTable_mkdirAlloc_pair (L : Layout) (d : Disk) (i : Nat)
    (hN : L.BLOCKTBL_NENTRIES ≤ L.IDX_MOD)
    (hi : i + 1 < L.BLOCKTBL_NENTRIES) :
    readTable L (writeTable L d
      (((readTable L d).set i (i + 1)).set (i + 1) (L.BLOCKIDX_END % L.IDX_MOD)))
      = ((readTable L d).set i (i + 1)).set (i + 1) (L.BLOCKIDX_END % L.IDX_MOD) := by
  apply readTable_writeTable
  · simp [length_readTable]
  · intro x hx
    rcases List.mem_or_eq_of_mem_set hx with hx | rfl
    · rcases List.mem_or_eq_of_mem_set hx with hx | rfl
      · exact readTable_lt L d x hx
      · omega
    · exact Nat.mod_lt _ (IDX_MOD_pos L)

/-! ### Frames of the three kinds of write -/

theorem readTable_writeDir (L : Layout) (d : Disk) (b : Nat) (es : List Entry)
    (htbl : L.BLOCKTBL_OFF + L.BLOCKTBL_SIZE ≤ L.DATA_OFF) :
    readTable L (writeDir L d b es) = readTable L d := by
  apply readTable_congr
  intro a h1 h2
  apply disk_write_out
  left
  simp only [Layout.blockOff]
  omega

theorem readTable_write_dirOff (L : Layout) (d : Disk) (blk : Option Nat) (es : List Entry)
    (hroot : L.ROOTDIR_OFF + L.ROOTDIR_SIZE ≤ L.BLOCKTBL_OFF)
    (htbl : L.BLOCKTBL_OFF + L.BLOCKTBL_SIZE ≤ L.DATA_OFF)
    (hlen : es.length = dirLen L blk) (hwf : ∀ e ∈ es, e.WF L) :
    readTable L (disk_write d (encodeEntries L es) (dirOff L blk)) = readTable L d := by
  cases blk with
  | some b => exact readTable_writeDir L d b es htbl
  | none =>
    apply readTable_congr
    intro a h1 h2
    apply disk_write_out
    right
    rw [length_encodeEntries L es hwf, hlen]
    simp only [dirOff, dirLen, Layout.ROOTDIR_SIZE] at *
    omega

theorem dirArray_writeTable (L : Layout) (d : Disk) (t : List Nat) (blk : Option Nat)
    (hroot : L.ROOTDIR_OFF + L.ROOTDIR_SIZE ≤ L.BLOCKTBL_OFF)
    (htbl : L.BLOCKTBL_OFF + L.BLOCKTBL_SIZE ≤ L.DATA_OFF)
    (hlen : t.length = L.BLOCKTBL_NENTRIES) :
    dirArray L (writeTable L d t) blk = dirArray L d blk := by
  rw [dirArray_eq, dirArray_eq]
  apply readEntries_congr
  intro a h1 h2
  simp only [writeTable]
  apply disk_write_out
  rw [length_encodeTable, hlen]
  cases blk with
  | none =>
    left
    simp only [dirOff, dirLen, Layout.ROOTDIR_SIZE] at *
    omega
  | some b =>
    right
    simp only [dirOff, Layout.blockOff, Layout.BLOCKTBL_SIZE] at *
    omega

theorem mkdirAlloc_snd (L : Layout) (d : Disk) :
    (mkdirAlloc L d).2 = d ∨
      ∃ t, t.length = L.BLOCKTBL_NENTRIES ∧ (mkdirAlloc L d).2 = writeTable L d t := by
  simp only [mkdirAlloc]
  cases findFreePair L (readTable L d) 0 (L.BLOCKTBL_NENTRIES - 1) with
  | none => exact Or.inl rfl
  | some i => exact Or.inr ⟨_, by simp [length_readTable], rfl⟩

theorem mkdirAlloc_fst_lt (L : Layout) (d : Disk) : (mkdirAlloc L d).1 < L.IDX_MOD := by
  simp only [mkdirAlloc]
  cases findFreePair L (readTable L d) 0 (L.BLOCKTBL_NENTRIES - 1) with
  | none => exact Nat.mod_lt _ (IDX_MOD_pos L)
  | some i => exact Nat.mod_lt _ (IDX_MOD_pos L)

theorem dirArray_mkdirAlloc (L : Layout) (d : Disk) (blk : Option Nat)
    (hroot : L.ROOTDIR_OFF + L.ROOTDIR_SIZE ≤ L.BLOCKTBL_OFF)
    (htbl : L.BLOCKTBL_OFF + L.BLOCKTBL_SIZE ≤ L.DATA_OFF) :
    dirArray L (mkdirAlloc L d).2 blk = dirArray L d blk := by
  rcases mkdirAlloc_snd L d with h | ⟨t, ht, h⟩
  · rw [h]
  · rw [h, dirArray_writeTable L d t blk hroot htbl ht]

theorem modify_WF (L : Layout) (f : Entry → Entry) (hf : ∀ e, e.WF L → (f e).WF L) :
    ∀ (es : List Entry) (k : Nat), (∀ e ∈ es, e.WF L) → ∀ e ∈ es.modify f k, e.WF L := by
  intro es
  induction es with
  | nil => intro k _ e he; simp at he
  | cons x xs ih =>
    intro k h e he
    cases k with
    | zero =>
      simp only [List.modify_zero_cons, List.mem_cons] at he
      rcases he with rfl | he
      · exact hf x (h x (by simp))
      · exact h e (by simp [he])
    | succ k =>
      simp only [List.modify_succ_cons, List.mem_cons] at he
      rcases he with rfl | he
      · exact h e (by simp)
      · exact ih k (fun y hy => h y (by simp [hy])) e he

/-- The shape of a successful `sfs_mkdir`: the table write of the allocation
step, then the parent's array with its first empty slot filled, then the new
array at block `first_block`. -/
theorem sfs_mkdir_ok_iff (L : Layout) (d stack : Disk) (path : List Byte) (d' : Disk)
    (hroot : L.ROOTDIR_OFF + L.ROOTDIR_SIZE ≤ L.BLOCKTBL_OFF)
    (htbl : L.BLOCKTBL_OFF + L.BLOCKTBL_SIZE ≤ L.DATA_OFF) :
    sfs_mkdir L d stack path = some (0, d') ↔
      ∃ parent new_dir blk k, splitLast path = some (parent, new_dir) ∧
        strlen new_dir < L.FILENAME_MAX ∧ L.BLOCKTBL_NENTRIES ≠ 0 ∧
        parentBlock L (mkdirAlloc L d).2 (fixParent parent) = some blk ∧
        findSlot isEmptySlot (dirArray L d blk) = some k ∧
        d' = writeDir L
          (disk_write (mkdirAlloc L d).2
            (encodeEntries L ((dirArray L d blk).modify
              (mkdirSlot L (mkdirAlloc L d).1 new_dir) k)) (dirOff L blk))
          (mkdirAlloc L d).1 (newEntries L stack) := by
  constructor
  · intro h
    simp only [sfs_mkdir] at h
    cases hs : splitLast path with
    | none => simp [hs] at h
    | some pr =>
      obtain ⟨parent, new_dir⟩ := pr
      simp only [hs] at h
      by_cases hn : strlen new_dir ≥ L.FILENAME_MAX
      · simp [hn, ENAMETOOLONG] at h
      · simp only [hn, if_false] at h
        by_cases hN : L.BLOCKTBL_NENTRIES = 0
        · simp [hN] at h
        · simp only [hN, if_false] at h
          by_cases hp : cstr (fixParent parent) = [SLASH]
          · simp only [hp, if_true] at h
            cases hf : findSlot isEmptySlot (readRoot L d) with
            | none => simp [hf] at h
            | some k =>
              simp only [hf, Option.some.injEq, Prod.mk.injEq, true_and] at h
              refine ⟨parent, new_dir, none, k, rfl, by omega, hN, by simp [parentBlock, hp],
                hf, ?_⟩
              rw [← h]
              rfl
          · simp only [hp, if_false] at h
            cases hg : get_entry L (mkdirAlloc L d).2 (fixParent parent) with
            | none => simp [hg] at h
            | some r =>
              cases r with
              | err c => simp [hg] at h
              | found pe off =>
                simp only [hg] at h
                have harr := dirArray_mkdirAlloc L d (some pe.first_block) hroot htbl
                simp only [dirArray] at harr
                rw [harr] at h
                cases hf : findSlot isEmptySlot (readDir L d pe.first_block) with
                | none => simp [hf] at h
                | some k =>
                  simp only [hf, Option.some.injEq, Prod.mk.injEq, true_and] at h
                  refine ⟨parent, new_dir, some pe.first_block, k, rfl, by omega, hN,
                    by simp [parentBlock, hp, hg], hf, ?_⟩
                  rw [← h]
                  rfl
  · rintro ⟨parent, new_dir, blk, k, hs, hn, hN, hpar, hf, rfl⟩
    have hn' : ¬ strlen new_dir ≥ L.FILENAME_MAX := by omega
    rcases parentBlock_cases L _ _ blk hpar with ⟨hp, rfl⟩ | ⟨hp, pe, off, hg, rfl⟩
    · simp only [dirArray] at hf
      simp only [sfs_mkdir, hs, hn', if_false, hN, hp, if_true, hf]
      rfl
    · have harr := dirArray_mkdirAlloc L d (some pe.first_block) hroot htbl
      simp only [dirArray] at harr hf
      simp only [sfs_mkdir, hs, hn', if_false, hN, hp, hg, harr, hf]
      rfl

/-- C6: when `sfs_mkdir` succeeds and `i` is the lowest index with
`table[i] = table[i+1] = EMPTY`, the blocks chosen are `first = i` and
`second = i + 1`, and the block table afterwards is the old one with
`table[i] = i + 1` and `table[i+1] = END`, all other cells unchanged. -/
theorem sfs_mkdir_allocates_lowest_pair (L : Layout) (d stack : Disk) (path : List Byte)
    (d' : Disk) (i : Nat)
    (hroot : L.ROOTDIR_OFF + L.ROOTDIR_SIZE ≤ L.BLOCKTBL_OFF)
    (htbl : L.BLOCKTBL_OFF + L.BLOCKTBL_SIZE ≤ L.DATA_OFF)
    (hN : L.BLOCKTBL_NENTRIES ≤ L.IDX_MOD)
    (hEND : L.BLOCKIDX_END < L.IDX_MOD)
    (hok : sfs_mkdir L d stack path = some (0, d'))
    (hi : i + 1 < L.BLOCKTBL_NENTRIES)
    (hfree : (readTable L d)[i]? = some L.BLOCKIDX_EMPTY ∧
      (readTable L d)[i + 1]? = some L.BLOCKIDX_EMPTY)
    (hmin : ∀ j, j < i → ¬ ((readTable L d)[j]? = some L.BLOCKIDX_EMPTY ∧
      (readTable L d)[j + 1]? = some L.BLOCKIDX_EMPTY)) :
    (mkdirAlloc L d).1 = i ∧
    readTable L d' = ((readTable L d).set i (i + 1)).set (i + 1) L.BLOCKIDX_END := by
  have halloc := mkdirAlloc_pair L d i hN hi hfree hmin
  rw [Nat.mod_eq_of_lt hEND] at halloc
  refine ⟨by rw [halloc], ?_⟩
  obtain ⟨parent, new_dir, blk, k, hs, hn, -, hpar, hf, rfl⟩ :=
    (sfs_mkdir_ok_iff L d stack path d' hroot htbl).1 hok
  obtain ⟨⟨e0, hk, -⟩, -⟩ := findSlot_some_spec _ _ _ hf
  have hwf : ∀ e ∈ (dirArray L d blk).modify (mkdirSlot L (mkdirAlloc L d).1 new_dir) k,
      e.WF L :=
    modify_WF L _ (fun x hx => mkdirSlot_WF L _ _ x hx hn (mkdirAlloc_fst_lt L d)) _ k
      (dirArray_WF L d blk)
  rw [readTable_writeDir L _ _ _ htbl,
    readTable_write_dirOff L _ blk _ hroot htbl (by simp [length_dirArray]) hwf, halloc]
  have := readTable_mkdirAlloc_pair L d i hN hi
  rw [Nat.mod_eq_of_lt hEND] at this
  exact this

theorem sfs_mkdir_allocates_lowest_pair_witness :
    ∃ d', sfs_mkdir demoLayout demoImage (fun _ => 9) (joinPath [nameA, nameX]) = some (0, d') ∧
      (mkdirAlloc demoLayout demoImage).1 = 6 ∧
      readTable demoLayout d' = [1, 65534, 3, 65534, 5, 65534, 7, 65534] := by
  have hok : ∃ d', sfs_mkdir demoLayout demoImage (fun _ => 9) (joinPath [nameA, nameX])
      = some (0, d') := by
    have : (sfs_mkdir demoLayout demoImage (fun _ => 9) (joinPath [nameA, nameX])).map
        (fun r => r.1) = some 0 := by decide
    cases h : sfs_mkdir demoLayout demoImage (fun _ => 9) (joinPath [nameA, nameX]) with
    | none => rw [h] at this; cases this
    | some r =>
      rw [h] at this
      obtain ⟨c, d'⟩ := r
      simp only [Option.map_some', Option.some.injEq] at this
      subst this
      exact ⟨d', rfl⟩
  obtain ⟨d', hd'⟩ := hok
  have h := sfs_mkdir_allocates_lowest_pair demoLayout demoImage (fun _ => 9)
    (joinPath [nameA, nameX]) d' 6 (by decide) (by decide) (by decide) (by decide) hd'
    (by decide) (by decide) (by decide)
  have e : ((readTable demoLayout demoImage).set 6 (6 + 1)).set (6 + 1)
      demoLayout.BLOCKIDX_END = [1, 65534, 3, 65534, 5, 65534, 7, 65534] := by decide
  rw [e] at h
  exact ⟨d', hd', h⟩

/-! ### Splitting an absolute path -/

theorem strrchr_none_iff (s : CStr) : strrchr s = none ↔ SLASH ∉ s := by
  induction s with
  | nil => simp [strrchr]
  | cons b bs ih =>
    simp only [strrchr, List.mem_cons, not_or]
    cases h : strrchr bs with
    | some k =>
      have : ¬ (SLASH ∉ bs) := fun hn => by rw [ih.2 hn] at h; cases h
      simp [this]
    | none =>
      have := ih.1 h
      by_cases hb : b = SLASH
      · simp [hb]
      · simp only [hb, if_false, true_iff]
        exact ⟨fun h2 => hb h2.symm, this⟩

theorem strrchr_append (pre c : CStr) (hc : SLASH ∉ c) :
    strrchr (pre ++ SLASH :: c) = some pre.length := by
  induction pre with
  | nil =>
    simp only [List.nil_append, strrchr, (strrchr_none_iff c).2 hc, if_true, List.length_nil]
  | cons b bs ih =>
    simp only [List.cons_append, strrchr, List.append_eq, ih, List.length_cons]

theorem splitLast_of_head (path : List Byte) (h : path.head? = some SLASH) :
    ∃ parent file, splitLast path = some (parent, file) := by
  cases path with
  | nil => simp at h
  | cons b bs =>
    simp only [List.head?_cons, Option.some.injEq] at h
    subst h
    have hmem : SLASH ∈ cstr (SLASH :: bs) := by
      simp only [cstr]
      rw [List.takeWhile_cons_of_pos (by decide)]
      simp
    simp only [splitLast]
    cases hs : strrchr (cstr (SLASH :: bs)) with
    | none => exact absurd hmem ((strrchr_none_iff _).1 hs)
    | some k => exact ⟨_, _, rfl⟩

theorem relPath_cons_of_ne_nil (x : CStr) (t : List CStr) (h : t ≠ []) :
    relPath (x :: t) = x ++ SLASH :: relPath t := by
  cases t with
  | nil => exact absurd rfl h
  | cons y ys => rfl

theorem relPath_snoc (cs : List CStr) (c : CStr) :
    relPath (cs ++ [c]) = if cs = [] then c else relPath cs ++ SLASH :: c := by
  induction cs with
  | nil => rfl
  | cons x xs ih =>
    rw [List.cons_append, relPath_cons_of_ne_nil x _ (by simp), ih]
    by_cases h : xs = []
    · subst h
      simp [relPath]
    · simp only [h, if_false, List.cons_ne_nil]
      rw [relPath_cons_of_ne_nil x xs h]
      simp

theorem joinPath_snoc (cs : List CStr) (c : CStr) :
    joinPath (cs ++ [c]) = (if cs = [] then [] else joinPath cs) ++ SLASH :: c := by
  simp only [joinPath, relPath_snoc]
  by_cases h : cs = []
  · simp [h]
  · simp [h]

/-- The split of `/c1/.../cn` at its last slash: the parent text and `cn`. -/
theorem splitLast_joinPath (cs : List CStr) (c : CStr) (hv : ∀ x ∈ cs ++ [c], validComp x) :
    splitLast (joinPath (cs ++ [c])) = some (if cs = [] then [] else joinPath cs, c) := by
  have hc : SLASH ∉ c := fun hm => ((hv c (by simp)).2 SLASH hm).1 rfl
  simp only [splitLast]
  rw [cstr_joinPath _ hv, joinPath_snoc, strrchr_append _ _ hc]
  simp

theorem fixParent_joinPath (cs : List CStr) (hv : ∀ x ∈ cs, validComp x) :
    fixParent (if cs = [] then [] else joinPath cs) = if cs = [] then [SLASH] else joinPath cs := by
  by_cases h : cs = []
  · simp [h, fixParent, strlen, cstr]
  · simp only [h, if_false, fixParent, strlen]
    rw [cstr_joinPath cs hv]
    simp [joinPath]

/-- For `/c1/.../cn` the writers work in the array in which `cn` is looked up. -/
theorem parentBlock_joinPath (L : Layout) (d : Disk) (cs : List CStr)
    (hnd : L.ROOTDIR_NENTRIES ≠ L.DIR_NENTRIES) (hv : ∀ x ∈ cs, validComp x) :
    parentBlock L d (if cs = [] then [SLASH] else joinPath cs) =
      if cs = [] then some none
      else (resolveFirst L d cs none).map (fun q => some q.entry.first_block) := by
  by_cases h : cs = []
  · simp [h, parentBlock, cstr, SLASH]
  · simp only [h, if_false, parentBlock, joinPath_ne_slash cs h hv,
      get_entry_joinPath L d hnd cs h hv]
    cases resolveFirst L d cs none with
    | none => rfl
    | some q => rfl

theorem findSlot_eq_findIdx? (p : Entry → Bool) (es : List Entry) :
    findSlot p es = es.findIdx? p := by
  induction es with
  | nil => rfl
  | cons e es ih =>
    by_cases h : p e = true
    · simp [findSlot, List.findIdx?_cons, h]
    · rw [findIdx?_cons_neg p e es (by simpa using h)]
      simp [findSlot, h, ih]

/-- C8: for an absolute path that resolves to an entry (a directory) whose
array in the block at `first_block` has a slot with a non-NUL first filename
byte, `sfs_rmdir` returns `-ENOTEMPTY` and the image is unchanged. -/
theorem sfs_rmdir_refuses_nonempty (L : Layout) (d : Disk) (uninit : Entry) (path : List Byte)
    (e : Entry) (off : Nat)
    (habs : path.head? = some SLASH)
    (hres : get_entry L d path = some (Lookup.found e off))
    (hne : ∃ x ∈ readDir L d e.first_block, x.filename.headD 0 ≠ 0) :
    sfs_rmdir L d uninit path = some (-ENOTEMPTY, d) := by
  obtain ⟨parent, file, hs⟩ := splitLast_of_head path habs
  have hany : (readDir L d e.first_block).any (fun x => x.filename.headD 0 ≠ 0) = true := by
    rw [List.any_eq_true]
    obtain ⟨x, hx, hx2⟩ := hne
    exact ⟨x, hx, by simpa using hx2⟩
  simp only [sfs_rmdir, hs, hres, entryAfter, hany, if_true]

theorem sfs_rmdir_refuses_nonempty_witness :
    sfs_rmdir demoLayout demoImage { filename := [], size := 0, first_block := 0 }
      (joinPath [nameA]) = some (-ENOTEMPTY, demoImage) :=
  sfs_rmdir_refuses_nonempty demoLayout demoImage _ (joinPath [nameA])
    { filename := [97, 0, 0, 0], size := 2 ^ 31, first_block := 0 } 2
    (by decide) (by decide) (by decide)

/-! ### Releasing a chain -/

theorem IsFullChain_lt (L : Layout) (t : List Nat) :
    ∀ (bs : List Nat) (b : Nat), IsFullChain L t b bs → ∀ x ∈ bs, x < t.length := by
  intro bs
  induction bs with
  | nil => intro b _ x hx; simp at hx
  | cons y ys ih =>
    intro b h x hx
    obtain ⟨rfl, -, hlt, hrest⟩ := h
    simp only [List.mem_cons] at hx
    rcases hx with rfl | hx
    · exact hlt
    · exact ih _ hrest x hx

theorem IsFullChain_unique (L : Layout) (t : List Nat) :
    ∀ (bs bs' : List Nat) (b : Nat), IsFullChain L t b bs → IsFullChain L t b bs' → bs = bs' := by
  intro bs
  induction bs with
  | nil =>
    intro bs' b h h'
    cases bs' with
    | nil => rfl
    | cons y ys => exact absurd h h'.2.1
  | cons x xs ih =>
    intro bs' b h h'
    cases bs' with
    | nil => exact absurd h' h.2.1
    | cons y ys =>
      obtain ⟨rfl, -, -, hrest⟩ := h
      obtain ⟨rfl, -, -, hrest'⟩ := h'
      rw [ih ys _ hrest hrest']

theorem IsFullChain_suffix (L : Layout) (t : List Nat) :
    ∀ (pre : List Nat) (b x : Nat) (xs : List Nat), IsFullChain L t b (pre ++ x :: xs) →
      IsFullChain L t x (x :: xs) := by
  intro pre
  induction pre with
  | nil =>
    intro b x xs h
    obtain ⟨rfl, h2⟩ := h
    exact ⟨rfl, h2⟩
  | cons y ys ih =>
    intro b x xs h
    exact ih _ x xs h.2.2.2

/-- A chain that reaches END does not visit a block twice. -/
theorem IsFullChain_nodup (L : Layout) (t : List Nat) :
    ∀ (bs : List Nat) (b : Nat), IsFullChain L t b bs → bs.Nodup := by
  intro bs
  induction bs with
  | nil => intro _ _; exact List.nodup_nil
  | cons x xs ih =>
    intro b h
    obtain ⟨rfl, hne, hlt, hrest⟩ := h
    rw [List.nodup_cons]
    refine ⟨?_, ih _ hrest⟩
    intro hmem
    obtain ⟨pre, suf, hsplit⟩ := List.append_of_mem hmem
    have h1 : IsFullChain L t x (x :: suf) := by
      rw [hsplit] at hrest
      exact IsFullChain_suffix L t pre _ x suf hrest
    have h2 : IsFullChain L t x (x :: xs) := ⟨rfl, hne, hlt, hrest⟩
    have := IsFullChain_unique L t _ _ x h1 h2
    simp only [List.cons.injEq, true_and] at this
    rw [hsplit] at this
    have hl := congrArg List.length this
    simp at hl
    omega

theorem IsFullChain_length_le (L : Layout) (t : List Nat) (bs : List Nat) (b : Nat)
    (h : IsFullChain L t b bs) : bs.length ≤ t.length := by
  have hnd := IsFullChain_nodup L t bs b h
  have hsub : bs ⊆ List.range t.length := by
    intro x hx
    exact List.mem_range.2 (IsFullChain_lt L t bs b h x hx)
  have := (List.Nodup.subperm hnd hsub).length_le
  simpa using this

theorem IsFullChain_set (L : Layout) (t : List Nat) (y v : Nat) :
    ∀ (bs : List Nat) (b : Nat), IsFullChain L t b bs → y ∉ bs →
      IsFullChain L (t.set y v) b bs := by
  intro bs
  induction bs with
  | nil => intro b h _; exact h
  | cons x xs ih =>
    intro b h hy
    obtain ⟨rfl, hne, hlt, hrest⟩ := h
    simp only [List.mem_cons, not_or] at hy
    refine ⟨rfl, hne, by simpa using hlt, ?_⟩
    have hget : (t.set y v).getD x 0 = t.getD x 0 := by
      simp only [List.getD_eq_getElem?_getD]
      rw [List.getElem?_set_ne hy.1]
    rw [hget]
    exact ih _ hrest hy.2

theorem freeChain_chain (L : Layout) :
    ∀ (bs : List Nat) (t : List Nat) (b fuel : Nat), IsFullChain L t b bs → bs.length < fuel →
      freeChain L fuel t b = some (clearCells L bs t) := by
  intro bs
  induction bs with
  | nil =>
    intro t b fuel h hf
    cases fuel with
    | zero => omega
    | succ fuel =>
      have hb : b = L.BLOCKIDX_END := h
      simp [freeChain, hb, clearCells]
  | cons x xs ih =>
    intro t b fuel h hf
    have hnd := IsFullChain_nodup L t _ b h
    obtain ⟨rfl, hne, hlt, hrest⟩ := h
    cases fuel with
    | zero => omega
    | succ fuel =>
      simp only [freeChain, if_neg hne, getElem?_of_lt_getD t x hlt]
      rw [ih _ _ fuel (IsFullChain_set L t x _ xs _ hrest (List.nodup_cons.1 hnd).1)
        (by simpa using hf)]
      rfl

theorem length_clearCells (L : Layout) (bs : List Nat) (t : List Nat) :
    (clearCells L bs t).length = t.length := by
  induction bs generalizing t with
  | nil => rfl
  | cons x xs ih =>
    simp only [clearCells, List.foldl_cons] at ih ⊢
    rw [ih]
    simp

theorem getElem?_clearCells (L : Layout) (bs : List Nat) (t : List Nat) (j : Nat)
    (hlt : ∀ x ∈ bs, x < t.length) :
    (clearCells L bs t)[j]? =
      if j ∈ bs then some (L.BLOCKIDX_EMPTY % L.IDX_MOD) else t[j]? := by
  induction bs generalizing t with
  | nil => simp [clearCells]
  | cons x xs ih =>
    simp only [clearCells, List.foldl_cons] at ih ⊢
    rw [ih _ (fun y hy => by simpa using hlt y (by simp [hy]))]
    by_cases hj : j ∈ xs
    · simp [hj]
    · simp only [hj, if_false, List.mem_cons, or_false]
      by_cases hjx : j = x
      · subst hjx
        rw [if_pos rfl, List.getElem?_set_self (hlt j (by simp))]
      · rw [if_neg hjx, List.getElem?_set_ne (fun h => hjx h.symm)]

theorem clearCells_lt (L : Layout) (bs : List Nat) (t : List Nat)
    (ht : ∀ x ∈ t, x < L.IDX_MOD) : ∀ x ∈ clearCells L bs t, x < L.IDX_MOD := by
  induction bs generalizing t with
  | nil => simpa [clearCells] using ht
  | cons y ys ih =>
    simp only [clearCells, List.foldl_cons] at ih ⊢
    apply ih
    intro x hx
    rcases List.mem_or_eq_of_mem_set hx with hx | rfl
    · exact ht x hx
    · exact Nat.mod_lt _ (IDX_MOD_pos L)

/-! ### sfs_rmdir, sfs_unlink -/

theorem hasName_eq (c : CStr) (hc : validComp c) :
    hasName c = fun e => decide (cstr e.filename = c) := by
  funext e
  simp only [hasName, cstr_comp hc]

/-- The part common to `sfs_rmdir` and `sfs_unlink` when the parent is found,
slot `k` is the first one carrying the name and the chain of the target ends. -/
theorem removeEntry_eq (L : Layout) (d : Disk) (pp name : CStr) (target : Entry)
    (blk : Option Nat) (k : Nat) (bs : List Nat)
    (hpar : parentBlock L d pp = some blk)
    (hfind : findSlot (hasName name) (dirArray L d blk) = some k)
    (hchain : IsFullChain L (readTable L d) target.first_block bs) :
    removeEntry L d pp name target = some (0, writeTable L
      (disk_write d (encodeEntries L ((dirArray L d blk).modify (clearedSlot L) k)) (dirOff L blk))
      (clearCells L bs (readTable L d))) := by
  have hfree : freeChain L (L.BLOCKTBL_NENTRIES + 2) (readTable L d) target.first_block
      = some (clearCells L bs (readTable L d)) := by
    apply freeChain_chain L bs _ _ _ hchain
    have := IsFullChain_length_le L _ bs _ hchain
    rw [length_readTable] at this
    omega
  rcases parentBlock_cases L d pp blk hpar with ⟨hp, rfl⟩ | ⟨hp, pe, off, hg, rfl⟩
  · simp only [dirArray] at hfind
    simp only [removeEntry, hp, if_true, hfind, releaseChain, hfree]
    rfl
  · simp only [dirArray] at hfind
    simp only [removeEntry, hp, if_false, hg, hfind, releaseChain, hfree]
    rfl

/-- The image after an entry is removed: its slot cleared, its chain released. -/
theorem removed_effects (L : Layout) (d : Disk) (blk : Option Nat) (k : Nat) (e0 : Entry)
    (bs : List Nat) (b : Nat)
    (hroot : L.ROOTDIR_OFF + L.ROOTDIR_SIZE ≤ L.BLOCKTBL_OFF)
    (htbl : L.BLOCKTBL_OFF + L.BLOCKTBL_SIZE ≤ L.DATA_OFF)
    (hEMPTY : L.BLOCKIDX_EMPTY < L.IDX_MOD)
    (hslot : (dirArray L d blk)[k]? = some e0)
    (hchain : IsFullChain L (readTable L d) b bs) :
    writeTable L
        (disk_write d (encodeEntries L ((dirArray L d blk).modify (clearedSlot L) k)) (dirOff L blk))
        (clearCells L bs (readTable L d))
      = writeTable L (disk_write d (encodeEntry L (clearedSlot L e0))
          (dirOff L blk + k * L.ENTRY_SIZE)) (clearCells L bs (readTable L d)) ∧
    (∀ blk', dirArray L (writeTable L (disk_write d (encodeEntry L (clearedSlot L e0))
          (dirOff L blk + k * L.ENTRY_SIZE)) (clearCells L bs (readTable L d))) blk'
        = dirArray L (disk_write d (encodeEntry L (clearedSlot L e0))
          (dirOff L blk + k * L.ENTRY_SIZE)) blk') ∧
    dirArray L (disk_write d (encodeEntry L (clearedSlot L e0))
          (dirOff L blk + k * L.ENTRY_SIZE)) blk
        = (dirArray L d blk).set k
            { filename := clearName e0.filename, size := 0, first_block := L.BLOCKIDX_EMPTY } ∧
    (∀ j, (readTable L (writeTable L (disk_write d (encodeEntry L (clearedSlot L e0))
          (dirOff L blk + k * L.ENTRY_SIZE)) (clearCells L bs (readTable L d))))[j]?
        = if j ∈ bs then some L.BLOCKIDX_EMPTY else (readTable L d)[j]?) := by
  have hwf0 : e0.WF L := dirArray_WF L d blk e0 (List.getElem?_mem hslot)
  have hwf : (clearedSlot L e0).WF L := clearedSlot_WF L e0 hwf0
  obtain ⟨hw1, hw2, hw3⟩ := write_slot_effects L d blk k (clearedSlot L) e0 hslot hwf
  have hlenc : (clearCells L bs (readTable L d)).length = L.BLOCKTBL_NENTRIES := by
    rw [length_clearCells, length_readTable]
  refine ⟨by rw [hw1], fun blk' => dirArray_writeTable L _ _ blk' hroot htbl hlenc, ?_, ?_⟩
  · rw [hw2]
    simp only [clearedSlot, Nat.mod_eq_of_lt hEMPTY]
  · intro j
    rw [readTable_writeTable L _ _ hlenc (clearCells_lt L bs _ (readTable_lt L d)),
      getElem?_clearCells L bs _ j (IsFullChain_lt L _ bs b hchain), Nat.mod_eq_of_lt hEMPTY]

/-- C9: for a path `/c1/.../cn` that resolves (to the place `p`) to a directory
whose array is all empty and whose chain `bs` ends in END, `sfs_rmdir` returns
0; afterwards the parent's array is the old one with the resolved slot
replaced by `{filename[0] = NUL, size = 0, first_block = EMPTY}`, every
block-table cell on the chain holds EMPTY and every other cell is unchanged. -/
theorem sfs_rmdir_clears_and_frees (L : Layout) (d : Disk) (uninit : Entry)
    (cs : List CStr) (c : CStr) (p : Place) (bs : List Nat)
    (hnd : L.ROOTDIR_NENTRIES ≠ L.DIR_NENTRIES)
    (hroot : L.ROOTDIR_OFF + L.ROOTDIR_SIZE ≤ L.BLOCKTBL_OFF)
    (htbl : L.BLOCKTBL_OFF + L.BLOCKTBL_SIZE ≤ L.DATA_OFF)
    (hEMPTY : L.BLOCKIDX_EMPTY < L.IDX_MOD)
    (hv : ∀ x ∈ cs ++ [c], validComp x)
    (hres : resolveFirst L d (cs ++ [c]) none = some p)
    (hempty : ∀ x ∈ readDir L d p.entry.first_block, x.filename.headD 0 = 0)
    (hchain : IsFullChain L (readTable L d) p.entry.first_block bs) :
    get_entry L d (joinPath (cs ++ [c])) = some (Lookup.found p.entry (p.off L % 2 ^ 32)) ∧
    ∃ d', sfs_rmdir L d uninit (joinPath (cs ++ [c])) = some (0, d') ∧
      dirArray L d' p.block = (dirArray L d p.block).set p.slot
        { filename := clearName p.entry.filename, size := 0,
          first_block := L.BLOCKIDX_EMPTY } ∧
      (clearName p.entry.filename).headD 0 = 0 ∧
      ∀ j, (readTable L d')[j]? =
        if j ∈ bs then some L.BLOCKIDX_EMPTY else (readTable L d)[j]? := by
  have hget : get_entry L d (joinPath (cs ++ [c]))
      = some (Lookup.found p.entry (p.off L % 2 ^ 32)) := by
    rw [get_entry_joinPath L d hnd _ (by simp) hv, hres]
    rfl
  have hc : validComp c := hv c (by simp)
  have hcs : ∀ x ∈ cs, validComp x := fun x hx => hv x (by simp [hx])
  obtain ⟨h1, h2⟩ := resolveFirst_last L d cs c p hres
  obtain ⟨hidx, hslot, -⟩ := (resolveFirst_single L d c p.block p).1 h1
  have hpar : parentBlock L d (fixParent (if cs = [] then [] else joinPath cs))
      = some p.block := by
    rw [fixParent_joinPath cs hcs, parentBlock_joinPath L d cs hnd hcs]
    rcases h2 with ⟨h3, h4⟩ | ⟨h3, q, hq, h4⟩
    · simp [h3, h4]
    · simp [h3, hq, h4]
  have hfind : findSlot (hasName c) (dirArray L d p.block) = some p.slot := by
    rw [findSlot_eq_findIdx?, hasName_eq c hc, hidx]
  have hany : (readDir L d p.entry.first_block).any (fun x => x.filename.headD 0 ≠ 0) = false := by
    rw [List.any_eq_false]
    intro x hx
    simpa using hempty x hx
  obtain ⟨e1, e2, e3, e4⟩ := removed_effects L d p.block p.slot p.entry bs _ hroot htbl hEMPTY
    hslot hchain
  refine ⟨hget, _, ?_, ?_, ?_, e4⟩
  · simp only [sfs_rmdir, splitLast_joinPath cs c hv, hget, entryAfter, hany,
      Bool.false_eq_true, if_false]
    rw [removeEntry_eq L d _ c p.entry p.block p.slot bs hpar hfind hchain, e1]
  · rw [e2, e3]
  · cases p.entry.filename <;> rfl

theorem sfs_rmdir_clears_and_frees_witness :
    ∃ d', sfs_rmdir demoLayout demoImage { filename := [], size := 0, first_block := 0 }
        (joinPath ([nameA] ++ [nameB])) = some (0, d') ∧
      dirArray demoLayout d' (some 0) =
        [{ filename := [0, 0, 0, 0], size := 0, first_block := 65535 },
         { filename := [0, 0, 0, 0], size := 0, first_block := 65535 }] ∧
      readTable demoLayout d' = [1, 65534, 65535, 65535, 5, 65534, 65535, 65535] := by
  obtain ⟨-, d', h1, h2, -, h4⟩ := sfs_rmdir_clears_and_frees demoLayout demoImage
    { filename := [], size := 0, first_block := 0 } [nameA] nameB
    { block := some 0, slot := 0,
      entry := { filename := [98, 0, 0, 0], size := 2 ^ 31, first_block := 2 } } [2, 3]
    (by decide) (by decide) (by decide) (by decide) (by decide) (by decide) (by decide)
    (by decide)
  refine ⟨d', h1, ?_, ?_⟩
  · rw [h2]
    decide
  · apply List.ext_getElem?
    intro j
    rw [h4 j]
    by_cases hj : j < 8
    · interval_cases j <;> decide
    · have h8 : 8 ≤ j := by omega
      have hn : j ∉ [2, 3] := by
        simp only [List.mem_cons, List.mem_singleton, List.not_mem_nil, or_false]
        omega
      rw [if_neg hn, List.getElem?_eq_none (by simpa [length_readTable] using h8),
        List.getElem?_eq_none (by simpa using h8)]

example : DirsAlong demoLayout demoImage [nameA, nameB] := by decide
example : ¬ DirsAlong demoLayout demoImage [nameF] := by decide

/-! ### Resolution after a slot has changed -/

/-- Arrays after one slot has been written (arrays of different blocks do not
overlap when an array fits a block). -/
theorem dirArray_slot_write (L : Layout) (d : Disk) (blk0 : Option Nat) (k : Nat) (e : Entry)
    (hroot : L.ROOTDIR_OFF + L.ROOTDIR_SIZE ≤ L.BLOCKTBL_OFF)
    (htbl : L.BLOCKTBL_OFF + L.BLOCKTBL_SIZE ≤ L.DATA_OFF)
    (hDS : L.DIR_SIZE ≤ L.BLOCK_SIZE)
    (hk : k < dirLen L blk0) (he : e.WF L) (blk : Option Nat) :
    dirArray L (disk_write d (encodeEntry L e) (dirOff L blk0 + k * L.ENTRY_SIZE)) blk
      = if blk = blk0 then (dirArray L d blk0).set k e else dirArray L d blk := by
  by_cases hb : blk = blk0
  · subst hb
    rw [if_pos rfl, dirArray_eq, dirArray_eq, readEntries_write_slot L d _ _ k e he]
  · rw [if_neg hb, dirArray_eq, dirArray_eq]
    apply readEntries_congr
    intro a h1 h2
    apply disk_write_out
    rw [length_encodeEntry L e he]
    have h3 : (k + 1) * L.ENTRY_SIZE ≤ dirLen L blk0 * L.ENTRY_SIZE := Nat.mul_le_mul_right _ hk
    have h4 : (k + 1) * L.ENTRY_SIZE = k * L.ENTRY_SIZE + L.ENTRY_SIZE := by
      rw [Nat.add_mul]; omega
    cases blk with
    | none =>
      cases blk0 with
      | none => exact absurd rfl hb
      | some b0 =>
        left
        simp only [dirOff, dirLen, Layout.blockOff, Layout.ROOTDIR_SIZE] at *
        omega
    | some b =>
      cases blk0 with
      | none =>
        right
        simp only [dirOff, dirLen, Layout.blockOff, Layout.ROOTDIR_SIZE] at *
        omega
      | some b0 =>
        have hne : b ≠ b0 := fun h => hb (by rw [h])
        simp only [dirOff, dirLen, Layout.blockOff, Layout.DIR_SIZE] at *
        rcases Nat.lt_or_gt_of_ne hne with h | h
        · left
          have : (b + 1) * L.BLOCK_SIZE ≤ b0 * L.BLOCK_SIZE := Nat.mul_le_mul_right _ h
          have : (b + 1) * L.BLOCK_SIZE = b * L.BLOCK_SIZE + L.BLOCK_SIZE := by
            rw [Nat.add_mul]; omega
          omega
        · right
          have : (b0 + 1) * L.BLOCK_SIZE ≤ b * L.BLOCK_SIZE := Nat.mul_le_mul_right _ h
          have : (b0 + 1) * L.BLOCK_SIZE = b0 * L.BLOCK_SIZE + L.BLOCK_SIZE := by
            rw [Nat.add_mul]; omega
          omega

/-- A lookup is not affected by a change to a slot that carries the name neither before nor after. -/
theorem findIdx?_set_other (p : Entry → Bool) :
    ∀ (arr : List Entry) (k : Nat) (e0 enew : Entry), arr[k]? = some e0 →
      p e0 = false → p enew = false →
      (arr.set k enew).findIdx? p = arr.findIdx? p ∧
      ∀ i, arr.findIdx? p = some i → (arr.set k enew)[i]? = arr[i]? := by
  intro arr
  induction arr with
  | nil => intro k e0 enew h; simp at h
  | cons a as ih =>
    intro k e0 enew hk h0 hn
    cases k with
    | zero =>
      simp only [List.getElem?_cons_zero, Option.some.injEq] at hk
      subst hk
      rw [List.set_cons_zero, findIdx?_cons_neg p _ _ hn, findIdx?_cons_neg p _ _ h0]
      refine ⟨rfl, ?_⟩
      intro i hi
      cases hf : List.findIdx? p as with
      | none => simp [hf] at hi
      | some j =>
        simp only [hf, Option.map_some', Option.some.injEq] at hi
        subst hi
        simp
    | succ k =>
      simp only [List.getElem?_cons_succ] at hk
      obtain ⟨ih1, ih2⟩ := ih k e0 enew hk h0 hn
      rw [List.set_cons_succ]
      by_cases ha : p a = true
      · simp only [List.findIdx?_cons, ha, if_true, Option.some.injEq]
        refine ⟨trivial, ?_⟩
        intro i hi
        subst hi
        simp
      · have ha' : p a = false := by simpa using ha
        rw [findIdx?_cons_neg p _ _ ha', findIdx?_cons_neg p _ _ ha', ih1]
        refine ⟨rfl, ?_⟩
        intro i hi
        cases hf : List.findIdx? p as with
        | none => simp [hf] at hi
        | some j =>
          simp only [hf, Option.map_some', Option.some.injEq] at hi
          subst hi
          simp only [List.getElem?_cons_succ]
          exact ih2 j hf

theorem resolveFirst_single_congr (L : Layout) (d d' : Disk) (x : CStr) (blk : Option Nat)
    (h1 : (dirArray L d' blk).findIdx? (fun e => decide (cstr e.filename = x))
      = (dirArray L d blk).findIdx? (fun e => decide (cstr e.filename = x)))
    (h2 : ∀ i, (dirArray L d blk).findIdx? (fun e => decide (cstr e.filename = x)) = some i →
      (dirArray L d' blk)[i]? = (dirArray L d blk)[i]?) :
    resolveFirst L d' [x] blk = resolveFirst L d [x] blk := by
  rw [resolveFirst_cons, resolveFirst_cons, h1]
  cases hf : (dirArray L d blk).findIdx? (fun e => decide (cstr e.filename = x)) with
  | none => rfl
  | some i => simp only [h2 i hf]

theorem resolveFirst_snoc_lookup (L : Layout) (d : Disk) (pre : List CStr) (x : CStr) :
    resolveFirst L d (pre ++ [x]) none
      = (lookupArr L d pre).bind (fun blk => resolveFirst L d [x] blk) := by
  by_cases h : pre = []
  · subst h
    simp [lookupArr]
  · rw [resolveFirst_snoc L d x pre none h]
    simp only [lookupArr, h, if_false]
    cases resolveFirst L d pre none with
    | none => rfl
    | some q => rfl

/-- Resolution is the same in two images whenever each lookup along the path is. -/
theorem resolveFirst_stable (L : Layout) (d d' : Disk) (cs : List CStr)
    (h : ∀ pre x, pre ++ [x] <+: cs → ∀ blk, lookupArr L d pre = some blk →
      resolveFirst L d' [x] blk = resolveFirst L d [x] blk) :
    ∀ pre, pre <+: cs → resolveFirst L d' pre none = resolveFirst L d pre none := by
  intro pre
  induction pre using List.reverseRecOn with
  | nil => intro _; rfl
  | append_singleton pre x ih =>
    intro hp
    have hp' : pre <+: cs := List.IsPrefix.trans (List.prefix_append pre [x]) hp
    have e := ih hp'
    have el : lookupArr L d' pre = lookupArr L d pre := by
      simp only [lookupArr, e]
    rw [resolveFirst_snoc_lookup, resolveFirst_snoc_lookup, el]
    cases hl : lookupArr L d pre with
    | none => rfl
    | some blk =>
      simp only [Option.some_bind]
      exact h pre x hp blk hl

theorem mem_set_cases {α : Type} (arr : List α) (k : Nat) (v x : α) (h : x ∈ arr.set k v) :
    x = v ∨ x ∈ arr.eraseIdx k := by
  induction arr generalizing k with
  | nil => simp at h
  | cons a as ih =>
    cases k with
    | zero =>
      simp only [List.set_cons_zero, List.mem_cons] at h
      simpa using h
    | succ k =>
      simp only [List.set_cons_succ, List.mem_cons] at h
      rcases h with rfl | h
      · right; simp
      · rcases ih k h with h | h
        · exact Or.inl h
        · right; simp [h]

theorem findIdx?_none_of_all {α : Type} (p : α → Bool) (xs : List α)
    (h : ∀ y ∈ xs, p y = false) : xs.findIdx? p = none := by
  induction xs with
  | nil => rfl
  | cons x xs ih =>
    rw [findIdx?_cons_neg p x xs (h x (by simp)), ih (fun y hy => h y (by simp [hy]))]
    rfl

theorem findIdx?_set_hit {α : Type} (p : α → Bool) :
    ∀ (arr : List α) (k : Nat) (enew : α), k < arr.length → (∀ e ∈ arr, p e = false) →
      p enew = true → (arr.set k enew).findIdx? p = some k := by
  intro arr
  induction arr with
  | nil => intro k enew h; simp at h
  | cons a as ih =>
    intro k enew hk hall hn
    cases k with
    | zero => simp [List.findIdx?_cons, hn]
    | succ k =>
      rw [List.set_cons_succ, findIdx?_cons_neg p _ _ (hall a (by simp)),
        ih k enew (by simpa using hk) (fun e he => hall e (by simp [he])) hn]
      rfl

theorem eraseIdx_set_self {α : Type} (arr : List α) (k : Nat) (v : α) :
    (arr.set k v).eraseIdx k = arr.eraseIdx k := by
  induction arr generalizing k with
  | nil => rfl
  | cons a as ih =>
    cases k with
    | zero => rfl
    | succ k => simp [ih]

theorem mem_of_mem_eraseIdx {α : Type} (arr : List α) (k : Nat) (x : α)
    (h : x ∈ arr.eraseIdx k) : x ∈ arr := by
  induction arr generalizing k with
  | nil => simp at h
  | cons a as ih =>
    cases k with
    | zero => simp at h; simp [h]
    | succ k =>
      simp only [List.eraseIdx_cons_succ, List.mem_cons] at h
      rcases h with rfl | h
      · simp
      · simp [ih k h]

/-- A path does not resolve when one of its prefixes does not. -/
theorem resolveFirst_none_of_prefix (L : Layout) (d : Disk) (pre : List CStr) (hne : pre ≠ [])
    (hp : resolveFirst L d pre none = none) :
    ∀ suf, resolveFirst L d (pre ++ suf) none = none := by
  intro suf
  induction suf using List.reverseRecOn with
  | nil => simpa using hp
  | append_singleton suf x ih =>
    rw [← List.append_assoc, resolveFirst_snoc L d x (pre ++ suf) none (by simp [hne]), ih]
    rfl

theorem lookupArr_joinPath (L : Layout) (d : Disk) (cs : List CStr)
    (hnd : L.ROOTDIR_NENTRIES ≠ L.DIR_NENTRIES) (hv : ∀ x ∈ cs, validComp x) :
    parentBlock L d (fixParent (if cs = [] then [] else joinPath cs)) = lookupArr L d cs := by
  rw [fixParent_joinPath cs hv, parentBlock_joinPath L d cs hnd hv]
  rfl

theorem lookupArr_of_resolved (L : Layout) (d : Disk) (cs : List CStr) (c : CStr) (p : Place)
    (h : resolveFirst L d (cs ++ [c]) none = some p) : lookupArr L d cs = some p.block := by
  obtain ⟨-, h2⟩ := resolveFirst_last L d cs c p h
  rcases h2 with ⟨h3, h4⟩ | ⟨h3, q, hq, h4⟩
  · simp [lookupArr, h3, h4]
  · simp [lookupArr, h3, hq, h4]

/-- The shape of a successful `sfs_create`. -/
theorem sfs_create_ok_inv (L : Layout) (d : Disk) (path : List Byte) (d' : Disk)
    (h : sfs_create L d path = some (0, d')) :
    ∃ parent file blk k, splitLast path = some (parent, file) ∧
      strlen file < L.FILENAME_MAX ∧
      parentBlock L d (fixParent parent) = some blk ∧
      findSlot isEmptySlot (dirArray L d blk) = some k ∧
      d' = disk_write d (encodeEntries L ((dirArray L d blk).modify (createSlot L file) k))
        (dirOff L blk) := by
  simp only [sfs_create] at h
  cases hs : splitLast path with
  | none => simp [hs] at h
  | some pr =>
    obtain ⟨parent, file⟩ := pr
    simp only [hs] at h
    by_cases hn : strlen file ≥ L.FILENAME_MAX
    · simp [hn, ENAMETOOLONG] at h
    · simp only [hn, if_false] at h
      by_cases hp : cstr (fixParent parent) = [SLASH]
      · simp only [hp, if_true] at h
        cases hf : findSlot isEmptySlot (readRoot L d) with
        | none => simp [hf, ENOSPC] at h
        | some k =>
          simp only [hf, Option.some.injEq, Prod.mk.injEq, true_and] at h
          exact ⟨parent, file, none, k, rfl, by omega, by simp [parentBlock, hp], hf,
            by rw [← h]; rfl⟩
      · simp only [hp, if_false] at h
        cases hg : get_entry L d (fixParent parent) with
        | none => simp [hg] at h
        | some r =>
          cases r with
          | err c => simp [hg, ENOENT] at h
          | found pe off =>
            simp only [hg] at h
            cases hf : findSlot isEmptySlot (readDir L d pe.first_block) with
            | none => simp [hf, ENOSPC] at h
            | some k =>
              simp only [hf, Option.some.injEq, Prod.mk.injEq, true_and] at h
              exact ⟨parent, file, some pe.first_block, k, rfl, by omega,
                by simp [parentBlock, hp, hg], hf, by rw [← h]; rfl⟩

theorem sfs_getattr_err (L : Layout) (d : Disk) (path : List Byte) (code : Int)
    (hp : cstr path ≠ [SLASH]) (h : get_entry L d path = some (Lookup.err code)) :
    sfs_getattr L d path = some (-ENOENT, { st_mode := 0, st_nlink := 0, st_size := 0 }) := by
  simp [sfs_getattr, hp, h]

/-- What `sfs_unlink` does to a resolved path whose slot is not used on the
way to its parent and whose name no other slot of the parent carries. -/
theorem unlink_core (L : Layout) (d : Disk) (uninit : Entry)
    (cs : List CStr) (c : CStr) (p : Place) (bs : List Nat)
    (hnd : L.ROOTDIR_NENTRIES ≠ L.DIR_NENTRIES)
    (hroot : L.ROOTDIR_OFF + L.ROOTDIR_SIZE ≤ L.BLOCKTBL_OFF)
    (htbl : L.BLOCKTBL_OFF + L.BLOCKTBL_SIZE ≤ L.DATA_OFF)
    (hDS : L.DIR_SIZE ≤ L.BLOCK_SIZE)
    (hEMPTY : L.BLOCKIDX_EMPTY < L.IDX_MOD)
    (hv : ∀ x ∈ cs ++ [c], validComp x)
    (hres : resolveFirst L d (cs ++ [c]) none = some p)
    (hsafe : ∀ pre x, pre ++ [x] <+: cs → lookupArr L d pre = some p.block → x ≠ c)
    (huniq : ∀ e ∈ (dirArray L d p.block).eraseIdx p.slot, cstr e.filename ≠ c)
    (hchain : IsFullChain L (readTable L d) p.entry.first_block bs) :
    ∃ d', sfs_unlink L d uninit (joinPath (cs ++ [c])) = some (0, d') ∧
      get_entry L d' (joinPath (cs ++ [c])) = some (Lookup.err (-1)) ∧
      sfs_getattr L d' (joinPath (cs ++ [c]))
        = some (-ENOENT, { st_mode := 0, st_nlink := 0, st_size := 0 }) ∧
      (∀ j, (readTable L d')[j]? =
        if j ∈ bs then some L.BLOCKIDX_EMPTY else (readTable L d)[j]?) ∧
      (∀ blk, dirArray L d' blk =
        if blk = p.block then
          (dirArray L d p.block).set p.slot
            { filename := clearName p.entry.filename, size := 0,
              first_block := L.BLOCKIDX_EMPTY }
        else dirArray L d blk) := by
  have hget : get_entry L d (joinPath (cs ++ [c]))
      = some (Lookup.found p.entry (p.off L % 2 ^ 32)) := by
    rw [get_entry_joinPath L d hnd _ (by simp) hv, hres]
    rfl
  have hc : validComp c := hv c (by simp)
  have hcs : ∀ x ∈ cs, validComp x := fun x hx => hv x (by simp [hx])
  obtain ⟨h1, -⟩ := resolveFirst_last L d cs c p hres
  obtain ⟨hidx, hslot, -⟩ := (resolveFirst_single L d c p.block p).1 h1
  obtain ⟨ex, hex, hname⟩ := findIdx?_some_getElem? _ _ _ hidx
  rw [hslot] at hex
  cases hex
  have hname : cstr p.entry.filename = c := by simpa using hname
  have hlook := lookupArr_of_resolved L d cs c p hres
  have hpar : parentBlock L d (fixParent (if cs = [] then [] else joinPath cs))
      = some p.block := by
    rw [lookupArr_joinPath L d cs hnd hcs, hlook]
  have hfind : findSlot (hasName c) (dirArray L d p.block) = some p.slot := by
    rw [findSlot_eq_findIdx?, hasName_eq c hc, hidx]
  obtain ⟨e1, e2, e3, e4⟩ := removed_effects L d p.block p.slot p.entry bs _ hroot htbl hEMPTY
    hslot hchain
  have hk := (getElem?_dirArray L d p.block p.slot p.entry hslot).1
  have hwf0 : p.entry.WF L := dirArray_WF L d _ _ (List.getElem?_mem hslot)
  have hwfc : (clearedSlot L p.entry).WF L := clearedSlot_WF L _ hwf0
  have hcl : clearedSlot L p.entry
      = Entry.mk (clearName p.entry.filename) 0 L.BLOCKIDX_EMPTY := by
    simp only [clearedSlot, Nat.mod_eq_of_lt hEMPTY]
  set d' := writeTable L (disk_write d (encodeEntry L (clearedSlot L p.entry))
    (dirOff L p.block + p.slot * L.ENTRY_SIZE)) (clearCells L bs (readTable L d)) with hd'
  have harr : ∀ blk, dirArray L d' blk =
      if blk = p.block then (dirArray L d p.block).set p.slot (clearedSlot L p.entry)
      else dirArray L d blk := by
    intro blk
    rw [e2 blk, dirArray_slot_write L d p.block p.slot _ hroot htbl hDS hk hwfc blk]
  have hstab : ∀ pre, pre <+: cs → resolveFirst L d' pre none = resolveFirst L d pre none := by
    apply resolveFirst_stable
    intro pre x hpx blk hl
    have hx : validComp x := hcs x (hpx.subset (by simp))
    by_cases hb : blk = p.block
    · subst hb
      have hxc := hsafe pre x hpx hl
      obtain ⟨f1, f2⟩ := findIdx?_set_other (fun e => decide (cstr e.filename = x))
        (dirArray L d p.block) p.slot p.entry (clearedSlot L p.entry) hslot
        (by simpa [hname] using fun h => hxc h.symm)
        (by simp only [clearedSlot, cstr_clearName]; simpa using hx.1)
      apply resolveFirst_single_congr
      · rw [harr, if_pos rfl, f1]
      · intro i hi
        rw [harr, if_pos rfl]
        exact f2 i hi
    · apply resolveFirst_single_congr
      · rw [harr, if_neg hb]
      · intro i _
        rw [harr, if_neg hb]
  have hgone : resolveFirst L d' (cs ++ [c]) none = none := by
    rw [resolveFirst_snoc_lookup]
    have : lookupArr L d' cs = lookupArr L d cs := by
      simp only [lookupArr, hstab cs (List.prefix_refl cs)]
    rw [this, hlook]
    simp only [Option.some_bind]
    rw [resolveFirst_cons, harr, if_pos rfl, findIdx?_none_of_all]
    intro y hy
    rcases mem_set_cases _ _ _ _ hy with rfl | hy
    · simp only [clearedSlot, cstr_clearName]
      simpa using hc.1
    · simpa using huniq y hy
  have hget' : get_entry L d' (joinPath (cs ++ [c])) = some (Lookup.err (-1)) := by
    rw [get_entry_joinPath L d' hnd _ (by simp) hv, hgone]
    rfl
  refine ⟨d', ?_, hget', sfs_getattr_err L d' _ _ (joinPath_ne_slash _ (by simp) hv) hget',
    e4, ?_⟩
  · simp only [sfs_unlink, splitLast_joinPath cs c hv, hget, entryAfter]
    rw [removeEntry_eq L d _ c p.entry p.block p.slot bs hpar hfind hchain, e1]
  · intro blk
    rw [harr blk, hcl]

theorem findIdx?_none_of_resolve_none (L : Layout) (d : Disk) (c : CStr) (blk : Option Nat)
    (h : resolveFirst L d [c] blk = none) :
    (dirArray L d blk).findIdx? (fun e => decide (cstr e.filename = c)) = none := by
  rw [resolveFirst_cons] at h
  cases hf : (dirArray L d blk).findIdx? (fun e => decide (cstr e.filename = c)) with
  | none => rfl
  | some i =>
    obtain ⟨e, hg, -⟩ := findIdx?_some_getElem? _ _ _ hf
    simp [hf, hg] at h

/-- Resolution after an empty slot of the parent's array has received the name
`c`, in an image where `/cs/c` did not resolve. -/
theorem resolve_after_fill (L : Layout) (d d1 : Disk) (cs : List CStr) (c : CStr)
    (blk0 : Option Nat) (k0 : Nat) (e0 enew : Entry)
    (hv : ∀ x ∈ cs ++ [c], validComp x)
    (hlook : lookupArr L d cs = some blk0)
    (hnot : resolveFirst L d (cs ++ [c]) none = none)
    (hslot : (dirArray L d blk0)[k0]? = some e0) (he0 : cstr e0.filename = [])
    (hnew : cstr enew.filename = c)
    (harr : ∀ blk, (∃ pre, pre <+: cs ∧ lookupArr L d pre = some blk) →
      dirArray L d1 blk =
        if blk = blk0 then (dirArray L d blk0).set k0 enew else dirArray L d blk) :
    (∀ pre, pre <+: cs → resolveFirst L d1 pre none = resolveFirst L d pre none) ∧
    (∀ pre x, pre ++ [x] <+: cs → lookupArr L d1 pre = some blk0 → x ≠ c) ∧
    resolveFirst L d1 (cs ++ [c]) none = some { block := blk0, slot := k0, entry := enew } ∧
    (∀ e ∈ (dirArray L d1 blk0).eraseIdx k0, cstr e.filename ≠ c) := by
  have hcs : ∀ x ∈ cs, validComp x := fun x hx => hv x (by simp [hx])
  have hnone : (dirArray L d blk0).findIdx? (fun e => decide (cstr e.filename = c)) = none := by
    apply findIdx?_none_of_resolve_none
    rw [resolveFirst_snoc_lookup, hlook] at hnot
    exact hnot
  have hall := findIdx?_none_all _ _ hnone
  have hsafe : ∀ pre x, pre ++ [x] <+: cs → lookupArr L d pre = some blk0 → x ≠ c := by
    intro pre x hpx hl hxc
    subst hxc
    have h1 : resolveFirst L d (pre ++ [x]) none = none := by
      rw [resolveFirst_snoc_lookup, hl]
      simp only [Option.some_bind]
      rw [resolveFirst_cons, hnone]
    obtain ⟨suf, hsuf⟩ := hpx
    have h2 := resolveFirst_none_of_prefix L d (pre ++ [x]) (by simp) h1 suf
    rw [hsuf] at h2
    have hne : cs ≠ [] := by
      intro h
      rw [h] at hsuf
      simp at hsuf
    simp [lookupArr, hne, h2] at hlook
  have hstab : ∀ pre, pre <+: cs → resolveFirst L d1 pre none = resolveFirst L d pre none := by
    apply resolveFirst_stable
    intro pre x hpx blk hl
    have hx : validComp x := hcs x (hpx.subset (by simp))
    have hpre : pre <+: cs := List.IsPrefix.trans (List.prefix_append pre [x]) hpx
    have ha := harr blk ⟨pre, hpre, hl⟩
    by_cases hb : blk = blk0
    · subst hb
      have hxc := hsafe pre x hpx hl
      obtain ⟨f1, f2⟩ := findIdx?_set_other (fun e => decide (cstr e.filename = x))
        (dirArray L d blk) k0 e0 enew hslot
        (by simpa [he0] using hx.1)
        (by simpa [hnew] using fun h => hxc h.symm)
      apply resolveFirst_single_congr
      · rw [ha, if_pos rfl, f1]
      · intro i hi
        rw [ha, if_pos rfl]
        exact f2 i hi
    · apply resolveFirst_single_congr
      · rw [ha, if_neg hb]
      · intro i _
        rw [ha, if_neg hb]
  have hl1 : ∀ pre, pre <+: cs → lookupArr L d1 pre = lookupArr L d pre := by
    intro pre hp
    simp only [lookupArr, hstab pre hp]
  have ha0 := harr blk0 ⟨cs, List.prefix_refl cs, hlook⟩
  rw [if_pos rfl] at ha0
  have hk0 : k0 < (dirArray L d blk0).length := (List.getElem?_eq_some_iff.1 hslot).1
  refine ⟨hstab, ?_, ?_, ?_⟩
  · intro pre x hpx hl
    rw [hl1 pre (List.IsPrefix.trans (List.prefix_append pre [x]) hpx)] at hl
    exact hsafe pre x hpx hl
  · rw [resolveFirst_snoc_lookup, hl1 cs (List.prefix_refl cs), hlook]
    simp only [Option.some_bind]
    rw [resolveFirst_cons, ha0, findIdx?_set_hit _ _ k0 enew hk0 hall (by simpa using hnew)]
    simp [List.getElem?_set_self hk0]
  · intro e he
    rw [ha0, eraseIdx_set_self] at he
    simpa using hall e (mem_of_mem_eraseIdx _ _ _ he)

theorem prefix_snoc_eq_take (pre : List CStr) (x : CStr) (cs : List CStr)
    (h : pre ++ [x] <+: cs) : pre.length < cs.length ∧ cs.take (pre.length + 1) = pre ++ [x] := by
  have hl := h.length_le
  simp only [List.length_append, List.length_singleton] at hl
  have := List.prefix_iff_eq_take.1 h
  simp only [List.length_append, List.length_singleton] at this
  exact ⟨by omega, this.symm⟩

/-- C10: (1) for a path `/c1/.../cn` that resolves, through directories, to a
regular file (at place `p`) whose name no other slot of its directory carries
and whose chain `bs` ends in END, `sfs_unlink` returns 0; afterwards the path
no longer resolves and `sfs_getattr` returns `-ENOENT`, every table cell on the
chain holds EMPTY, every other table cell is unchanged, and every directory
array is unchanged except for the cleared slot.  (2) When `sfs_create`
succeeds on a path that did not resolve, `sfs_getattr` reports a regular file
of size 0, the following `sfs_unlink` returns 0 and `sfs_getattr` then returns
`-ENOENT`. -/
theorem sfs_unlink_removes_file (L : Layout)
    (hnd : L.ROOTDIR_NENTRIES ≠ L.DIR_NENTRIES)
    (hroot : L.ROOTDIR_OFF + L.ROOTDIR_SIZE ≤ L.BLOCKTBL_OFF)
    (htbl : L.BLOCKTBL_OFF + L.BLOCKTBL_SIZE ≤ L.DATA_OFF)
    (hDS : L.DIR_SIZE ≤ L.BLOCK_SIZE)
    (hEMPTY : L.BLOCKIDX_EMPTY < L.IDX_MOD)
    (hEND : L.BLOCKIDX_END < L.IDX_MOD) :
    (∀ (d : Disk) (uninit : Entry) (cs : List CStr) (c : CStr) (p : Place) (bs : List Nat),
      (∀ x ∈ cs ++ [c], validComp x) →
      resolveFirst L d (cs ++ [c]) none = some p →
      p.entry.size &&& L.DIRECTORY = 0 →
      DirsAlong L d cs →
      (∀ e ∈ (dirArray L d p.block).eraseIdx p.slot, cstr e.filename ≠ c) →
      IsFullChain L (readTable L d) p.entry.first_block bs →
      get_entry L d (joinPath (cs ++ [c])) = some (Lookup.found p.entry (p.off L % 2 ^ 32)) ∧
      ∃ d', sfs_unlink L d uninit (joinPath (cs ++ [c])) = some (0, d') ∧
        get_entry L d' (joinPath (cs ++ [c])) = some (Lookup.err (-1)) ∧
        sfs_getattr L d' (joinPath (cs ++ [c]))
          = some (-ENOENT, { st_mode := 0, st_nlink := 0, st_size := 0 }) ∧
        (∀ j, (readTable L d')[j]? =
          if j ∈ bs then some L.BLOCKIDX_EMPTY else (readTable L d)[j]?) ∧
        (∀ blk, dirArray L d' blk =
          if blk = p.block then
            (dirArray L d p.block).set p.slot
              { filename := clearName p.entry.filename, size := 0,
                first_block := L.BLOCKIDX_EMPTY }
          else dirArray L d blk)) ∧
    (∀ (d : Disk) (uninit : Entry) (cs : List CStr) (c : CStr) (d1 : Disk),
      (∀ x ∈ cs ++ [c], validComp x) →
      get_entry L d (joinPath (cs ++ [c])) = some (Lookup.err (-1)) →
      sfs_create L d (joinPath (cs ++ [c])) = some (0, d1) →
      sfs_getattr L d1 (joinPath (cs ++ [c]))
        = some (0, { st_mode := S_IFREG ||| 0o644, st_nlink := 1, st_size := 0 }) ∧
      ∃ d2, sfs_unlink L d1 uninit (joinPath (cs ++ [c])) = some (0, d2) ∧
        sfs_getattr L d2 (joinPath (cs ++ [c]))
          = some (-ENOENT, { st_mode := 0, st_nlink := 0, st_size := 0 })) := by
  constructor
  · intro d uninit cs c p bs hv hres hreg hdirs huniq hchain
    have hget : get_entry L d (joinPath (cs ++ [c]))
        = some (Lookup.found p.entry (p.off L % 2 ^ 32)) := by
      rw [get_entry_joinPath L d hnd _ (by simp) hv, hres]
      rfl
    refine ⟨hget, ?_⟩
    apply unlink_core L d uninit cs c p bs hnd hroot htbl hDS hEMPTY hv hres ?_ huniq hchain
    intro pre x hpx hl hxc
    subst hxc
    obtain ⟨hlen, htake⟩ := prefix_snoc_eq_take pre x cs hpx
    have hd := hdirs pre.length hlen
    rw [htake] at hd
    have h1 := (resolveFirst_last L d cs x p hres).1
    have h2 : resolveFirst L d (pre ++ [x]) none = some p := by
      rw [resolveFirst_snoc_lookup, hl]
      exact h1
    simp only [IsDirAt, h2] at hd
    exact hd hreg
  · intro d uninit cs c d1 hv hnot hcreate
    have hc : validComp c := hv c (by simp)
    have hcs : ∀ x ∈ cs, validComp x := fun x hx => hv x (by simp [hx])
    have hnot' : resolveFirst L d (cs ++ [c]) none = none := by
      rw [get_entry_joinPath L d hnd _ (by simp) hv] at hnot
      cases hr : resolveFirst L d (cs ++ [c]) none with
      | none => rfl
      | some p => simp [hr, toLookup] at hnot
    obtain ⟨parent, file, blk0, k0, hs, hn, hpar, hf, hd1⟩ := sfs_create_ok_inv L d _ d1 hcreate
    rw [splitLast_joinPath cs c hv] at hs
    simp only [Option.some.injEq, Prod.mk.injEq] at hs
    obtain ⟨rfl, rfl⟩ := hs
    rw [lookupArr_joinPath L d cs hnd hcs] at hpar
    obtain ⟨⟨e0, hslot, he0⟩, -⟩ := findSlot_some_spec _ _ _ hf
    have he0 : cstr e0.filename = [] := (isEmptySlot_iff e0).1 he0
    have hwf0 : e0.WF L := dirArray_WF L d blk0 e0 (List.getElem?_mem hslot)
    have hwf : (createSlot L c e0).WF L := createSlot_WF L c e0 hwf0 hn
    obtain ⟨hw1, -, -⟩ := write_slot_effects L d blk0 k0 (createSlot L c) e0 hslot hwf
    rw [hw1] at hd1
    have hk := (getElem?_dirArray L d blk0 k0 e0 hslot).1
    have harr : ∀ blk, dirArray L d1 blk =
        if blk = blk0 then (dirArray L d blk0).set k0 (createSlot L c e0)
        else dirArray L d blk := by
      intro blk
      rw [hd1, dirArray_slot_write L d blk0 k0 _ hroot htbl hDS hk hwf blk]
    have hnew : cstr (createSlot L c e0).filename = c := by
      simp only [createSlot, cstr_strcpy, cstr_comp hc]
    obtain ⟨-, hsafe1, hres1, huniq1⟩ := resolve_after_fill L d d1 cs c blk0 k0 e0
      (createSlot L c e0) hv hpar hnot' hslot he0 hnew (fun blk _ => harr blk)
    have hget1 : get_entry L d1 (joinPath (cs ++ [c])) = some (Lookup.found (createSlot L c e0)
        (Place.off L { block := blk0, slot := k0, entry := createSlot L c e0 } % 2 ^ 32)) := by
      rw [get_entry_joinPath L d1 hnd _ (by simp) hv, hres1]
      rfl
    constructor
    · have hp := joinPath_ne_slash (cs ++ [c]) (by simp) hv
      simp [sfs_getattr, hp, hget1, createSlot]
    · have hchain : IsFullChain L (readTable L d1)
          (Place.mk blk0 k0 (createSlot L c e0)).entry.first_block [] := by
        simp only [IsFullChain, createSlot, Nat.mod_eq_of_lt hEND]
      obtain ⟨d2, h1, -, h3, -⟩ := unlink_core L d1 uninit cs c
        { block := blk0, slot := k0, entry := createSlot L c e0 } [] hnd hroot htbl hDS hEMPTY
        hv hres1 hsafe1 huniq1 hchain
      exact ⟨d2, h1, h3⟩

theorem sfs_unlink_removes_file_witness :
    (∃ d', sfs_unlink demoLayout demoImage { filename := [], size := 0, first_block := 0 }
          (joinPath ([] ++ [nameF])) = some (0, d') ∧
        sfs_getattr demoLayout d' (joinPath ([] ++ [nameF]))
          = some (-ENOENT, { st_mode := 0, st_nlink := 0, st_size := 0 }) ∧
        ∀ j, (readTable demoLayout d')[j]? =
          if j ∈ [4, 5] then some demoLayout.BLOCKIDX_EMPTY
          else (readTable demoLayout demoImage)[j]?) ∧
    (∃ d1 d2, sfs_create demoLayout demoImage (joinPath ([nameA] ++ [nameX])) = some (0, d1) ∧
        sfs_getattr demoLayout d1 (joinPath ([nameA] ++ [nameX]))
          = some (0, { st_mode := S_IFREG ||| 0o644, st_nlink := 1, st_size := 0 }) ∧
        sfs_unlink demoLayout d1 { filename := [], size := 0, first_block := 0 }
          (joinPath ([nameA] ++ [nameX])) = some (0, d2) ∧
        sfs_getattr demoLayout d2 (joinPath ([nameA] ++ [nameX]))
          = some (-ENOENT, { st_mode := 0, st_nlink := 0, st_size := 0 })) := by
  have h := sfs_unlink_removes_file demoLayout (by decide) (by decide) (by decide) (by decide)
    (by decide) (by decide)
  constructor
  · obtain ⟨-, d', h1, -, h3, h4, -⟩ := h.1 demoImage { filename := [], size := 0, first_block := 0 }
      [] nameF
      { block := none, slot := 1,
        entry := { filename := [102, 0, 0, 0], size := 25, first_block := 4 } } [4, 5]
      (by decide) (by decide) (by decide) (by decide) (by decide) (by decide)
    exact ⟨d', h1, h3, h4⟩
  · have hc : ∃ d1, sfs_create demoLayout demoImage (joinPath ([nameA] ++ [nameX]))
        = some (0, d1) := by
      have : (sfs_create demoLayout demoImage (joinPath ([nameA] ++ [nameX]))).map
          (fun r => r.1) = some 0 := by decide
      cases hr : sfs_create demoLayout demoImage (joinPath ([nameA] ++ [nameX])) with
      | none => rw [hr] at this; cases this
      | some r =>
        rw [hr] at this
        obtain ⟨code, d1⟩ := r
        simp only [Option.map_some', Option.some.injEq] at this
        subst this
        exact ⟨d1, rfl⟩
    obtain ⟨d1, hd1⟩ := hc
    obtain ⟨g1, d2, g2, g3⟩ := h.2 demoImage { filename := [], size := 0, first_block := 0 }
      [nameA] nameX d1 (by decide) (by decide) hd1
    exact ⟨d1, d2, hd1, g1, g2, g3⟩

example : InUseAlong demoLayout demoImage [nameA] := by decide

/-! ### sfs_mkdir: the new directory -/

theorem resolveFirst_congr_arrays (L : Layout) (d d' : Disk)
    (h : ∀ blk, dirArray L d' blk = dirArray L d blk) :
    ∀ (cs : List CStr) (blk : Option Nat), resolveFirst L d' cs blk = resolveFirst L d cs blk := by
  intro cs
  induction cs with
  | nil => intro _; rfl
  | cons c cs ih =>
    intro blk
    rw [resolveFirst_cons, resolveFirst_cons, h blk]
    cases hf : (dirArray L d blk).findIdx? (fun e => decide (cstr e.filename = c)) with
    | none => rfl
    | some i =>
      obtain ⟨e, hg, -⟩ := findIdx?_some_getElem? _ _ _ hf
      simp only [hg]
      cases cs with
      | nil => rfl
      | cons c' cs' => exact ih (some e.first_block)

theorem lookupArr_congr_arrays (L : Layout) (d d' : Disk)
    (h : ∀ blk, dirArray L d' blk = dirArray L d blk) (cs : List CStr) :
    lookupArr L d' cs = lookupArr L d cs := by
  simp only [lookupArr, resolveFirst_congr_arrays L d d' h]

theorem dirArray_writeDir_self (L : Layout) (d : Disk) (b : Nat) (es : List Entry)
    (hlen : es.length = L.DIR_NENTRIES) (hwf : ∀ e ∈ es, e.WF L) :
    dirArray L (writeDir L d b es) (some b) = es := by
  simp only [dirArray, readDir, writeDir]
  rw [← hlen, readEntries_write L d es _ hwf]

theorem dirArray_writeDir_other (L : Layout) (d : Disk) (b : Nat) (es : List Entry)
    (blk : Option Nat)
    (hroot : L.ROOTDIR_OFF + L.ROOTDIR_SIZE ≤ L.BLOCKTBL_OFF)
    (htbl : L.BLOCKTBL_OFF + L.BLOCKTBL_SIZE ≤ L.DATA_OFF)
    (hDS : L.DIR_SIZE ≤ L.BLOCK_SIZE)
    (hlen : es.length = L.DIR_NENTRIES) (hwf : ∀ e ∈ es, e.WF L)
    (hb : blk ≠ some b) :
    dirArray L (writeDir L d b es) blk = dirArray L d blk := by
  rw [dirArray_eq, dirArray_eq]
  apply readEntries_congr
  intro a h1 h2
  simp only [writeDir]
  apply disk_write_out
  rw [length_encodeEntries L es hwf, hlen]
  cases blk with
  | none =>
    left
    simp only [dirOff, dirLen, Layout.blockOff, Layout.ROOTDIR_SIZE] at *
    omega
  | some b' =>
    have hne : b' ≠ b := fun h => hb (by rw [h])
    simp only [dirOff, dirLen, Layout.blockOff, Layout.DIR_SIZE] at *
    rcases Nat.lt_or_gt_of_ne hne with h | h
    · left
      have : (b' + 1) * L.BLOCK_SIZE ≤ b * L.BLOCK_SIZE := Nat.mul_le_mul_right _ h
      have : (b' + 1) * L.BLOCK_SIZE = b' * L.BLOCK_SIZE + L.BLOCK_SIZE := by
        rw [Nat.add_mul]; omega
      omega
    · right
      have : (b + 1) * L.BLOCK_SIZE ≤ b' * L.BLOCK_SIZE := Nat.mul_le_mul_right _ h
      have : (b + 1) * L.BLOCK_SIZE = b * L.BLOCK_SIZE + L.BLOCK_SIZE := by
        rw [Nat.add_mul]; omega
      omega

theorem length_newEntries (L : Layout) (stack : Disk) :
    (newEntries L stack).length = L.DIR_NENTRIES := by
  simp [newEntries, length_readEntries]

theorem newEntries_WF (L : Layout) (stack : Disk) : ∀ e ∈ newEntries L stack, e.WF L := by
  intro e he
  simp only [newEntries, List.mem_map] at he
  obtain ⟨x, hx, rfl⟩ := he
  exact clearedSlot_WF L x (readEntries_WF L stack _ _ x hx)

theorem newEntries_spec (L : Layout) (stack : Disk) (hEMPTY : L.BLOCKIDX_EMPTY < L.IDX_MOD) :
    ∀ e ∈ newEntries L stack,
      e.filename.headD 0 = 0 ∧ e.size = 0 ∧ e.first_block = L.BLOCKIDX_EMPTY := by
  intro e he
  simp only [newEntries, List.mem_map] at he
  obtain ⟨x, -, rfl⟩ := he
  refine ⟨?_, rfl, Nat.mod_eq_of_lt hEMPTY⟩
  simp only [clearedSlot]
  cases x.filename <;> rfl

/-! ### Names as `filler` reads them -/

theorem drop_disk_read (d : Disk) (a b off : Nat) :
    (disk_read d (a + b) off).drop a = disk_read d b (off + a) := by
  rw [disk_read_add, List.drop_left' (length_disk_read d a off)]

theorem cstr_append_of_mem (a b : List Byte) (h : (0 : Byte) ∈ a) : cstr (a ++ b) = cstr a := by
  induction a with
  | nil => simp at h
  | cons x xs ih =>
    by_cases hx : x = 0
    · subst hx
      simp [cstr]
    · have hmem : (0 : Byte) ∈ xs := by
        rcases List.mem_cons.1 h with h0 | h0
        · exact absurd h0.symm hx
        · exact h0
      have := ih hmem
      simp only [cstr] at this ⊢
      simp only [List.cons_append, List.takeWhile_cons, ne_eq, hx, not_false_eq_true,
        decide_True, if_true]
      rw [this]

/-- The bytes of an entry array from slot `i` on begin with the name field of slot `i`. -/
theorem drop_slot_eq (L : Layout) (d : Disk) (off n i : Nat) (hi : i < n) :
    (disk_read d (n * L.ENTRY_SIZE) off).drop (i * L.ENTRY_SIZE)
      = (readEntry L d (off + i * L.ENTRY_SIZE)).filename
        ++ ((disk_read d (n * L.ENTRY_SIZE) off).drop (i * L.ENTRY_SIZE)).drop L.FILENAME_MAX := by
  have hsplit : n * L.ENTRY_SIZE = i * L.ENTRY_SIZE + (L.ENTRY_SIZE + (n - i - 1) * L.ENTRY_SIZE) := by
    have : n = i + (1 + (n - i - 1)) := by omega
    conv_lhs => rw [this]
    rw [Nat.add_mul, Nat.add_mul, Nat.one_mul]
  have hdrop : (disk_read d (n * L.ENTRY_SIZE) off).drop (i * L.ENTRY_SIZE)
      = disk_read d L.ENTRY_SIZE (off + i * L.ENTRY_SIZE)
        ++ disk_read d ((n - i - 1) * L.ENTRY_SIZE) (off + i * L.ENTRY_SIZE + L.ENTRY_SIZE) := by
    rw [hsplit, drop_disk_read, disk_read_add]
  have hname : (readEntry L d (off + i * L.ENTRY_SIZE)).filename
      = ((disk_read d (n * L.ENTRY_SIZE) off).drop (i * L.ENTRY_SIZE)).take L.FILENAME_MAX := by
    rw [hdrop, List.take_append_of_le_length (by
      rw [length_disk_read]
      simp only [Layout.ENTRY_SIZE]
      omega)]
    rfl
  rw [hname, List.take_append_drop]

/-- The first byte of slot `i` of an entry array is the first byte of its name field. -/
theorem getD_slot_eq (L : Layout) (d : Disk) (off n i : Nat) (hi : i < n)
    (hFM : 0 < L.FILENAME_MAX) :
    (disk_read d (n * L.ENTRY_SIZE) off).getD (i * L.ENTRY_SIZE) 0
      = (readEntry L d (off + i * L.ENTRY_SIZE)).filename.headD 0 := by
  have hES : 0 < L.ENTRY_SIZE := by
    simp only [Layout.ENTRY_SIZE]
    omega
  have hlt : i * L.ENTRY_SIZE < n * L.ENTRY_SIZE := Nat.mul_lt_mul_of_pos_right hi hES
  have h1 : (disk_read d (n * L.ENTRY_SIZE) off).getD (i * L.ENTRY_SIZE) 0
      = d (off + i * L.ENTRY_SIZE) := by
    rw [List.getD_eq_getElem?_getD, getElem?_disk_read, if_pos hlt]
    rfl
  have h2 : (readEntry L d (off + i * L.ENTRY_SIZE)).filename
      = disk_read d L.FILENAME_MAX (off + i * L.ENTRY_SIZE) := by
    have : L.ENTRY_SIZE = L.FILENAME_MAX + (L.SIZE_BYTES + L.IDX_BYTES) := by
      simp only [Layout.ENTRY_SIZE]
      omega
    simp only [readEntry, decodeEntry]
    rw [this, disk_read_add, List.take_left' (length_disk_read _ _ _)]
  rw [h1, h2]
  obtain ⟨m, hm⟩ : ∃ m, L.FILENAME_MAX = m + 1 := ⟨L.FILENAME_MAX - 1, by omega⟩
  rw [hm]
  simp [disk_read, List.range_succ_eq_map]

/-- The string read at the address of a name field that holds a NUL is the
name in the field. -/
theorem strAt_slot (L : Layout) (d : Disk) (off n i : Nat) (hi : i < n)
    (hnul : (0 : Byte) ∈ (readEntry L d (off + i * L.ENTRY_SIZE)).filename) :
    strAt (disk_read d (n * L.ENTRY_SIZE) off) (i * L.ENTRY_SIZE)
      = some (cstr (readEntry L d (off + i * L.ENTRY_SIZE)).filename) := by
  have h := drop_slot_eq L d off n i hi
  have hmem : (0 : Byte) ∈ (disk_read d (n * L.ENTRY_SIZE) off).drop (i * L.ENTRY_SIZE) := by
    rw [h]
    exact List.mem_append_left _ hnul
  rw [strAt, if_pos hmem]
  congr 1
  rw [h, cstr_append_of_mem _ _ hnul]

/-- The listing loop on an array all of whose live name fields hold a NUL. -/
theorem listNames_eq (L : Layout) (d : Disk) (off n : Nat) (hFM : 0 < L.FILENAME_MAX)
    (hnul : ∀ e ∈ readEntries L d off n, e.filename.headD 0 ≠ 0 → (0 : Byte) ∈ e.filename) :
    listNames L (disk_read d (n * L.ENTRY_SIZE) off) 0 n
      = some (((readEntries L d off n).filter (fun e => e.filename.headD 0 ≠ 0)).map
          (fun e => cstr e.filename)) := by
  have key : ∀ (k i : Nat), i + k = n →
      listNames L (disk_read d (n * L.ENTRY_SIZE) off) i k
        = some ((((List.range' i k).map (fun j => readEntry L d (off + j * L.ENTRY_SIZE))).filter
            (fun e => e.filename.headD 0 ≠ 0)).map (fun e => cstr e.filename)) := by
    intro k
    induction k with
    | zero => intro i _; rfl
    | succ k ih =>
      intro i hik
      have hi : i < n := by omega
      have hmemE : readEntry L d (off + i * L.ENTRY_SIZE) ∈ readEntries L d off n := by
        simp only [readEntries, List.mem_map, List.mem_range]
        exact ⟨i, hi, rfl⟩
      rw [listNames, getD_slot_eq L d off n i hi hFM, ih (i + 1) (by omega), List.range'_succ,
        List.map_cons, List.filter_cons]
      by_cases h0 : (readEntry L d (off + i * L.ENTRY_SIZE)).filename.headD 0 = 0
      · rw [if_pos h0, if_neg (by simpa using h0)]
      · rw [if_neg h0, if_pos (by simpa using h0), strAt_slot L d off n i hi (hnul _ hmemE h0)]
        rfl
  have := key n 0 (by omega)
  rw [this]
  simp only [readEntries, List.range_eq_range']

/-- The listing loop on an array whose slots all begin with a NUL calls `filler` for none. -/
theorem listNames_nil_of_empty (L : Layout) (d : Disk) (off n : Nat) (hFM : 0 < L.FILENAME_MAX)
    (h : ∀ e ∈ readEntries L d off n, e.filename.headD 0 = 0) :
    listNames L (disk_read d (n * L.ENTRY_SIZE) off) 0 n = some [] := by
  rw [listNames_eq L d off n hFM (fun e he hne => absurd (h e he) hne)]
  congr 1
  rw [List.map_eq_nil_iff, List.filter_eq_nil_iff]
  intro e he
  simpa using h e he

/-- On a name field without a NUL the listing loop hands on what `filler`
reads: the four name bytes and the first byte of `size` behind them. -/
theorem listNames_past_field :
    listNames demoLayout [97, 98, 99, 100, 25, 0, 0, 0, 4, 0] 0 1
      = some [[97, 98, 99, 100, 25]] := by
  decide

/-- C4: for `/` and for a path that resolves to an entry with the DIRECTORY
flag, in an image whose live slots carry NUL-terminated names (the entry
layout: every name field with a non-NUL first byte holds a NUL), `sfs_readdir`
returns 0 and hands `filler` the names `.`, `..` and then, in slot order, the
name of every slot of the directory's array (root region, or the block at
`first_block`) whose first filename byte is not NUL, and nothing else. -/
theorem sfs_readdir_lists_live_names (L : Layout) (d : Disk) (path : List Byte)
    (hFM : 0 < L.FILENAME_MAX) :
    (cstr path = [SLASH] →
      (∀ e ∈ readRoot L d, e.filename.headD 0 ≠ 0 → (0 : Byte) ∈ e.filename) →
      sfs_readdir L d path = some (0, DOT :: DOTDOT ::
        ((readRoot L d).filter (fun e => e.filename.headD 0 ≠ 0)).map (fun e => cstr e.filename))) ∧
    (cstr path ≠ [SLASH] → ∀ e off, get_entry L d path = some (Lookup.found e off) →
      e.size &&& L.DIRECTORY ≠ 0 →
      (∀ x ∈ readDir L d e.first_block, x.filename.headD 0 ≠ 0 → (0 : Byte) ∈ x.filename) →
      sfs_readdir L d path = some (0, DOT :: DOTDOT ::
        ((readDir L d e.first_block).filter (fun e => e.filename.headD 0 ≠ 0)).map
          (fun e => cstr e.filename))) := by
  constructor
  · intro h hnul
    have hl := listNames_eq L d L.ROOTDIR_OFF L.ROOTDIR_NENTRIES hFM hnul
    simp only [sfs_readdir, h, if_true, Layout.ROOTDIR_SIZE, hl, Option.map_some']
    rfl
  · intro h e off hres hf hnul
    have hl := listNames_eq L d (L.blockOff e.first_block) L.DIR_NENTRIES hFM hnul
    simp only [sfs_readdir, h, if_false, hres, hf, ne_eq, not_false_eq_true, if_true,
      Layout.DIR_SIZE, hl, Option.map_some']
    rfl

theorem sfs_readdir_lists_live_names_witness :
    sfs_readdir demoLayout demoImage (joinPath [nameA]) = some (0, [DOT, DOTDOT, nameB]) ∧
    sfs_readdir demoLayout demoImage [SLASH] = some (0, [DOT, DOTDOT, nameA, nameF]) := by
  have h1 := (sfs_readdir_lists_live_names demoLayout demoImage (joinPath [nameA])
    (by decide)).2 (by decide)
    { filename := [97, 0, 0, 0], size := 2 ^ 31, first_block := 0 } 2 (by decide) (by decide)
    (by decide)
  have h2 := (sfs_readdir_lists_live_names demoLayout demoImage [SLASH] (by decide)).1
    (by decide) (by decide)
  have e1 : ((readDir demoLayout demoImage 0).filter (fun e => e.filename.headD 0 ≠ 0)).map
      (fun e => cstr e.filename) = [nameB] := by decide
  have e2 : ((readRoot demoLayout demoImage).filter (fun e => e.filename.headD 0 ≠ 0)).map
      (fun e => cstr e.filename) = [nameA, nameF] := by decide
  simp only at h1
  rw [e1] at h1
  rw [e2] at h2
  exact ⟨h1, h2⟩

theorem lookupArr_visited_ne (L : Layout) (d : Disk) (cs : List CStr) (i : Nat)
    (huse : InUseAlong L d cs)
    (hfree : (readTable L d)[i]? = some L.BLOCKIDX_EMPTY)
    (pre : List CStr) (hpre : pre <+: cs) (blk : Option Nat)
    (hl : lookupArr L d pre = some blk) : blk ≠ some i := by
  by_cases hp : pre = []
  · subst hp
    simp only [lookupArr, if_true, Option.some.injEq] at hl
    rw [← hl]
    simp
  · simp only [lookupArr, hp, if_false] at hl
    cases hq : resolveFirst L d pre none with
    | none => simp [hq] at hl
    | some q =>
      simp only [hq, Option.map_some', Option.some.injEq] at hl
      subst hl
      have hlen := hpre.length_le
      have hpos : 0 < pre.length := List.length_pos.2 hp
      have h := huse (pre.length - 1) (by omega)
      have ht : cs.take (pre.length - 1 + 1) = pre := by
        have : pre.length - 1 + 1 = pre.length := by omega
        rw [this]
        exact (List.prefix_iff_eq_take.1 hpre).symm
      simp only [ht, hq] at h
      intro hb
      simp only [Option.some.injEq] at hb
      rw [hb] at h
      exact h hfree

/-- C7: for a path `/c1/.../cn` that does not yet resolve, with `cn` shorter
than FILENAME_MAX, whose parent's array (the root array, or the block the
parent resolves to) has `k0` as its lowest empty slot, the blocks named along
the path being in use and `i` the lowest index of a free pair, `sfs_mkdir`
returns 0; afterwards the parent's array is the old one with slot `k0`
replaced by `{filename = cn, size = DIRECTORY, first_block = i}`; the array in
block `i` has, in every slot, first filename byte NUL, size 0 and first_block
EMPTY; `sfs_getattr` reports a directory and `sfs_readdir` emits exactly `.`
and `..`. -/
theorem sfs_mkdir_links_new_directory (L : Layout) (d stack : Disk) (cs : List CStr) (c : CStr)
    (blk0 : Option Nat) (k0 : Nat) (e0 : Entry) (i : Nat)
    (hnd : L.ROOTDIR_NENTRIES ≠ L.DIR_NENTRIES)
    (hroot : L.ROOTDIR_OFF + L.ROOTDIR_SIZE ≤ L.BLOCKTBL_OFF)
    (htbl : L.BLOCKTBL_OFF + L.BLOCKTBL_SIZE ≤ L.DATA_OFF)
    (hDS : L.DIR_SIZE ≤ L.BLOCK_SIZE)
    (hN : L.BLOCKTBL_NENTRIES ≤ L.IDX_MOD)
    (hEMPTY : L.BLOCKIDX_EMPTY < L.IDX_MOD)
    (hDIR : 0 < L.DIRECTORY ∧ L.DIRECTORY < L.SIZE_MOD)
    (hv : ∀ x ∈ cs ++ [c], validComp x)
    (hname : strlen c < L.FILENAME_MAX)
    (hnot : get_entry L d (joinPath (cs ++ [c])) = some (Lookup.err (-1)))
    (hpar : parentBlock L d (fixParent (if cs = [] then [] else joinPath cs)) = some blk0)
    (huse : InUseAlong L d cs)
    (hslot : (dirArray L d blk0)[k0]? = some e0)
    (hempty : cstr e0.filename = [])
    (hmin : ∀ e ∈ (dirArray L d blk0).take k0, cstr e.filename ≠ [])
    (hi : i + 1 < L.BLOCKTBL_NENTRIES)
    (hfree : (readTable L d)[i]? = some L.BLOCKIDX_EMPTY ∧
      (readTable L d)[i + 1]? = some L.BLOCKIDX_EMPTY)
    (hlow : ∀ j, j < i → ¬ ((readTable L d)[j]? = some L.BLOCKIDX_EMPTY ∧
      (readTable L d)[j + 1]? = some L.BLOCKIDX_EMPTY)) :
    ∃ d', sfs_mkdir L d stack (joinPath (cs ++ [c])) = some (0, d') ∧
      dirArray L d' blk0 = (dirArray L d blk0).set k0
        { filename := strcpy e0.filename c, size := L.DIRECTORY, first_block := i } ∧
      cstr (strcpy e0.filename c) = c ∧
      (dirArray L d' (some i)).length = L.DIR_NENTRIES ∧
      (∀ e ∈ dirArray L d' (some i),
        e.filename.headD 0 = 0 ∧ e.size = 0 ∧ e.first_block = L.BLOCKIDX_EMPTY) ∧
      sfs_getattr L d' (joinPath (cs ++ [c]))
        = some (0, { st_mode := S_IFDIR ||| 0o755, st_nlink := 2, st_size := 0 }) ∧
      sfs_readdir L d' (joinPath (cs ++ [c])) = some (0, [DOT, DOTDOT]) := by
  have hc : validComp c := hv c (by simp)
  have hcs : ∀ x ∈ cs, validComp x := fun x hx => hv x (by simp [hx])
  have hnot' : resolveFirst L d (cs ++ [c]) none = none := by
    rw [get_entry_joinPath L d hnd _ (by simp) hv] at hnot
    cases hr : resolveFirst L d (cs ++ [c]) none with
    | none => rfl
    | some p => simp [hr, toLookup] at hnot
  rw [lookupArr_joinPath L d cs hnd hcs] at hpar
  -- the allocation step
  have halloc := mkdirAlloc_pair L d i hN hi hfree hlow
  set t2 := ((readTable L d).set i (i + 1)).set (i + 1) (L.BLOCKIDX_END % L.IDX_MOD) with ht2
  have hlen2 : t2.length = L.BLOCKTBL_NENTRIES := by simp [ht2, length_readTable]
  have harr1 : ∀ blk, dirArray L (writeTable L d t2) blk = dirArray L d blk :=
    fun blk => dirArray_writeTable L d t2 blk hroot htbl hlen2
  have hfst : (mkdirAlloc L d).1 = i := by rw [halloc]
  have hsnd : (mkdirAlloc L d).2 = writeTable L d t2 := by rw [halloc]
  -- the slot written into the parent
  have hwf0 : e0.WF L := dirArray_WF L d blk0 e0 (List.getElem?_mem hslot)
  have hwf : (mkdirSlot L i c e0).WF L := mkdirSlot_WF L i c e0 hwf0 hname (by omega)
  have hfind : findSlot isEmptySlot (dirArray L d blk0) = some k0 :=
    findSlot_eq_some _ _ k0 e0 hslot ((isEmptySlot_iff e0).2 hempty) (by
      intro e he
      have := hmin e he
      cases hb : isEmptySlot e with
      | false => rfl
      | true => exact absurd ((isEmptySlot_iff e).1 hb) this)
  have hslot1 : (dirArray L (writeTable L d t2) blk0)[k0]? = some e0 := by rw [harr1]; exact hslot
  obtain ⟨hw1, -, -⟩ := write_slot_effects L (writeTable L d t2) blk0 k0 (mkdirSlot L i c) e0
    hslot1 hwf
  rw [harr1] at hw1
  have hk := (getElem?_dirArray L d blk0 k0 e0 hslot).1
  have hms : mkdirSlot L i c e0
      = Entry.mk (strcpy e0.filename c) L.DIRECTORY i := by
    simp only [mkdirSlot, Nat.mod_eq_of_lt hDIR.2]
  -- the image after the call
  set d2 := disk_write (writeTable L d t2) (encodeEntry L (mkdirSlot L i c e0))
    (dirOff L blk0 + k0 * L.ENTRY_SIZE) with hd2
  set d' := writeDir L d2 i (newEntries L stack) with hd'
  have hok : sfs_mkdir L d stack (joinPath (cs ++ [c])) = some (0, d') := by
    rw [sfs_mkdir_ok_iff L d stack _ d' hroot htbl]
    refine ⟨_, c, blk0, k0, splitLast_joinPath cs c hv, hname, by omega, ?_, hfind, ?_⟩
    · rw [lookupArr_joinPath L _ cs hnd hcs, hsnd, lookupArr_congr_arrays L d _ harr1, hpar]
    · rw [hfst, hsnd, hw1]
  have hblk0 : blk0 ≠ some i :=
    lookupArr_visited_ne L d cs i huse hfree.1 cs (List.prefix_refl cs) blk0 hpar
  have harr2 : ∀ blk, blk ≠ some i → dirArray L d' blk =
      if blk = blk0 then (dirArray L d blk0).set k0 (mkdirSlot L i c e0)
      else dirArray L d blk := by
    intro blk hb
    rw [hd', dirArray_writeDir_other L d2 i _ blk hroot htbl hDS (length_newEntries L stack)
      (newEntries_WF L stack) hb, hd2,
      dirArray_slot_write L _ blk0 k0 _ hroot htbl hDS hk hwf blk, harr1, harr1]
  have hnew : dirArray L d' (some i) = newEntries L stack :=
    dirArray_writeDir_self L d2 i _ (length_newEntries L stack) (newEntries_WF L stack)
  have hnm : cstr (mkdirSlot L i c e0).filename = c := by
    simp only [mkdirSlot, cstr_strcpy, cstr_comp hc]
  obtain ⟨-, -, hres', -⟩ := resolve_after_fill L d d' cs c blk0 k0 e0 (mkdirSlot L i c e0) hv
    hpar hnot' hslot hempty hnm (by
      rintro blk ⟨pre, hpre, hl⟩
      exact harr2 blk (lookupArr_visited_ne L d cs i huse hfree.1 pre hpre blk hl))
  have hget' : get_entry L d' (joinPath (cs ++ [c])) = some (Lookup.found (mkdirSlot L i c e0)
      (Place.off L { block := blk0, slot := k0, entry := mkdirSlot L i c e0 } % 2 ^ 32)) := by
    rw [get_entry_joinPath L d' hnd _ (by simp) hv, hres']
    rfl
  have hflag : (mkdirSlot L i c e0).size &&& L.DIRECTORY ≠ 0 := by
    rw [hms]
    simp only [Nat.and_self]
    omega
  have hp := joinPath_ne_slash (cs ++ [c]) (by simp) hv
  refine ⟨d', hok, ?_, ?_, ?_, ?_, ?_, ?_⟩
  · rw [harr2 blk0 hblk0, if_pos rfl, hms]
  · rw [cstr_strcpy, cstr_comp hc]
  · rw [hnew, length_newEntries]
  · rw [hnew]
    exact newEntries_spec L stack hEMPTY
  · simp only [sfs_getattr, hp, if_false, hget', hflag, ne_eq, not_false_eq_true, if_true]
  · have hrd : readDir L d' (mkdirSlot L i c e0).first_block = newEntries L stack := by
      rw [hms]
      exact hnew
    have hnil := listNames_nil_of_empty L d' (L.blockOff (mkdirSlot L i c e0).first_block)
      L.DIR_NENTRIES (by omega) (by
        intro e he
        have he' : e ∈ readDir L d' (mkdirSlot L i c e0).first_block := he
        rw [hrd] at he'
        exact (newEntries_spec L stack hEMPTY e he').1)
    simp only [sfs_readdir, hp, if_false, hget', hflag, ne_eq, not_false_eq_true, if_true,
      Layout.DIR_SIZE, hnil, Option.map_some']

theorem sfs_mkdir_links_new_directory_witness :
    ∃ d', sfs_mkdir demoLayout demoImage (fun _ => 9) (joinPath ([nameA] ++ [nameX]))
        = some (0, d') ∧
      dirArray demoLayout d' (some 0) =
        [{ filename := [98, 0, 0, 0], size := 2 ^ 31, first_block := 2 },
         { filename := [120, 0, 0, 0], size := 2 ^ 31, first_block := 6 }] ∧
      sfs_getattr demoLayout d' (joinPath ([nameA] ++ [nameX]))
        = some (0, { st_mode := S_IFDIR ||| 0o755, st_nlink := 2, st_size := 0 }) ∧
      sfs_readdir demoLayout d' (joinPath ([nameA] ++ [nameX])) = some (0, [DOT, DOTDOT]) := by
  obtain ⟨d', h1, h2, -, -, -, h6, h7⟩ := sfs_mkdir_links_new_directory demoLayout demoImage
    (fun _ => 9) [nameA] nameX (some 0) 1
    { filename := [0, 0, 0, 0], size := 0, first_block := 65535 } 6
    (by decide) (by decide) (by decide) (by decide) (by decide) (by decide) (by decide)
    (by decide) (by decide) (by decide) (by decide) (by decide) (by decide) (by decide)
    (by decide) (by decide) (by decide) (by decide)
  refine ⟨d', h1, ?_, h6, h7⟩
  rw [h2]
  decide

/-! ### Failures of sfs_create -/

/-- C17: for a path with basename `file` (the text after its last `/`),
`sfs_create` returns `-ENAMETOOLONG` exactly when `strlen file ≥ FILENAME_MAX`
(it does return then, and no other return carries that code); otherwise, when
the parent is `/` or resolves and no slot of its array has an empty filename,
it returns `-ENOSPC`; in both cases the image handed back is the image given. -/
theorem sfs_create_failure_codes (L : Layout) (d : Disk) (path : List Byte) (parent file : CStr)
    (hs : splitLast path = some (parent, file)) :
    (L.FILENAME_MAX ≤ strlen file → sfs_create L d path = some (-ENAMETOOLONG, d)) ∧
    (∀ r, sfs_create L d path = some r → (r.1 = -ENAMETOOLONG ↔ L.FILENAME_MAX ≤ strlen file)) ∧
    (strlen file < L.FILENAME_MAX → ∀ blk, parentBlock L d (fixParent parent) = some blk →
      (∀ e ∈ dirArray L d blk, cstr e.filename ≠ []) →
      sfs_create L d path = some (-ENOSPC, d)) := by
  refine ⟨?_, ?_, ?_⟩
  · intro h
    simp only [sfs_create, hs, ge_iff_le, h, if_true]
  · intro r hr
    constructor
    · intro hcode
      by_contra hn
      simp only [sfs_create, hs, ge_iff_le, hn, if_false] at hr
      by_cases hp : cstr (fixParent parent) = [SLASH]
      · simp only [hp, if_true] at hr
        cases hf : findSlot isEmptySlot (readRoot L d) with
        | none =>
          simp only [hf, Option.some.injEq] at hr
          rw [← hr] at hcode
          simp [ENOSPC, ENAMETOOLONG] at hcode
        | some k =>
          simp only [hf, Option.some.injEq] at hr
          rw [← hr] at hcode
          simp [ENAMETOOLONG] at hcode
      · simp only [hp, if_false] at hr
        cases hg : get_entry L d (fixParent parent) with
        | none => simp [hg] at hr
        | some res =>
          cases res with
          | err c =>
            simp only [hg, Option.some.injEq] at hr
            rw [← hr] at hcode
            simp [ENOENT, ENAMETOOLONG] at hcode
          | found pe off =>
            simp only [hg] at hr
            cases hf : findSlot isEmptySlot (readDir L d pe.first_block) with
            | none =>
              simp only [hf, Option.some.injEq] at hr
              rw [← hr] at hcode
              simp [ENOSPC, ENAMETOOLONG] at hcode
            | some k =>
              simp only [hf, Option.some.injEq] at hr
              rw [← hr] at hcode
              simp [ENAMETOOLONG] at hcode
    · intro h
      simp only [sfs_create, hs, ge_iff_le, h, if_true, Option.some.injEq] at hr
      rw [← hr]
  · intro hn blk hpar hfull
    have hnone : findSlot isEmptySlot (dirArray L d blk) = none := by
      cases hf : findSlot isEmptySlot (dirArray L d blk) with
      | none => rfl
      | some k =>
        obtain ⟨⟨e0, hslot, he0⟩, -⟩ := findSlot_some_spec _ _ _ hf
        exact absurd ((isEmptySlot_iff e0).1 he0) (hfull e0 (List.getElem?_mem hslot))
    have hn' : ¬ (L.FILENAME_MAX ≤ strlen file) := by omega
    rcases parentBlock_cases L d _ blk hpar with ⟨hp, rfl⟩ | ⟨hp, pe, off, hg, rfl⟩
    · simp only [dirArray] at hnone
      simp only [sfs_create, hs, ge_iff_le, hn', if_false, hp, if_true, hnone]
    · simp only [dirArray] at hnone
      simp only [sfs_create, hs, ge_iff_le, hn', if_false, hp, hg, hnone]

theorem sfs_create_failure_codes_witness :
    sfs_create demoLayout demoFull (joinPath [nameX]) = some (-ENOSPC, demoFull) ∧
    sfs_create demoLayout demoFull (joinPath [nameDEFG]) = some (-ENAMETOOLONG, demoFull) :=
  ⟨(sfs_create_failure_codes demoLayout demoFull (joinPath [nameX]) [] nameX (by decide)).2.2
      (by decide) none (by decide) (by decide),
   (sfs_create_failure_codes demoLayout demoFull (joinPath [nameDEFG]) [] nameDEFG
      (by decide)).1 (by decide)⟩

/-! ### Error codes of the readers -/

/-- The case that refutes C18 as first stated: `/f` resolves to a regular file
and `sfs_readdir` answers with the same `-ENOENT` it gives for the missing `/x`. -/
theorem sfs_readdir_file_counterexample :
    get_entry demoLayout demoImage (joinPath [nameF])
      = some (Lookup.found { filename := [102, 0, 0, 0], size := 25, first_block := 4 } 12) ∧
    25 &&& demoLayout.DIRECTORY = 0 ∧
    sfs_readdir demoLayout demoImage (joinPath [nameF]) = some (-ENOENT, []) ∧
    sfs_readdir demoLayout demoImage (joinPath [nameX]) = some (-ENOENT, []) := by
  decide

/-- C18 (amended): `sfs_readdir` on a path other than `/` returns `-ENOENT`
without emitting any name both when the path does not resolve and when it
resolves to an entry without the DIRECTORY flag: the two causes get the same
code. -/
theorem sfs_readdir_not_found (L : Layout) (d : Disk) (path : List Byte)
    (hp : cstr path ≠ [SLASH]) :
    (∀ code, get_entry L d path = some (Lookup.err code) →
      sfs_readdir L d path = some (-ENOENT, [])) ∧
    (∀ e off, get_entry L d path = some (Lookup.found e off) → e.size &&& L.DIRECTORY = 0 →
      sfs_readdir L d path = some (-ENOENT, [])) := by
  constructor
  · intro code h
    simp only [sfs_readdir, hp, if_false, h]
  · intro e off h hreg
    simp only [sfs_readdir, hp, if_false, h, hreg, ne_eq, not_true_eq_false]

theorem sfs_readdir_not_found_witness :
    sfs_readdir demoLayout demoImage (joinPath [nameX]) = some (-ENOENT, []) ∧
    sfs_readdir demoLayout demoImage (joinPath [nameF]) = some (-ENOENT, []) :=
  ⟨(sfs_readdir_not_found demoLayout demoImage (joinPath [nameX]) (by decide)).1 (-1) (by decide),
   (sfs_readdir_not_found demoLayout demoImage (joinPath [nameF]) (by decide)).2
     { filename := [102, 0, 0, 0], size := 25, first_block := 4 } 12 (by decide) (by decide)⟩

/-- The case that refutes C19 as first stated: `/x` does not resolve and
`sfs_read` returns `-EISDIR`, which is not `-ENOENT`. -/
theorem sfs_read_missing_counterexample :
    get_entry demoLayout demoImage (joinPath [nameX]) = some (Lookup.err (-1)) ∧
    sfs_read demoLayout demoImage (joinPath [nameX]) 10 0 = some (-EISDIR, []) ∧
    -EISDIR ≠ -ENOENT := by
  decide

theorem length_copyLoop_le (L : Layout) (d : Disk) (table : List Nat) :
    ∀ (fuel size block off : Nat) (buf : List Byte),
      copyLoop L d table fuel size block off = some buf → buf.length ≤ size := by
  intro fuel
  induction fuel with
  | zero =>
    intro size block off buf h
    simp only [copyLoop] at h
    split at h
    · simp at h
    · simp only [Option.some.injEq] at h
      rw [← h]
      simp
  | succ fuel ih =>
    intro size block off buf h
    simp only [copyLoop] at h
    split at h
    · cases ht : table[block]? with
      | none => simp [ht] at h
      | some nb =>
        simp only [ht, Option.map_eq_some'] at h
        obtain ⟨r, hr, rfl⟩ := h
        have := ih _ _ _ _ hr
        simp only [List.length_append, List.length_take, List.length_drop, length_disk_read]
        split at this <;> split <;> omega
    · simp only [Option.some.injEq] at h
      rw [← h]
      simp

/-- C19 (amended): `sfs_read` returns `-EISDIR` when the path resolves to an
entry with the DIRECTORY flag and also when the path does not resolve (no
`-ENOENT` is ever returned); on a path that resolves to an entry without the
flag its return value is never negative, so not `-EISDIR` (for a size mask
and a request size below 2^31). -/
theorem sfs_read_error_code (L : Layout) (d : Disk) (path : List Byte) (size : Nat)
    (offset : Int) (hmask : L.SIZEMASK < 2 ^ 31) (hsize : size < 2 ^ 31) :
    (∀ e off, get_entry L d path = some (Lookup.found e off) → e.size &&& L.DIRECTORY ≠ 0 →
      sfs_read L d path size offset = some (-EISDIR, [])) ∧
    (∀ code, get_entry L d path = some (Lookup.err code) →
      sfs_read L d path size offset = some (-EISDIR, [])) ∧
    (∀ e off r, get_entry L d path = some (Lookup.found e off) → e.size &&& L.DIRECTORY = 0 →
      sfs_read L d path size offset = some r → 0 ≤ r.1) := by
  refine ⟨?_, ?_, ?_⟩
  · intro e off h hdir
    simp only [sfs_read, h, hdir, ne_eq, not_false_eq_true, if_true]
  · intro code h
    simp only [sfs_read, h]
  · intro e off r h hreg hr
    simp only [sfs_read, h, hreg, ne_eq, not_true_eq_false, if_false] at hr
    split at hr
    · simp only [Option.some.injEq] at hr
      rw [← hr]
    · split at hr
      · simp at hr
      · cases hsk : skipBlocks L (readTable L d) (Int.tdiv offset L.BLOCK_SIZE).toNat
            e.first_block with
        | none => simp [hsk] at hr
        | some block =>
          simp only [hsk] at hr
          split at hr
          · simp at hr
          · rename_i buf hbuf
            simp only [Option.some.injEq] at hr
            rw [← hr]
            have hle := length_copyLoop_le L d _ _ _ _ _ _ hbuf
            have hfs : e.size &&& L.SIZEMASK < 2 ^ 31 :=
              lt_of_le_of_lt Nat.and_le_right hmask
            have hlt : buf.length < 2 ^ 31 := by
              split at hle <;> omega
            simp only [toInt32]
            rw [Nat.mod_eq_of_lt (by omega), if_pos hlt]
            exact Int.natCast_nonneg _

theorem sfs_read_error_code_witness :
    sfs_read demoLayout demoImage (joinPath [nameX]) 10 0 = some (-EISDIR, []) ∧
    sfs_read demoLayout demoImage (joinPath [nameA]) 10 0 = some (-EISDIR, []) :=
  ⟨(sfs_read_error_code demoLayout demoImage (joinPath [nameX]) 10 0 (by decide)
      (by decide)).2.1 (-1) (by decide),
   (sfs_read_error_code demoLayout demoImage (joinPath [nameA]) 10 0 (by decide)
      (by decide)).1 { filename := [97, 0, 0, 0], size := 2 ^ 31, first_block := 0 } 2
      (by decide) (by decide)⟩

/-! ### Traversal through an entry that is not a directory -/

theorem resolveFirst_append (L : Layout) (d : Disk) :
    ∀ (pre suf : List CStr) (blk : Option Nat), pre ≠ [] → suf ≠ [] →
      resolveFirst L d (pre ++ suf) blk =
        match resolveFirst L d pre blk with
        | none => none
        | some q => resolveFirst L d suf (some q.entry.first_block) := by
  intro pre
  induction pre with
  | nil => intro suf blk h; exact absurd rfl h
  | cons x xs ih =>
    intro suf blk _ hsuf
    obtain ⟨s, ss, rfl⟩ := List.exists_cons_of_ne_nil hsuf
    cases hf : (dirArray L d blk).findIdx? (fun e => decide (cstr e.filename = x)) with
    | none => simp [resolveFirst, hf]
    | some i =>
      obtain ⟨e, hg, -⟩ := findIdx?_some_getElem? _ _ _ hf
      cases xs with
      | nil => simp [resolveFirst, hf, hg]
      | cons y ys =>
        have := ih (s :: ss) (some e.first_block) (by simp) (by simp)
        simp only [List.cons_append] at this ⊢
        rw [resolveFirst_cons, resolveFirst_cons L d x (y :: ys)]
        simp only [hf, hg]
        exact this

/-- The case that refutes C15 as first stated: in `demoThrough` every name
field of the root array and of block 4 holds a NUL, so every `strcmp` of the
resolver ends inside its field; `/f` is a regular file, yet `get_entry`
resolves `/f/de` (the first block of the file, read as an entry array, has a
slot named `de`) and `sfs_getattr` returns 0 for it. -/
theorem get_entry_through_file_counterexample :
    NamesTerminatedAlong demoLayout demoThrough [nameF, nameDE] ∧
    resolveFirst demoLayout demoThrough [nameF] none
      = some { block := none, slot := 1,
               entry := { filename := [102, 0, 0, 0], size := 25, first_block := 4 } } ∧
    25 &&& demoLayout.DIRECTORY = 0 ∧
    readDir demoLayout demoThrough 4
      = [{ filename := [100, 101, 0, 0], size := 7, first_block := 65534 },
         { filename := [0, 0, 0, 0], size := 0, first_block := 65535 }] ∧
    get_entry demoLayout demoThrough (joinPath [nameF, nameDE])
      = some (Lookup.found { filename := [100, 101, 0, 0], size := 7, first_block := 65534 }
          128) ∧
    sfs_getattr demoLayout demoThrough (joinPath [nameF, nameDE])
      = some (0, { st_mode := S_IFREG ||| 0o644, st_nlink := 1, st_size := 7 }) := by
  decide

/-- C15 (amended): the resolver does not test the DIRECTORY flag of the entries
it passes through.  In an image whose name fields along the path hold a NUL
(so that each name `strcmp` reads at the address of a field is the name in the
field), for a path `/pre/suf` whose part `pre` resolves to an entry `q`, with
the flag or (the case of the claim) without it, `get_entry` goes on in the
block `q.first_block` names: its answer is first-match resolution of `suf`
from that block, so it returns not-found exactly when the contents of that
block fail to match, and `sfs_getattr` returns `-ENOENT` exactly then. -/
theorem get_entry_ignores_directory_flag (L : Layout) (d : Disk) (pre suf : List CStr)
    (q : Place)
    (hnd : L.ROOTDIR_NENTRIES ≠ L.DIR_NENTRIES)
    (hv : ∀ x ∈ pre ++ suf, validComp x) (hpre : pre ≠ []) (hsuf : suf ≠ [])
    (hnul : NamesTerminatedAlong L d (pre ++ suf))
    (hq : resolveFirst L d pre none = some q) :
    (∀ k blk i e, k < (pre ++ suf).length → lookupArr L d ((pre ++ suf).take k) = some blk →
      (dirArray L d blk)[i]? = some e →
      strAt (disk_read d (dirLen L blk * L.ENTRY_SIZE) (dirOff L blk)) (i * L.ENTRY_SIZE)
        = some (cstr e.filename)) ∧
    get_entry L d (joinPath (pre ++ suf))
      = some (toLookup L (resolveFirst L d suf (some q.entry.first_block))) ∧
    (get_entry L d (joinPath (pre ++ suf)) = some (Lookup.err (-1)) ↔
      resolveFirst L d suf (some q.entry.first_block) = none) ∧
    (sfs_getattr L d (joinPath (pre ++ suf))
        = some (-ENOENT, { st_mode := 0, st_nlink := 0, st_size := 0 }) ↔
      resolveFirst L d suf (some q.entry.first_block) = none) := by
  have hne : pre ++ suf ≠ [] := by simp [hpre]
  have hget : get_entry L d (joinPath (pre ++ suf))
      = some (toLookup L (resolveFirst L d suf (some q.entry.first_block))) := by
    rw [get_entry_joinPath L d hnd _ hne hv, resolveFirst_append L d pre suf none hpre hsuf, hq]
  have hp := joinPath_ne_slash (pre ++ suf) hne hv
  refine ⟨?_, hget, ?_, ?_⟩
  · intro k blk i e hk hl he
    have h := hnul k hk
    rw [hl] at h
    obtain ⟨hi, hrd⟩ := getElem?_dirArray L d blk i e he
    have hz : (0 : Byte) ∈ (readEntry L d (dirOff L blk + i * L.ENTRY_SIZE)).filename := by
      rw [hrd]
      exact h e (List.getElem?_mem he)
    rw [strAt_slot L d (dirOff L blk) (dirLen L blk) i hi hz, hrd]
  · rw [hget]
    cases resolveFirst L d suf (some q.entry.first_block) with
    | none => simp [toLookup]
    | some p => simp [toLookup]
  · cases hr : resolveFirst L d suf (some q.entry.first_block) with
    | none =>
      rw [hr] at hget
      simp [sfs_getattr, hp, hget, toLookup]
    | some p =>
      rw [hr] at hget
      simp only [sfs_getattr, hp, if_false, hget, toLookup]
      split <;> simp [ENOENT]

theorem get_entry_ignores_directory_flag_witness :
    get_entry demoLayout demoThrough (joinPath ([nameF] ++ [nameDE]))
      = some (toLookup demoLayout (resolveFirst demoLayout demoThrough [nameDE] (some 4))) :=
  (get_entry_ignores_directory_flag demoLayout demoThrough [nameF] [nameDE]
    { block := none, slot := 1,
      entry := { filename := [102, 0, 0, 0], size := 25, first_block := 4 } }
    (by decide) (by decide) (by decide) (by decide) (by decide) (by decide)).2.1

/-! ### sfs_rmdir on any resolved entry -/

/-- What `sfs_rmdir` does to a resolved path when the block its entry names
holds no name and the chain from there ends: the flag of the entry plays no
part. -/
theorem rmdir_core (L : Layout) (d : Disk) (uninit : Entry)
    (cs : List CStr) (c : CStr) (p : Place) (bs : List Nat)
    (hnd : L.ROOTDIR_NENTRIES ≠ L.DIR_NENTRIES)
    (hroot : L.ROOTDIR_OFF + L.ROOTDIR_SIZE ≤ L.BLOCKTBL_OFF)
    (htbl : L.BLOCKTBL_OFF + L.BLOCKTBL_SIZE ≤ L.DATA_OFF)
    (hEMPTY : L.BLOCKIDX_EMPTY < L.IDX_MOD)
    (hv : ∀ x ∈ cs ++ [c], validComp x)
    (hres : resolveFirst L d (cs ++ [c]) none = some p)
    (hempty : ∀ x ∈ readDir L d p.entry.first_block, x.filename.headD 0 = 0)
    (hchain : IsFullChain L (readTable L d) p.entry.first_block bs) :
    ∃ d', sfs_rmdir L d uninit (joinPath (cs ++ [c])) = some (0, d') ∧
      dirArray L d' p.block = (dirArray L d p.block).set p.slot
        { filename := clearName p.entry.filename, size := 0,
          first_block := L.BLOCKIDX_EMPTY } ∧
      ∀ j, (readTable L d')[j]? =
        if j ∈ bs then some L.BLOCKIDX_EMPTY else (readTable L d)[j]? := by
  have hget : get_entry L d (joinPath (cs ++ [c]))
      = some (Lookup.found p.entry (p.off L % 2 ^ 32)) := by
    rw [get_entry_joinPath L d hnd _ (by simp) hv, hres]
    rfl
  have hc : validComp c := hv c (by simp)
  have hcs : ∀ x ∈ cs, validComp x := fun x hx => hv x (by simp [hx])
  obtain ⟨h1, -⟩ := resolveFirst_last L d cs c p hres
  obtain ⟨hidx, hslot, -⟩ := (resolveFirst_single L d c p.block p).1 h1
  have hpar : parentBlock L d (fixParent (if cs = [] then [] else joinPath cs))
      = some p.block := by
    rw [lookupArr_joinPath L d cs hnd hcs, lookupArr_of_resolved L d cs c p hres]
  have hfind : findSlot (hasName c) (dirArray L d p.block) = some p.slot := by
    rw [findSlot_eq_findIdx?, hasName_eq c hc, hidx]
  have hany : (readDir L d p.entry.first_block).any (fun x => x.filename.headD 0 ≠ 0) = false := by
    rw [List.any_eq_false]
    intro x hx
    simpa using hempty x hx
  obtain ⟨e1, e2, e3, e4⟩ := removed_effects L d p.block p.slot p.entry bs _ hroot htbl hEMPTY
    hslot hchain
  refine ⟨_, ?_, ?_, e4⟩
  · simp only [sfs_rmdir, splitLast_joinPath cs c hv, hget, entryAfter, hany,
      Bool.false_eq_true, if_false]
    rw [removeEntry_eq L d _ c p.entry p.block p.slot bs hpar hfind hchain, e1]
  · rw [e2, e3]

/-- The case that refutes C20 as first stated: in `demoFull` the path `/g`
resolves to a regular file whose only block holds bytes 0; `sfs_rmdir` returns
0, clears the slot of `g` and sets the table cell of block 6 to EMPTY. -/
theorem sfs_rmdir_file_counterexample :
    get_entry demoLayout demoFull (joinPath [nameG])
      = some (Lookup.found { filename := [103, 0, 0, 0], size := 5, first_block := 6 } 22) ∧
    5 &&& demoLayout.DIRECTORY = 0 ∧
    readTable demoLayout demoFull = [1, 65534, 3, 65534, 5, 65534, 65534, 65535] ∧
    (sfs_rmdir demoLayout demoFull { filename := [], size := 0, first_block := 0 }
          (joinPath [nameG])).map
        (fun r => (r.1, (readRoot demoLayout r.2)[2]?, readTable demoLayout r.2))
      = some (0, some { filename := [0, 0, 0, 0], size := 0, first_block := 65535 },
          [1, 65534, 3, 65534, 5, 65534, 65535, 65535]) := by
  decide

/-- C20 (amended): `sfs_rmdir` does not test the DIRECTORY flag.  For a path
`/c1/.../cn` that resolves to an entry `p` without the flag (a regular file):
if the block `p.first_block` names, read as an entry array, has a slot with a
non-NUL first filename byte, it returns `-ENOTEMPTY` and the image is
unchanged; if it has none and the chain `bs` of `p` ends in END, it returns 0,
the slot of `p` is cleared and the table cells of `bs` are set to EMPTY, as for
an empty directory. -/
theorem sfs_rmdir_on_regular_file (L : Layout) (d : Disk) (uninit : Entry)
    (cs : List CStr) (c : CStr) (p : Place)
    (hnd : L.ROOTDIR_NENTRIES ≠ L.DIR_NENTRIES)
    (hroot : L.ROOTDIR_OFF + L.ROOTDIR_SIZE ≤ L.BLOCKTBL_OFF)
    (htbl : L.BLOCKTBL_OFF + L.BLOCKTBL_SIZE ≤ L.DATA_OFF)
    (hEMPTY : L.BLOCKIDX_EMPTY < L.IDX_MOD)
    (hv : ∀ x ∈ cs ++ [c], validComp x)
    (hres : resolveFirst L d (cs ++ [c]) none = some p)
    (hreg : p.entry.size &&& L.DIRECTORY = 0) :
    sfs_getattr L d (joinPath (cs ++ [c]))
      = some (0, { st_mode := S_IFREG ||| 0o644, st_nlink := 1,
                   st_size := p.entry.size &&& L.SIZEMASK }) ∧
    ((∃ x ∈ readDir L d p.entry.first_block, x.filename.headD 0 ≠ 0) →
      sfs_rmdir L d uninit (joinPath (cs ++ [c])) = some (-ENOTEMPTY, d)) ∧
    ((∀ x ∈ readDir L d p.entry.first_block, x.filename.headD 0 = 0) →
      ∀ bs, IsFullChain L (readTable L d) p.entry.first_block bs →
      ∃ d', sfs_rmdir L d uninit (joinPath (cs ++ [c])) = some (0, d') ∧
        dirArray L d' p.block = (dirArray L d p.block).set p.slot
          { filename := clearName p.entry.filename, size := 0,
            first_block := L.BLOCKIDX_EMPTY } ∧
        ∀ j, (readTable L d')[j]? =
          if j ∈ bs then some L.BLOCKIDX_EMPTY else (readTable L d)[j]?) := by
  have hget : get_entry L d (joinPath (cs ++ [c]))
      = some (Lookup.found p.entry (p.off L % 2 ^ 32)) := by
    rw [get_entry_joinPath L d hnd _ (by simp) hv, hres]
    rfl
  have hp := joinPath_ne_slash (cs ++ [c]) (by simp) hv
  refine ⟨?_, ?_, ?_⟩
  · simp only [sfs_getattr, hp, if_false, hget, hreg, ne_eq, not_true_eq_false]
  · rintro ⟨x, hx, hx2⟩
    have hany : (readDir L d p.entry.first_block).any (fun x => x.filename.headD 0 ≠ 0) = true := by
      rw [List.any_eq_true]
      exact ⟨x, hx, by simpa using hx2⟩
    simp only [sfs_rmdir, splitLast_joinPath cs c hv, hget, entryAfter, hany, if_true]
  · intro hempty bs hchain
    exact rmdir_core L d uninit cs c p bs hnd hroot htbl hEMPTY hv hres hempty hchain

theorem sfs_rmdir_on_regular_file_witness :
    sfs_rmdir demoLayout demoImage { filename := [], size := 0, first_block := 0 }
        (joinPath ([] ++ [nameF])) = some (-ENOTEMPTY, demoImage) ∧
    ∃ d', sfs_rmdir demoLayout demoFull { filename := [], size := 0, first_block := 0 }
        (joinPath ([] ++ [nameG])) = some (0, d') ∧
      dirArray demoLayout d' none = (dirArray demoLayout demoFull none).set 2
        { filename := clearName [103, 0, 0, 0], size := 0, first_block := 65535 } :=
  ⟨(sfs_rmdir_on_regular_file demoLayout demoImage _ [] nameF
      { block := none, slot := 1,
        entry := { filename := [102, 0, 0, 0], size := 25, first_block := 4 } }
      (by decide) (by decide) (by decide) (by decide) (by decide) (by decide) (by decide)).2.1
      (by decide),
   by
    obtain ⟨d', h1, h2, -⟩ := (sfs_rmdir_on_regular_file demoLayout demoFull
      { filename := [], size := 0, first_block := 0 } [] nameG
      { block := none, slot := 2,
        entry := { filename := [103, 0, 0, 0], size := 5, first_block := 6 } }
      (by decide) (by decide) (by decide) (by decide) (by decide) (by decide) (by decide)).2.2
      (by decide) [6] (by decide)
    exact ⟨d', h1, h2⟩⟩

/-! ### sfs_mkdir followed by sfs_rmdir -/

/-- The image a successful `sfs_mkdir` leaves, in the terms the round trip
needs: how the new path resolves, every entry array, and the block table. -/
theorem mkdir_core (L : Layout) (d stack : Disk) (cs : List CStr) (c : CStr)
    (blk0 : Option Nat) (k0 : Nat) (e0 : Entry) (i : Nat)
    (hnd : L.ROOTDIR_NENTRIES ≠ L.DIR_NENTRIES)
    (hroot : L.ROOTDIR_OFF + L.ROOTDIR_SIZE ≤ L.BLOCKTBL_OFF)
    (htbl : L.BLOCKTBL_OFF + L.BLOCKTBL_SIZE ≤ L.DATA_OFF)
    (hDS : L.DIR_SIZE ≤ L.BLOCK_SIZE)
    (hN : L.BLOCKTBL_NENTRIES ≤ L.IDX_MOD)
    (hv : ∀ x ∈ cs ++ [c], validComp x)
    (hname : strlen c < L.FILENAME_MAX)
    (hnot : resolveFirst L d (cs ++ [c]) none = none)
    (hpar : lookupArr L d cs = some blk0)
    (huse : InUseAlong L d cs)
    (hslot : (dirArray L d blk0)[k0]? = some e0)
    (hempty : cstr e0.filename = [])
    (hmin : ∀ e ∈ (dirArray L d blk0).take k0, cstr e.filename ≠ [])
    (hi : i + 1 < L.BLOCKTBL_NENTRIES)
    (hfree : (readTable L d)[i]? = some L.BLOCKIDX_EMPTY ∧
      (readTable L d)[i + 1]? = some L.BLOCKIDX_EMPTY)
    (hlow : ∀ j, j < i → ¬ ((readTable L d)[j]? = some L.BLOCKIDX_EMPTY ∧
      (readTable L d)[j + 1]? = some L.BLOCKIDX_EMPTY)) :
    ∃ d', sfs_mkdir L d stack (joinPath (cs ++ [c])) = some (0, d') ∧
      resolveFirst L d' (cs ++ [c]) none
        = some { block := blk0, slot := k0, entry := mkdirSlot L i c e0 } ∧
      blk0 ≠ some i ∧
      dirArray L d' blk0 = (dirArray L d blk0).set k0 (mkdirSlot L i c e0) ∧
      dirArray L d' (some i) = newEntries L stack ∧
      readTable L d'
        = ((readTable L d).set i (i + 1)).set (i + 1) (L.BLOCKIDX_END % L.IDX_MOD) := by
  have hc : validComp c := hv c (by simp)
  have hcs : ∀ x ∈ cs, validComp x := fun x hx => hv x (by simp [hx])
  have halloc := mkdirAlloc_pair L d i hN hi hfree hlow
  set t2 := ((readTable L d).set i (i + 1)).set (i + 1) (L.BLOCKIDX_END % L.IDX_MOD) with ht2
  have hlen2 : t2.length = L.BLOCKTBL_NENTRIES := by simp [ht2, length_readTable]
  have hlt2 : ∀ x ∈ t2, x < L.IDX_MOD := by
    intro x hx
    rcases List.mem_or_eq_of_mem_set hx with hx | rfl
    · rcases List.mem_or_eq_of_mem_set hx with hx | rfl
      · exact readTable_lt L d x hx
      · omega
    · exact Nat.mod_lt _ (IDX_MOD_pos L)
  have harr1 : ∀ blk, dirArray L (writeTable L d t2) blk = dirArray L d blk :=
    fun blk => dirArray_writeTable L d t2 blk hroot htbl hlen2
  have hfst : (mkdirAlloc L d).1 = i := by rw [halloc]
  have hsnd : (mkdirAlloc L d).2 = writeTable L d t2 := by rw [halloc]
  have hwf0 : e0.WF L := dirArray_WF L d blk0 e0 (List.getElem?_mem hslot)
  have hwf : (mkdirSlot L i c e0).WF L := mkdirSlot_WF L i c e0 hwf0 hname (by omega)
  have hfind : findSlot isEmptySlot (dirArray L d blk0) = some k0 :=
    findSlot_eq_some _ _ k0 e0 hslot ((isEmptySlot_iff e0).2 hempty) (by
      intro e he
      have := hmin e he
      cases hb : isEmptySlot e with
      | false => rfl
      | true => exact absurd ((isEmptySlot_iff e).1 hb) this)
  have hslot1 : (dirArray L (writeTable L d t2) blk0)[k0]? = some e0 := by rw [harr1]; exact hslot
  obtain ⟨hw1, -, hw3⟩ := write_slot_effects L (writeTable L d t2) blk0 k0 (mkdirSlot L i c) e0
    hslot1 hwf
  rw [harr1] at hw1
  have hk := (getElem?_dirArray L d blk0 k0 e0 hslot).1
  set d2 := disk_write (writeTable L d t2) (encodeEntry L (mkdirSlot L i c e0))
    (dirOff L blk0 + k0 * L.ENTRY_SIZE) with hd2
  set d' := writeDir L d2 i (newEntries L stack) with hd'
  have hok : sfs_mkdir L d stack (joinPath (cs ++ [c])) = some (0, d') := by
    rw [sfs_mkdir_ok_iff L d stack _ d' hroot htbl]
    refine ⟨_, c, blk0, k0, splitLast_joinPath cs c hv, hname, by omega, ?_, hfind, ?_⟩
    · rw [lookupArr_joinPath L _ cs hnd hcs, hsnd, lookupArr_congr_arrays L d _ harr1, hpar]
    · rw [hfst, hsnd, hw1]
  have hblk0 : blk0 ≠ some i :=
    lookupArr_visited_ne L d cs i huse hfree.1 cs (List.prefix_refl cs) blk0 hpar
  have harr2 : ∀ blk, blk ≠ some i → dirArray L d' blk =
      if blk = blk0 then (dirArray L d blk0).set k0 (mkdirSlot L i c e0)
      else dirArray L d blk := by
    intro blk hb
    rw [hd', dirArray_writeDir_other L d2 i _ blk hroot htbl hDS (length_newEntries L stack)
      (newEntries_WF L stack) hb, hd2,
      dirArray_slot_write L _ blk0 k0 _ hroot htbl hDS hk hwf blk, harr1, harr1]
  have hnew : dirArray L d' (some i) = newEntries L stack :=
    dirArray_writeDir_self L d2 i _ (length_newEntries L stack) (newEntries_WF L stack)
  have hnm : cstr (mkdirSlot L i c e0).filename = c := by
    simp only [mkdirSlot, cstr_strcpy, cstr_comp hc]
  obtain ⟨-, -, hres', -⟩ := resolve_after_fill L d d' cs c blk0 k0 e0 (mkdirSlot L i c e0) hv
    hpar hnot hslot hempty hnm (by
      rintro blk ⟨pre, hpre, hl⟩
      exact harr2 blk (lookupArr_visited_ne L d cs i huse hfree.1 pre hpre blk hl))
  refine ⟨d', hok, hres', hblk0, ?_, hnew, ?_⟩
  · rw [harr2 blk0 hblk0, if_pos rfl]
  · rw [hd', readTable_writeDir L d2 i _ htbl,
      readTable_slot_frame L (writeTable L d t2) d2 blk0 k0 hroot htbl hk hw3,
      readTable_writeTable L d t2 hlen2 hlt2]

/-- C11: for a path `/c1/.../cn` that does not resolve, with `cn` shorter than
FILENAME_MAX, whose parent's array (the root array, or the block the parent
resolves to) has an empty slot, the blocks named along the path being in use
and two adjacent table cells being EMPTY: `sfs_mkdir` returns 0, the following
`sfs_rmdir` returns 0, the block table is then equal to the one before
`sfs_mkdir`, and the parent's array is the one before `sfs_mkdir` except that
slot `k0`, empty before, filled by `sfs_mkdir`, is empty again. -/
theorem sfs_mkdir_rmdir_round_trip (L : Layout) (d stack : Disk) (uninit : Entry)
    (cs : List CStr) (c : CStr) (blk0 : Option Nat)
    (hnd : L.ROOTDIR_NENTRIES ≠ L.DIR_NENTRIES)
    (hroot : L.ROOTDIR_OFF + L.ROOTDIR_SIZE ≤ L.BLOCKTBL_OFF)
    (htbl : L.BLOCKTBL_OFF + L.BLOCKTBL_SIZE ≤ L.DATA_OFF)
    (hDS : L.DIR_SIZE ≤ L.BLOCK_SIZE)
    (hN : L.BLOCKTBL_NENTRIES ≤ L.IDX_MOD)
    (hEMPTY : L.BLOCKIDX_EMPTY < L.IDX_MOD)
    (hEND : L.BLOCKIDX_END < L.IDX_MOD)
    (hENDN : L.BLOCKTBL_NENTRIES ≤ L.BLOCKIDX_END)
    (hv : ∀ x ∈ cs ++ [c], validComp x)
    (hname : strlen c < L.FILENAME_MAX)
    (hnot : get_entry L d (joinPath (cs ++ [c])) = some (Lookup.err (-1)))
    (hpar : parentBlock L d (fixParent (if cs = [] then [] else joinPath cs)) = some blk0)
    (huse : InUseAlong L d cs)
    (hslotE : ∃ e ∈ dirArray L d blk0, cstr e.filename = [])
    (hpair : ∃ i, i + 1 < L.BLOCKTBL_NENTRIES ∧
      (readTable L d)[i]? = some L.BLOCKIDX_EMPTY ∧
      (readTable L d)[i + 1]? = some L.BLOCKIDX_EMPTY) :
    ∃ d1 d2 k0 e0 e1, sfs_mkdir L d stack (joinPath (cs ++ [c])) = some (0, d1) ∧
      sfs_rmdir L d1 uninit (joinPath (cs ++ [c])) = some (0, d2) ∧
      readTable L d2 = readTable L d ∧
      (dirArray L d blk0)[k0]? = some e0 ∧ cstr e0.filename = [] ∧
      (dirArray L d1 blk0)[k0]? = some e1 ∧ cstr e1.filename = c ∧
      ∃ e2, dirArray L d2 blk0 = (dirArray L d blk0).set k0 e2 ∧ cstr e2.filename = [] := by
  have hc : validComp c := hv c (by simp)
  have hcs : ∀ x ∈ cs, validComp x := fun x hx => hv x (by simp [hx])
  have hnot' : resolveFirst L d (cs ++ [c]) none = none := by
    rw [get_entry_joinPath L d hnd _ (by simp) hv] at hnot
    cases hr : resolveFirst L d (cs ++ [c]) none with
    | none => rfl
    | some p => simp [hr, toLookup] at hnot
  rw [lookupArr_joinPath L d cs hnd hcs] at hpar
  -- the lowest empty slot of the parent
  obtain ⟨k0, hfind⟩ : ∃ k0, findSlot isEmptySlot (dirArray L d blk0) = some k0 := by
    cases hf : findSlot isEmptySlot (dirArray L d blk0) with
    | some k => exact ⟨k, rfl⟩
    | none =>
      obtain ⟨e, he, hee⟩ := hslotE
      have := findSlot_none_spec _ _ hf e he
      rw [(isEmptySlot_iff e).2 hee] at this
      exact absurd this (by simp)
  obtain ⟨⟨e0, hslot, he0⟩, hmin0⟩ := findSlot_some_spec _ _ _ hfind
  have hempty : cstr e0.filename = [] := (isEmptySlot_iff e0).1 he0
  have hmin : ∀ e ∈ (dirArray L d blk0).take k0, cstr e.filename ≠ [] := by
    intro e he hee
    have := hmin0 e he
    rw [(isEmptySlot_iff e).2 hee] at this
    exact absurd this (by simp)
  -- the lowest free pair
  have hex : ∃ i, i + 1 < L.BLOCKTBL_NENTRIES ∧
      ((readTable L d)[i]? = some L.BLOCKIDX_EMPTY ∧
        (readTable L d)[i + 1]? = some L.BLOCKIDX_EMPTY) := by
    obtain ⟨i, h1, h2, h3⟩ := hpair
    exact ⟨i, h1, h2, h3⟩
  classical
  obtain ⟨hi, hfree⟩ := Nat.find_spec hex
  have hlow : ∀ j, j < Nat.find hex → ¬ ((readTable L d)[j]? = some L.BLOCKIDX_EMPTY ∧
      (readTable L d)[j + 1]? = some L.BLOCKIDX_EMPTY) := by
    intro j hj hh
    exact Nat.find_min hex hj ⟨by omega, hh⟩
  generalize Nat.find hex = i at hi hfree hlow
  obtain ⟨d1, hok, hres1, hblk0, harr0, hnew, htab1⟩ := mkdir_core L d stack cs c blk0 k0 e0 i
    hnd hroot htbl hDS hN hv hname hnot' hpar huse hslot hempty hmin hi hfree hlow
  -- the chain of the new directory
  have hlenT : (readTable L d).length = L.BLOCKTBL_NENTRIES := length_readTable L d
  have hchain : IsFullChain L (readTable L d1) i [i, i + 1] := by
    rw [htab1]
    have hg1 : (((readTable L d).set i (i + 1)).set (i + 1)
        (L.BLOCKIDX_END % L.IDX_MOD)).getD i 0 = i + 1 := by
      rw [List.getD_eq_getElem?_getD, List.getElem?_set_ne (by omega),
        List.getElem?_set_self (by omega)]
      rfl
    have hg2 : (((readTable L d).set i (i + 1)).set (i + 1)
        (L.BLOCKIDX_END % L.IDX_MOD)).getD (i + 1) 0 = L.BLOCKIDX_END := by
      rw [List.getD_eq_getElem?_getD, List.getElem?_set_self (by simp [hlenT]; omega)]
      exact Nat.mod_eq_of_lt hEND
    refine ⟨rfl, by omega, by rw [List.length_set, List.length_set, hlenT]; omega, ?_⟩
    rw [hg1]
    refine ⟨rfl, by omega, by rw [List.length_set, List.length_set, hlenT]; omega, ?_⟩
    rw [hg2]
    rfl
  have hempty1 : ∀ x ∈ readDir L d1 i, x.filename.headD 0 = 0 := by
    intro x hx
    have hx' : x ∈ dirArray L d1 (some i) := hx
    rw [hnew] at hx'
    exact (newEntries_spec L stack hEMPTY x hx').1
  obtain ⟨d2, hrm, harr2, htab2⟩ := rmdir_core L d1 uninit cs c
    { block := blk0, slot := k0, entry := mkdirSlot L i c e0 } [i, i + 1]
    hnd hroot htbl hEMPTY hv hres1 hempty1 hchain
  have hk := (getElem?_dirArray L d blk0 k0 e0 hslot).1
  have hk' : k0 < (dirArray L d blk0).length := by rw [length_dirArray]; exact hk
  refine ⟨d1, d2, k0, e0, mkdirSlot L i c e0, hok, hrm, ?_, hslot, hempty, ?_, ?_,
    Entry.mk (clearName (mkdirSlot L i c e0).filename) 0 L.BLOCKIDX_EMPTY, ?_, ?_⟩
  · apply List.ext_getElem?
    intro j
    rw [htab2 j, htab1]
    by_cases hj : j = i
    · subst hj
      simp [hfree.1]
    · by_cases hj2 : j = i + 1
      · subst hj2
        simp [hfree.2]
      · have : j ∉ [i, i + 1] := by simp [hj, hj2]
        rw [if_neg this, List.getElem?_set_ne (fun h => hj2 h.symm),
          List.getElem?_set_ne (fun h => hj h.symm)]
  · rw [harr0, List.getElem?_set_self hk']
  · simp only [mkdirSlot, cstr_strcpy, cstr_comp hc]
  · rw [harr2, harr0, List.set_set]
  · exact cstr_clearName _

theorem sfs_mkdir_rmdir_round_trip_witness :
    ∃ d1 d2, sfs_mkdir demoLayout demoImage (fun _ => 9) (joinPath ([nameA] ++ [nameX]))
        = some (0, d1) ∧
      sfs_rmdir demoLayout d1 { filename := [], size := 0, first_block := 0 }
        (joinPath ([nameA] ++ [nameX])) = some (0, d2) ∧
      readTable demoLayout d2 = readTable demoLayout demoImage := by
  obtain ⟨d1, d2, -, -, -, h1, h2, h3, -⟩ := sfs_mkdir_rmdir_round_trip demoLayout demoImage
    (fun _ => 9) { filename := [], size := 0, first_block := 0 } [nameA] nameX (some 0)
    (by decide) (by decide) (by decide) (by decide) (by decide) (by decide) (by decide)
    (by decide) (by decide) (by decide) (by decide) (by decide) (by decide) (by decide)
    ⟨6, by decide, by decide, by decide⟩
  exact ⟨d1, d2, h1, h2, h3⟩

/-! ### sfs_create followed by sfs_unlink -/

/-- The case that refutes C12 as first stated: from the fresh image, after
`mkdir /a` the table holds the chain 0, 1 of `/a`; `create /a` then returns 0
(a second slot named `a`), `unlink /a` returns 0, removes the first slot named
`a`, the directory, and sets both cells to EMPTY. -/
theorem sfs_create_unlink_counterexample :
    Fresh demoLayout demoFresh ∧
    (runOps demoLayout demoFresh [Op.mkdir (joinPath [nameA]) (fun _ => 9)]).map
        (readTable demoLayout)
      = some [1, 65534, 65535, 65535, 65535, 65535, 65535, 65535] ∧
    runCodes demoLayout demoFresh
        [Op.mkdir (joinPath [nameA]) (fun _ => 9), Op.create (joinPath [nameA]),
         Op.unlink (joinPath [nameA]) { filename := [], size := 0, first_block := 0 }]
      = some [0, 0, 0] ∧
    (runOps demoLayout demoFresh
        [Op.mkdir (joinPath [nameA]) (fun _ => 9), Op.create (joinPath [nameA]),
         Op.unlink (joinPath [nameA]) { filename := [], size := 0, first_block := 0 }]).map
        (readTable demoLayout)
      = some [65535, 65535, 65535, 65535, 65535, 65535, 65535, 65535] := by
  decide

/-- C12 (amended): in every image, so in every state reached from a freshly
formatted one, for a path `/c1/.../cn` that does not resolve: if `sfs_create`
returns 0 on it, the following `sfs_unlink` returns 0 and the block table is
then equal to the one before `sfs_create`. -/
theorem sfs_create_unlink_round_trip (L : Layout) (d : Disk) (uninit : Entry)
    (cs : List CStr) (c : CStr) (d1 : Disk)
    (hnd : L.ROOTDIR_NENTRIES ≠ L.DIR_NENTRIES)
    (hroot : L.ROOTDIR_OFF + L.ROOTDIR_SIZE ≤ L.BLOCKTBL_OFF)
    (htbl : L.BLOCKTBL_OFF + L.BLOCKTBL_SIZE ≤ L.DATA_OFF)
    (hDS : L.DIR_SIZE ≤ L.BLOCK_SIZE)
    (hEMPTY : L.BLOCKIDX_EMPTY < L.IDX_MOD)
    (hEND : L.BLOCKIDX_END < L.IDX_MOD)
    (hv : ∀ x ∈ cs ++ [c], validComp x)
    (hnot : get_entry L d (joinPath (cs ++ [c])) = some (Lookup.err (-1)))
    (hcreate : sfs_create L d (joinPath (cs ++ [c])) = some (0, d1)) :
    readTable L d1 = readTable L d ∧
    ∃ d2, sfs_unlink L d1 uninit (joinPath (cs ++ [c])) = some (0, d2) ∧
      readTable L d2 = readTable L d := by
  have hc : validComp c := hv c (by simp)
  have hcs : ∀ x ∈ cs, validComp x := fun x hx => hv x (by simp [hx])
  have hnot' : resolveFirst L d (cs ++ [c]) none = none := by
    rw [get_entry_joinPath L d hnd _ (by simp) hv] at hnot
    cases hr : resolveFirst L d (cs ++ [c]) none with
    | none => rfl
    | some p => simp [hr, toLookup] at hnot
  obtain ⟨parent, file, blk0, k0, hs, hn, hpar, hf, hd1⟩ := sfs_create_ok_inv L d _ d1 hcreate
  rw [splitLast_joinPath cs c hv] at hs
  simp only [Option.some.injEq, Prod.mk.injEq] at hs
  obtain ⟨rfl, rfl⟩ := hs
  rw [lookupArr_joinPath L d cs hnd hcs] at hpar
  obtain ⟨⟨e0, hslot, he0⟩, -⟩ := findSlot_some_spec _ _ _ hf
  have he0 : cstr e0.filename = [] := (isEmptySlot_iff e0).1 he0
  have hwf0 : e0.WF L := dirArray_WF L d blk0 e0 (List.getElem?_mem hslot)
  have hwf : (createSlot L c e0).WF L := createSlot_WF L c e0 hwf0 hn
  obtain ⟨hw1, -, hw3⟩ := write_slot_effects L d blk0 k0 (createSlot L c) e0 hslot hwf
  rw [hw1] at hd1
  have hk := (getElem?_dirArray L d blk0 k0 e0 hslot).1
  have htab1 : readTable L d1 = readTable L d := by
    rw [hd1]
    exact readTable_slot_frame L d _ blk0 k0 hroot htbl hk hw3
  have harr : ∀ blk, dirArray L d1 blk =
      if blk = blk0 then (dirArray L d blk0).set k0 (createSlot L c e0)
      else dirArray L d blk := by
    intro blk
    rw [hd1, dirArray_slot_write L d blk0 k0 _ hroot htbl hDS hk hwf blk]
  have hnew : cstr (createSlot L c e0).filename = c := by
    simp only [createSlot, cstr_strcpy, cstr_comp hc]
  obtain ⟨-, hsafe1, hres1, huniq1⟩ := resolve_after_fill L d d1 cs c blk0 k0 e0
    (createSlot L c e0) hv hpar hnot' hslot he0 hnew (fun blk _ => harr blk)
  have hchain : IsFullChain L (readTable L d1)
      (Place.mk blk0 k0 (createSlot L c e0)).entry.first_block [] := by
    simp only [IsFullChain, createSlot, Nat.mod_eq_of_lt hEND]
  obtain ⟨d2, h1, -, -, h4, -⟩ := unlink_core L d1 uninit cs c
    { block := blk0, slot := k0, entry := createSlot L c e0 } [] hnd hroot htbl hDS hEMPTY
    hv hres1 hsafe1 huniq1 hchain
  refine ⟨htab1, d2, h1, ?_⟩
  apply List.ext_getElem?
  intro j
  rw [h4 j, htab1]
  simp

theorem sfs_create_unlink_round_trip_witness :
    ∃ d1 d2, sfs_create demoLayout demoImage (joinPath ([nameA] ++ [nameX])) = some (0, d1) ∧
      sfs_unlink demoLayout d1 { filename := [], size := 0, first_block := 0 }
        (joinPath ([nameA] ++ [nameX])) = some (0, d2) ∧
      readTable demoLayout d2 = readTable demoLayout demoImage := by
  obtain ⟨-, d2, h1, h2⟩ := sfs_create_unlink_round_trip demoLayout demoImage
    { filename := [], size := 0, first_block := 0 } [nameA] nameX
    (disk_write demoImage (encodeEntries demoLayout ((dirArray demoLayout demoImage
      (some 0)).modify (createSlot demoLayout nameX) 1)) (dirOff demoLayout (some 0)))
    (by decide) (by decide) (by decide) (by decide) (by decide) (by decide) (by decide)
    (by decide) rfl
  exact ⟨_, d2, rfl, h1, h2⟩

/-! ### Uniqueness of names along a sequence of calls -/

theorem uniqueNames_iff (es : List Entry) :
    UniqueNames es ↔ ∀ (i j : Nat) (a b : Entry), i ≠ j → es[i]? = some a → es[j]? = some b →
      cstr a.filename ≠ [] → cstr a.filename ≠ cstr b.filename := by
  unfold UniqueNames
  rw [List.pairwise_iff_getElem]
  constructor
  · intro h i j a b hij ha hb hne
    obtain ⟨hi, rfl⟩ := List.getElem?_eq_some.1 ha
    obtain ⟨hj, rfl⟩ := List.getElem?_eq_some.1 hb
    rcases Nat.lt_or_gt_of_ne hij with hlt | hgt
    · exact h i j hi hj hlt hne
    · intro heq
      exact h j i hj hi hgt (by rw [← heq]; exact hne) heq.symm
  · intro h i j hi hj hij hne
    exact h i j _ _ (Nat.ne_of_lt hij) (List.getElem?_eq_getElem hi)
      (List.getElem?_eq_getElem hj) hne

theorem uniqueNames_of_empty (es : List Entry) (h : ∀ e ∈ es, cstr e.filename = []) :
    UniqueNames es := by
  rw [uniqueNames_iff]
  intro i j a b _ ha _ hne
  exact absurd (h a (List.getElem?_mem ha)) hne

theorem getElem?_set_cases {α : Type} (l : List α) (k i : Nat) (x a : α)
    (h : (l.set k x)[i]? = some a) : (i = k ∧ a = x) ∨ (i ≠ k ∧ l[i]? = some a) := by
  by_cases hik : k = i
  · subst hik
    rw [List.getElem?_set] at h
    simp only [if_true] at h
    split at h
    · left
      exact ⟨rfl, (Option.some.inj h).symm⟩
    · simp at h
  · right
    rw [List.getElem?_set_ne hik] at h
    exact ⟨fun hh => hik hh.symm, h⟩

theorem uniqueNames_set (es : List Entry) (k : Nat) (enew : Entry) (hu : UniqueNames es)
    (hnew : cstr enew.filename = [] ∨ ∀ e ∈ es, cstr e.filename ≠ cstr enew.filename) :
    UniqueNames (es.set k enew) := by
  rw [uniqueNames_iff] at hu ⊢
  intro i j a b hij ha hb hne
  rcases getElem?_set_cases es k i enew a ha with ⟨rfl, rfl⟩ | ⟨hik, ha'⟩
  · rcases getElem?_set_cases es i j a b hb with ⟨rfl, -⟩ | ⟨-, hb'⟩
    · exact absurd rfl hij
    · rcases hnew with h0 | hall
      · exact absurd h0 hne
      · exact fun heq => hall b (List.getElem?_mem hb') heq.symm
  · rcases getElem?_set_cases es k j enew b hb with ⟨rfl, rfl⟩ | ⟨-, hb'⟩
    · rcases hnew with h0 | hall
      · rw [h0]
        exact hne
      · exact hall a (List.getElem?_mem ha')
    · exact hu i j a b hij ha' hb' hne

theorem uniqInv_same (L : Layout) (d d' : Disk)
    (harr : ∀ blk, dirArray L d' blk = dirArray L d blk) (h : UniqInv L d) : UniqInv L d' := by
  obtain ⟨S, h0, hS⟩ := h
  refine ⟨S, h0, fun blk hb => ?_⟩
  rw [harr blk]
  exact hS blk hb

/-- One slot replaced by an entry that is empty, or that is not a directory and
carries a name the array does not hold. -/
theorem uniqInv_set (L : Layout) (d d' : Disk) (blk0 : Option Nat) (k : Nat) (enew : Entry)
    (harr : ∀ blk, dirArray L d' blk =
      if blk = blk0 then (dirArray L d blk0).set k enew else dirArray L d blk)
    (hnew : cstr enew.filename = [] ∨ (enew.size &&& L.DIRECTORY = 0 ∧
      ∀ e ∈ dirArray L d blk0, cstr e.filename ≠ cstr enew.filename))
    (h : UniqInv L d) : UniqInv L d' := by
  obtain ⟨S, h0, hS⟩ := h
  refine ⟨S, h0, fun blk hb => ?_⟩
  rw [harr blk]
  by_cases hblk : blk = blk0
  · subst hblk
    rw [if_pos rfl]
    refine ⟨uniqueNames_set _ k enew (hS blk hb).1 ?_, ?_⟩
    · rcases hnew with h1 | h2
      · exact Or.inl h1
      · exact Or.inr h2.2
    · intro k' e he hne hflag
      rcases getElem?_set_cases _ k k' enew e he with ⟨-, rfl⟩ | ⟨-, he'⟩
      · rcases hnew with h1 | h2
        · exact absurd h1 hne
        · exact absurd h2.1 hflag
      · exact (hS blk hb).2 k' e he' hne hflag
  · rw [if_neg hblk]
    exact hS blk hb

/-- The effect of a successful `sfs_mkdir` on the arrays: one slot gets a name
the array does not hold, and the array the new entry names is all empty. -/
theorem uniqInv_mkdir (L : Layout) (d d' : Disk) (blk0 : Option Nat) (k f : Nat)
    (enew : Entry)
    (harr : ∀ blk, blk ≠ some f → dirArray L d' blk =
      if blk = blk0 then (dirArray L d blk0).set k enew else dirArray L d blk)
    (hnewarr : ∀ e ∈ dirArray L d' (some f), cstr e.filename = [])
    (hfb : enew.first_block = f)
    (hall : ∀ e ∈ dirArray L d blk0, cstr e.filename ≠ cstr enew.filename)
    (h : UniqInv L d) : UniqInv L d' := by
  obtain ⟨S, h0, hS⟩ := h
  refine ⟨fun blk => S blk ∨ blk = some f, Or.inl h0, fun blk hb => ?_⟩
  by_cases hf : blk = some f
  · subst hf
    refine ⟨uniqueNames_of_empty _ hnewarr, ?_⟩
    intro k' e he hne _
    exact absurd (hnewarr e (List.getElem?_mem he)) hne
  · have hb' : S blk := by
      rcases hb with hb | hb
      · exact hb
      · exact absurd hb hf
    rw [harr blk hf]
    by_cases hblk : blk = blk0
    · subst hblk
      rw [if_pos rfl]
      refine ⟨uniqueNames_set _ k enew (hS blk hb').1 (Or.inr hall), ?_⟩
      intro k' e he hne hflag
      rcases getElem?_set_cases _ k k' enew e he with ⟨-, rfl⟩ | ⟨-, he'⟩
      · right
        rw [hfb]
      · exact Or.inl ((hS blk hb').2 k' e he' hne hflag)
    · rw [if_neg hblk]
      refine ⟨(hS blk hb').1, ?_⟩
      intro k' e he hne hflag
      exact Or.inl ((hS blk hb').2 k' e he hne hflag)

theorem uniqInv_fresh (L : Layout) (d : Disk) (h : Fresh L d) : UniqInv L d := by
  refine ⟨fun blk => blk = none, rfl, fun blk hb => ?_⟩
  subst hb
  refine ⟨uniqueNames_of_empty _ h.1, ?_⟩
  intro k e he hne _
  exact absurd (h.1 e (List.getElem?_mem he)) hne

theorem uniqueness_of_uniqInv (L : Layout) (d : Disk) (h : UniqInv L d) : Uniqueness L d := by
  obtain ⟨S, h0, hS⟩ := h
  have hlive : ∀ blk, LiveArr L d blk → S blk := by
    intro blk hl
    induction hl with
    | root => exact h0
    | sub blk k e _ he hne hflag ih => exact (hS blk ih).2 k e he hne hflag
  exact fun blk hl => (hS blk (hlive blk hl)).1

theorem length_freeChain (L : Layout) :
    ∀ (fuel : Nat) (t : List Nat) (b : Nat) (t' : List Nat),
      freeChain L fuel t b = some t' → t'.length = t.length := by
  intro fuel
  induction fuel with
  | zero => intro t b t' h; simp [freeChain] at h
  | succ fuel ih =>
    intro t b t' h
    simp only [freeChain] at h
    split at h
    · simp only [Option.some.injEq] at h
      rw [h]
    · cases hb : t[b]? with
      | none => simp [hb] at h
      | some next =>
        simp only [hb] at h
        rw [ih _ _ _ h, List.length_set]

theorem dirArray_releaseChain (L : Layout) (t : List Nat) (fb : Nat) (d2 : Disk)
    (code : Int) (d' : Disk)
    (hroot : L.ROOTDIR_OFF + L.ROOTDIR_SIZE ≤ L.BLOCKTBL_OFF)
    (htbl : L.BLOCKTBL_OFF + L.BLOCKTBL_SIZE ≤ L.DATA_OFF)
    (ht : t.length = L.BLOCKTBL_NENTRIES)
    (h : releaseChain L t fb d2 = some (code, d')) :
    ∀ blk, dirArray L d' blk = dirArray L d2 blk := by
  intro blk
  simp only [releaseChain] at h
  cases hf : freeChain L (L.BLOCKTBL_NENTRIES + 2) t fb with
  | none => simp [hf] at h
  | some t' =>
    simp only [hf, Option.some.injEq, Prod.mk.injEq] at h
    rw [← h.2]
    exact dirArray_writeTable L d2 t' blk hroot htbl (by rw [length_freeChain L _ _ _ _ hf, ht])

/-- The arrays after one slot of one array has been rewritten. -/
theorem dirArray_modify_write (L : Layout) (d : Disk) (blk0 : Option Nat) (k : Nat)
    (f : Entry → Entry) (e0 : Entry)
    (hroot : L.ROOTDIR_OFF + L.ROOTDIR_SIZE ≤ L.BLOCKTBL_OFF)
    (htbl : L.BLOCKTBL_OFF + L.BLOCKTBL_SIZE ≤ L.DATA_OFF)
    (hDS : L.DIR_SIZE ≤ L.BLOCK_SIZE)
    (hslot : (dirArray L d blk0)[k]? = some e0) (hf : (f e0).WF L) (blk : Option Nat) :
    dirArray L (disk_write d (encodeEntries L ((dirArray L d blk0).modify f k))
        (dirOff L blk0)) blk
      = if blk = blk0 then (dirArray L d blk0).set k (f e0) else dirArray L d blk := by
  obtain ⟨hw1, -, -⟩ := write_slot_effects L d blk0 k f e0 hslot hf
  rw [hw1]
  exact dirArray_slot_write L d blk0 k _ hroot htbl hDS
    (getElem?_dirArray L d blk0 k e0 hslot).1 hf blk

/-- What `sfs_rmdir` and `sfs_unlink` can do to the entry arrays, whatever the
path: nothing, or clear one slot. -/
theorem removeEntry_arrays (L : Layout) (d : Disk) (pp name : CStr) (target : Entry)
    (code : Int) (d' : Disk)
    (hroot : L.ROOTDIR_OFF + L.ROOTDIR_SIZE ≤ L.BLOCKTBL_OFF)
    (htbl : L.BLOCKTBL_OFF + L.BLOCKTBL_SIZE ≤ L.DATA_OFF)
    (hDS : L.DIR_SIZE ≤ L.BLOCK_SIZE)
    (h : removeEntry L d pp name target = some (code, d')) :
    (∀ blk, dirArray L d' blk = dirArray L d blk) ∨
    ∃ blk0 k e0, (dirArray L d blk0)[k]? = some e0 ∧
      ∀ blk, dirArray L d' blk =
        if blk = blk0 then (dirArray L d blk0).set k (clearedSlot L e0) else dirArray L d blk := by
  have hcase : ∀ (blk0 : Option Nat),
      (match findSlot (hasName name) (dirArray L d blk0) with
        | some i => releaseChain L (readTable L d) target.first_block
            (disk_write d (encodeEntries L ((dirArray L d blk0).modify (clearedSlot L) i))
              (dirOff L blk0))
        | none => releaseChain L (readTable L d) target.first_block d) = some (code, d') →
      (∀ blk, dirArray L d' blk = dirArray L d blk) ∨
      ∃ blk0 k e0, (dirArray L d blk0)[k]? = some e0 ∧
        ∀ blk, dirArray L d' blk =
          if blk = blk0 then (dirArray L d blk0).set k (clearedSlot L e0)
          else dirArray L d blk := by
    intro blk0 h
    cases hf : findSlot (hasName name) (dirArray L d blk0) with
    | none =>
      simp only [hf] at h
      exact Or.inl (dirArray_releaseChain L _ _ _ _ _ hroot htbl (length_readTable L d) h)
    | some i =>
      simp only [hf] at h
      obtain ⟨⟨e0, hslot, -⟩, -⟩ := findSlot_some_spec _ _ _ hf
      right
      refine ⟨blk0, i, e0, hslot, fun blk => ?_⟩
      rw [dirArray_releaseChain L _ _ _ _ _ hroot htbl (length_readTable L d) h blk]
      exact dirArray_modify_write L d blk0 i _ e0 hroot htbl hDS hslot
        (clearedSlot_WF L e0 (dirArray_WF L d blk0 e0 (List.getElem?_mem hslot))) blk
  simp only [removeEntry] at h
  by_cases hp : cstr pp = [SLASH]
  · simp only [hp, if_true] at h
    exact hcase none h
  · simp only [hp, if_false] at h
    cases hg : get_entry L d pp with
    | none => simp [hg] at h
    | some r =>
      cases r with
      | err c =>
        simp only [hg, Option.some.injEq, Prod.mk.injEq] at h
        left
        rw [← h.2]
        exact fun _ => rfl
      | found pe off =>
        simp only [hg] at h
        exact hcase (some pe.first_block) h

theorem sfs_unlink_arrays (L : Layout) (d : Disk) (uninit : Entry) (path : List Byte)
    (code : Int) (d' : Disk)
    (hroot : L.ROOTDIR_OFF + L.ROOTDIR_SIZE ≤ L.BLOCKTBL_OFF)
    (htbl : L.BLOCKTBL_OFF + L.BLOCKTBL_SIZE ≤ L.DATA_OFF)
    (hDS : L.DIR_SIZE ≤ L.BLOCK_SIZE)
    (h : sfs_unlink L d uninit path = some (code, d')) :
    (∀ blk, dirArray L d' blk = dirArray L d blk) ∨
    ∃ blk0 k e0, (dirArray L d blk0)[k]? = some e0 ∧
      ∀ blk, dirArray L d' blk =
        if blk = blk0 then (dirArray L d blk0).set k (clearedSlot L e0) else dirArray L d blk := by
  simp only [sfs_unlink] at h
  cases hs : splitLast path with
  | none => simp [hs] at h
  | some pr =>
    simp only [hs] at h
    cases hg : get_entry L d path with
    | none => simp [hg] at h
    | some res =>
      simp only [hg] at h
      exact removeEntry_arrays L d _ _ _ code d' hroot htbl hDS h

theorem sfs_rmdir_arrays (L : Layout) (d : Disk) (uninit : Entry) (path : List Byte)
    (code : Int) (d' : Disk)
    (hroot : L.ROOTDIR_OFF + L.ROOTDIR_SIZE ≤ L.BLOCKTBL_OFF)
    (htbl : L.BLOCKTBL_OFF + L.BLOCKTBL_SIZE ≤ L.DATA_OFF)
    (hDS : L.DIR_SIZE ≤ L.BLOCK_SIZE)
    (h : sfs_rmdir L d uninit path = some (code, d')) :
    (∀ blk, dirArray L d' blk = dirArray L d blk) ∨
    ∃ blk0 k e0, (dirArray L d blk0)[k]? = some e0 ∧
      ∀ blk, dirArray L d' blk =
        if blk = blk0 then (dirArray L d blk0).set k (clearedSlot L e0) else dirArray L d blk := by
  simp only [sfs_rmdir] at h
  cases hs : splitLast path with
  | none => simp [hs] at h
  | some pr =>
    simp only [hs] at h
    cases hg : get_entry L d path with
    | none => simp [hg] at h
    | some res =>
      simp only [hg] at h
      split at h
      · simp only [Option.some.injEq, Prod.mk.injEq] at h
        left
        rw [← h.2]
        exact fun _ => rfl
      · exact removeEntry_arrays L d _ _ _ code d' hroot htbl hDS h

theorem sfs_create_fail_same (L : Layout) (d : Disk) (path : List Byte) (code : Int) (d' : Disk)
    (h : sfs_create L d path = some (code, d')) : code = 0 ∨ d' = d := by
  simp only [sfs_create] at h
  cases hs : splitLast path with
  | none => simp [hs] at h
  | some pr =>
    simp only [hs] at h
    split at h
    · simp only [Option.some.injEq, Prod.mk.injEq] at h
      exact Or.inr h.2.symm
    · split at h
      · cases hf : findSlot isEmptySlot (readRoot L d) with
        | none =>
          simp only [hf, Option.some.injEq, Prod.mk.injEq] at h
          exact Or.inr h.2.symm
        | some k =>
          simp only [hf, Option.some.injEq, Prod.mk.injEq] at h
          exact Or.inl h.1.symm
      · cases hg : get_entry L d (fixParent pr.1) with
        | none => simp [hg] at h
        | some res =>
          cases res with
          | err c =>
            simp only [hg, Option.some.injEq, Prod.mk.injEq] at h
            exact Or.inr h.2.symm
          | found pe off =>
            simp only [hg] at h
            cases hf : findSlot isEmptySlot (readDir L d pe.first_block) with
            | none =>
              simp only [hf, Option.some.injEq, Prod.mk.injEq] at h
              exact Or.inr h.2.symm
            | some k =>
              simp only [hf, Option.some.injEq, Prod.mk.injEq] at h
              exact Or.inl h.1.symm

theorem sfs_mkdir_fail_arrays (L : Layout) (d stack : Disk) (path : List Byte) (code : Int)
    (d' : Disk)
    (hroot : L.ROOTDIR_OFF + L.ROOTDIR_SIZE ≤ L.BLOCKTBL_OFF)
    (htbl : L.BLOCKTBL_OFF + L.BLOCKTBL_SIZE ≤ L.DATA_OFF)
    (h : sfs_mkdir L d stack path = some (code, d')) :
    code = 0 ∨ ∀ blk, dirArray L d' blk = dirArray L d blk := by
  simp only [sfs_mkdir] at h
  cases hs : splitLast path with
  | none => simp [hs] at h
  | some pr =>
    simp only [hs] at h
    split at h
    · simp only [Option.some.injEq, Prod.mk.injEq] at h
      right
      rw [← h.2]
      exact fun _ => rfl
    · split at h
      · simp at h
      · split at h
        · cases hf : findSlot isEmptySlot (readRoot L d) with
          | none =>
            simp only [hf, Option.some.injEq, Prod.mk.injEq] at h
            right
            rw [← h.2]
            exact fun blk => dirArray_mkdirAlloc L d blk hroot htbl
          | some k =>
            simp only [hf, Option.some.injEq, Prod.mk.injEq] at h
            exact Or.inl h.1.symm
        · cases hg : get_entry L (mkdirAlloc L d).2 (fixParent pr.1) with
          | none => simp [hg] at h
          | some res =>
            cases res with
            | err c =>
              simp only [hg, Option.some.injEq, Prod.mk.injEq] at h
              right
              rw [← h.2]
              exact fun blk => dirArray_mkdirAlloc L d blk hroot htbl
            | found pe off =>
              simp only [hg] at h
              cases hf : findSlot isEmptySlot (readDir L (mkdirAlloc L d).2 pe.first_block) with
              | none =>
                simp only [hf, Option.some.injEq, Prod.mk.injEq] at h
                right
                rw [← h.2]
                exact fun blk => dirArray_mkdirAlloc L d blk hroot htbl
              | some k =>
                simp only [hf, Option.some.injEq, Prod.mk.injEq] at h
                exact Or.inl h.1.symm

/-- The parent's array does not hold the last component of a path that does not resolve. -/
theorem name_absent_of_unresolved (L : Layout) (d : Disk) (cs : List CStr) (c : CStr)
    (blk0 : Option Nat)
    (hnd : L.ROOTDIR_NENTRIES ≠ L.DIR_NENTRIES)
    (hv : ∀ x ∈ cs ++ [c], validComp x)
    (hnot : get_entry L d (joinPath (cs ++ [c])) = some (Lookup.err (-1)))
    (hpar : lookupArr L d cs = some blk0) :
    ∀ e ∈ dirArray L d blk0, cstr e.filename ≠ c := by
  have hnot' : resolveFirst L d (cs ++ [c]) none = none := by
    rw [get_entry_joinPath L d hnd _ (by simp) hv] at hnot
    cases hr : resolveFirst L d (cs ++ [c]) none with
    | none => rfl
    | some p => simp [hr, toLookup] at hnot
  rw [resolveFirst_snoc_lookup, hpar] at hnot'
  have hall := findIdx?_none_all _ _ (findIdx?_none_of_resolve_none L d c blk0 hnot')
  intro e he
  simpa using hall e he

theorem sfs_create_arrays (L : Layout) (d : Disk) (cs : List CStr) (c : CStr) (code : Int)
    (d' : Disk)
    (hnd : L.ROOTDIR_NENTRIES ≠ L.DIR_NENTRIES)
    (hroot : L.ROOTDIR_OFF + L.ROOTDIR_SIZE ≤ L.BLOCKTBL_OFF)
    (htbl : L.BLOCKTBL_OFF + L.BLOCKTBL_SIZE ≤ L.DATA_OFF)
    (hDS : L.DIR_SIZE ≤ L.BLOCK_SIZE)
    (hv : ∀ x ∈ cs ++ [c], validComp x)
    (hnot : get_entry L d (joinPath (cs ++ [c])) = some (Lookup.err (-1)))
    (h : sfs_create L d (joinPath (cs ++ [c])) = some (code, d')) :
    (∀ blk, dirArray L d' blk = dirArray L d blk) ∨
    ∃ blk0 k e0, (∀ e ∈ dirArray L d blk0, cstr e.filename ≠ c) ∧
      cstr (createSlot L c e0).filename = c ∧
      ∀ blk, dirArray L d' blk =
        if blk = blk0 then (dirArray L d blk0).set k (createSlot L c e0)
        else dirArray L d blk := by
  have hc : validComp c := hv c (by simp)
  have hcs : ∀ x ∈ cs, validComp x := fun x hx => hv x (by simp [hx])
  rcases sfs_create_fail_same L d _ code d' h with rfl | rfl
  · right
    obtain ⟨parent, file, blk0, k0, hs, hn, hpar, hf, hd1⟩ := sfs_create_ok_inv L d _ d' h
    rw [splitLast_joinPath cs c hv] at hs
    simp only [Option.some.injEq, Prod.mk.injEq] at hs
    obtain ⟨rfl, rfl⟩ := hs
    rw [lookupArr_joinPath L d cs hnd hcs] at hpar
    obtain ⟨⟨e0, hslot, -⟩, -⟩ := findSlot_some_spec _ _ _ hf
    have hwf0 : e0.WF L := dirArray_WF L d blk0 e0 (List.getElem?_mem hslot)
    refine ⟨blk0, k0, e0, name_absent_of_unresolved L d cs c blk0 hnd hv hnot hpar, ?_, ?_⟩
    · simp only [createSlot, cstr_strcpy, cstr_comp hc]
    · intro blk
      rw [hd1]
      exact dirArray_modify_write L d blk0 k0 _ e0 hroot htbl hDS hslot
        (createSlot_WF L c e0 hwf0 hn) blk
  · exact Or.inl (fun _ => rfl)

theorem sfs_mkdir_arrays (L : Layout) (d stack : Disk) (cs : List CStr) (c : CStr) (code : Int)
    (d' : Disk)
    (hnd : L.ROOTDIR_NENTRIES ≠ L.DIR_NENTRIES)
    (hroot : L.ROOTDIR_OFF + L.ROOTDIR_SIZE ≤ L.BLOCKTBL_OFF)
    (htbl : L.BLOCKTBL_OFF + L.BLOCKTBL_SIZE ≤ L.DATA_OFF)
    (hDS : L.DIR_SIZE ≤ L.BLOCK_SIZE)
    (hv : ∀ x ∈ cs ++ [c], validComp x)
    (hnot : get_entry L d (joinPath (cs ++ [c])) = some (Lookup.err (-1)))
    (h : sfs_mkdir L d stack (joinPath (cs ++ [c])) = some (code, d')) :
    (∀ blk, dirArray L d' blk = dirArray L d blk) ∨
    ∃ blk0 k e0 f, (∀ e ∈ dirArray L d blk0, cstr e.filename ≠ c) ∧
      cstr (mkdirSlot L f c e0).filename = c ∧
      (∀ blk, blk ≠ some f → dirArray L d' blk =
        if blk = blk0 then (dirArray L d blk0).set k (mkdirSlot L f c e0)
        else dirArray L d blk) ∧
      ∀ e ∈ dirArray L d' (some f), cstr e.filename = [] := by
  have hc : validComp c := hv c (by simp)
  have hcs : ∀ x ∈ cs, validComp x := fun x hx => hv x (by simp [hx])
  rcases sfs_mkdir_fail_arrays L d stack _ code d' hroot htbl h with rfl | hsame
  · right
    obtain ⟨parent, new_dir, blk0, k0, hs, hn, -, hpar, hf, hd1⟩ :=
      (sfs_mkdir_ok_iff L d stack _ d' hroot htbl).1 h
    rw [splitLast_joinPath cs c hv] at hs
    simp only [Option.some.injEq, Prod.mk.injEq] at hs
    obtain ⟨rfl, rfl⟩ := hs
    have harr1 : ∀ blk, dirArray L (mkdirAlloc L d).2 blk = dirArray L d blk :=
      fun blk => dirArray_mkdirAlloc L d blk hroot htbl
    rw [lookupArr_joinPath L _ cs hnd hcs, lookupArr_congr_arrays L d _ harr1] at hpar
    obtain ⟨⟨e0, hslot, -⟩, -⟩ := findSlot_some_spec _ _ _ hf
    have hwf0 : e0.WF L := dirArray_WF L d blk0 e0 (List.getElem?_mem hslot)
    have hwf : (mkdirSlot L (mkdirAlloc L d).1 c e0).WF L :=
      mkdirSlot_WF L _ c e0 hwf0 hn (mkdirAlloc_fst_lt L d)
    have hslot1 : (dirArray L (mkdirAlloc L d).2 blk0)[k0]? = some e0 := by
      rw [harr1]
      exact hslot
    refine ⟨blk0, k0, e0, (mkdirAlloc L d).1,
      name_absent_of_unresolved L d cs c blk0 hnd hv hnot hpar, ?_, ?_, ?_⟩
    · simp only [mkdirSlot, cstr_strcpy, cstr_comp hc]
    · intro blk hb
      have := dirArray_modify_write L (mkdirAlloc L d).2 blk0 k0
        (mkdirSlot L (mkdirAlloc L d).1 c) e0 hroot htbl hDS hslot1 hwf blk
      rw [harr1, harr1] at this
      rw [hd1, dirArray_writeDir_other L _ _ _ blk hroot htbl hDS (length_newEntries L stack)
        (newEntries_WF L stack) hb, this]
    · intro e he
      rw [hd1, dirArray_writeDir_self L _ _ _ (length_newEntries L stack)
        (newEntries_WF L stack)] at he
      simp only [newEntries, List.mem_map] at he
      obtain ⟨x, -, rfl⟩ := he
      exact cstr_clearName _
  · exact Or.inl hsame

theorem uniqInv_step (L : Layout) (d : Disk) (op : Op) (r : Int × Disk)
    (hnd : L.ROOTDIR_NENTRIES ≠ L.DIR_NENTRIES)
    (hroot : L.ROOTDIR_OFF + L.ROOTDIR_SIZE ≤ L.BLOCKTBL_OFF)
    (htbl : L.BLOCKTBL_OFF + L.BLOCKTBL_SIZE ≤ L.DATA_OFF)
    (hDS : L.DIR_SIZE ≤ L.BLOCK_SIZE)
    (hadm : op.OnNewPath L d) (hrun : op.run L d = some r) (h : UniqInv L d) :
    UniqInv L r.2 := by
  obtain ⟨code, d'⟩ := r
  cases op with
  | create path =>
    obtain ⟨cs, c, hv, rfl, hnot⟩ := hadm
    rcases sfs_create_arrays L d cs c code d' hnd hroot htbl hDS hv hnot hrun with
      hsame | ⟨blk0, k, e0, habs, hnm, harr⟩
    · exact uniqInv_same L d d' hsame h
    · refine uniqInv_set L d d' blk0 k _ harr (Or.inr ⟨?_, ?_⟩) h
      · simp [createSlot]
      · rw [hnm]
        exact habs
  | mkdir path stack =>
    obtain ⟨cs, c, hv, rfl, hnot⟩ := hadm
    rcases sfs_mkdir_arrays L d stack cs c code d' hnd hroot htbl hDS hv hnot hrun with
      hsame | ⟨blk0, k, e0, f, habs, hnm, harr, hnew⟩
    · exact uniqInv_same L d d' hsame h
    · refine uniqInv_mkdir L d d' blk0 k f _ harr hnew rfl ?_ h
      rw [hnm]
      exact habs
  | unlink path uninit =>
    rcases sfs_unlink_arrays L d uninit path code d' hroot htbl hDS hrun with
      hsame | ⟨blk0, k, e0, -, harr⟩
    · exact uniqInv_same L d d' hsame h
    · exact uniqInv_set L d d' blk0 k _ harr (Or.inl (cstr_clearName _)) h
  | rmdir path uninit =>
    rcases sfs_rmdir_arrays L d uninit path code d' hroot htbl hDS hrun with
      hsame | ⟨blk0, k, e0, -, harr⟩
    · exact uniqInv_same L d d' hsame h
    · exact uniqInv_set L d d' blk0 k _ harr (Or.inl (cstr_clearName _)) h

theorem uniqInv_run (L : Layout)
    (hnd : L.ROOTDIR_NENTRIES ≠ L.DIR_NENTRIES)
    (hroot : L.ROOTDIR_OFF + L.ROOTDIR_SIZE ≤ L.BLOCKTBL_OFF)
    (htbl : L.BLOCKTBL_OFF + L.BLOCKTBL_SIZE ≤ L.DATA_OFF)
    (hDS : L.DIR_SIZE ≤ L.BLOCK_SIZE) :
    ∀ (ops : List Op) (d0 d : Disk), UniqInv L d0 → NewPathsOnly L d0 ops →
      runOps L d0 ops = some d → UniqInv L d := by
  intro ops
  induction ops with
  | nil =>
    intro d0 d h _ hrun
    simp only [runOps, Option.some.injEq] at hrun
    rw [← hrun]
    exact h
  | cons op ops ih =>
    intro d0 d h hnew hrun
    obtain ⟨hadm, hrest⟩ := hnew
    simp only [runOps] at hrun
    cases hr : op.run L d0 with
    | none => simp [hr] at hrun
    | some r =>
      simp only [hr] at hrun hrest
      exact ih r.2 d (uniqInv_step L d0 op r hnd hroot htbl hDS hadm hr h) hrest hrun

/-- The case that refutes C13 as first stated: from the fresh image, two calls
`create /a` both return 0 and leave two root slots named `a`. -/
theorem uniqueness_counterexample :
    Fresh demoLayout demoFresh ∧
    runCodes demoLayout demoFresh [Op.create (joinPath [nameA]), Op.create (joinPath [nameA])]
      = some [0, 0] ∧
    ∃ d, runOps demoLayout demoFresh [Op.create (joinPath [nameA]), Op.create (joinPath [nameA])]
        = some d ∧
      (readRoot demoLayout d).map (fun e => cstr e.filename) = [nameA, nameA, []] ∧
      ¬ Uniqueness demoLayout d := by
  refine ⟨by decide, by decide, ?_⟩
  have hk : (runOps demoLayout demoFresh
      [Op.create (joinPath [nameA]), Op.create (joinPath [nameA])]).map
        (fun d => ((readRoot demoLayout d).map (fun e => cstr e.filename),
          decide (UniqueNames (dirArray demoLayout d none))))
      = some ([nameA, nameA, []], false) := by decide
  cases hr : runOps demoLayout demoFresh
      [Op.create (joinPath [nameA]), Op.create (joinPath [nameA])] with
  | none => simp [hr] at hk
  | some d =>
    simp only [hr, Option.map_some', Option.some.injEq, Prod.mk.injEq,
      decide_eq_false_iff_not] at hk
    exact ⟨d, rfl, hk.1, fun hu => hk.2 (hu none LiveArr.root)⟩

/-- C13 (amended): starting from a freshly formatted image, after any finite
sequence of `sfs_create`, `sfs_mkdir`, `sfs_unlink` and `sfs_rmdir` calls in
which `sfs_create` and `sfs_mkdir` are called only on paths `/c1/.../cn` that
do not resolve at the time of the call (`sfs_unlink` and `sfs_rmdir` on any
path, with any return code), no two non-empty slots of the root array or of a
live sub-directory's array carry the same filename. -/
theorem uniqueness_invariant (L : Layout) (d0 d : Disk) (ops : List Op)
    (hnd : L.ROOTDIR_NENTRIES ≠ L.DIR_NENTRIES)
    (hroot : L.ROOTDIR_OFF + L.ROOTDIR_SIZE ≤ L.BLOCKTBL_OFF)
    (htbl : L.BLOCKTBL_OFF + L.BLOCKTBL_SIZE ≤ L.DATA_OFF)
    (hDS : L.DIR_SIZE ≤ L.BLOCK_SIZE)
    (hfresh : Fresh L d0) (hnew : NewPathsOnly L d0 ops) (hrun : runOps L d0 ops = some d) :
    Uniqueness L d :=
  uniqueness_of_uniqInv L d
    (uniqInv_run L hnd hroot htbl hDS ops d0 d (uniqInv_fresh L d0 hfresh) hnew hrun)

theorem uniqueness_invariant_witness :
    ∃ d, runOps demoLayout demoFresh
        [Op.create (joinPath [nameA]), Op.mkdir (joinPath [nameB]) (fun _ => 9),
         Op.unlink (joinPath [nameA]) { filename := [], size := 0, first_block := 0 }]
        = some d ∧ Uniqueness demoLayout d := by
  have hk : (runOps demoLayout demoFresh
      [Op.create (joinPath [nameA]), Op.mkdir (joinPath [nameB]) (fun _ => 9),
       Op.unlink (joinPath [nameA]) { filename := [], size := 0, first_block := 0 }]).isSome
      = true := by decide
  cases hr : runOps demoLayout demoFresh
      [Op.create (joinPath [nameA]), Op.mkdir (joinPath [nameB]) (fun _ => 9),
       Op.unlink (joinPath [nameA]) { filename := [], size := 0, first_block := 0 }] with
  | none => simp [hr] at hk
  | some d =>
    refine ⟨d, rfl, uniqueness_invariant demoLayout demoFresh d _ (by decide) (by decide)
      (by decide) (by decide) (by decide) ?_ hr⟩
    have h1 : Op.run demoLayout demoFresh (Op.create (joinPath [nameA]))
        = some (0, disk_write demoFresh (encodeEntries demoLayout
            ((dirArray demoLayout demoFresh none).modify (createSlot demoLayout nameA) 0))
            (dirOff demoLayout none)) := rfl
    refine ⟨⟨[], nameA, by decide, rfl, by decide⟩, ?_⟩
    rw [h1]
    refine ⟨⟨[], nameB, by decide, rfl, by decide⟩, ?_⟩
    split
    · trivial
    · refine ⟨trivial, ?_⟩
      split <;> trivial

/-! ### Blocks left allocated by a failing sfs_mkdir -/

/-- C14: from the fresh image, three `sfs_create` calls fill the root
directory; `sfs_mkdir` of `/x` then returns -1, yet it has written the table:
cells 0 and 1 hold the chain 0, 1, END.  The only live array is the root
array, its three entries are files whose `first_block` is END, so the chain of
no live entry holds block 0 or block 1. -/
theorem sfs_mkdir_leaks_pair :
    Fresh demoLayout demoFresh ∧
    runCodes demoLayout demoFresh
        [Op.create (joinPath [nameA]), Op.create (joinPath [nameB]),
         Op.create (joinPath [nameC]), Op.mkdir (joinPath [nameX]) (fun _ => 9)]
      = some [0, 0, 0, -1] ∧
    ∃ d, runOps demoLayout demoFresh
        [Op.create (joinPath [nameA]), Op.create (joinPath [nameB]),
         Op.create (joinPath [nameC]), Op.mkdir (joinPath [nameX]) (fun _ => 9)] = some d ∧
      readTable demoLayout d = [1, 65534, 65535, 65535, 65535, 65535, 65535, 65535] ∧
      ∀ (blk : Option Nat) (k : Nat) (e : Entry) (bs : List Nat), LiveArr demoLayout d blk →
        (dirArray demoLayout d blk)[k]? = some e →
        cstr e.filename ≠ [] → IsFullChain demoLayout (readTable demoLayout d) e.first_block bs →
        0 ∉ bs ∧ 1 ∉ bs := by
  refine ⟨by decide, by decide, ?_⟩
  have hk : (runOps demoLayout demoFresh
      [Op.create (joinPath [nameA]), Op.create (joinPath [nameB]),
       Op.create (joinPath [nameC]), Op.mkdir (joinPath [nameX]) (fun _ => 9)]).map
        (fun d => (readTable demoLayout d,
          (readRoot demoLayout d).map (fun e => (e.size, e.first_block))))
      = some ([1, 65534, 65535, 65535, 65535, 65535, 65535, 65535],
          [(0, 65534), (0, 65534), (0, 65534)]) := by decide
  cases hr : runOps demoLayout demoFresh
      [Op.create (joinPath [nameA]), Op.create (joinPath [nameB]),
       Op.create (joinPath [nameC]), Op.mkdir (joinPath [nameX]) (fun _ => 9)] with
  | none => simp [hr] at hk
  | some d =>
    simp only [hr, Option.map_some', Option.some.injEq, Prod.mk.injEq] at hk
    obtain ⟨htab, hrootE⟩ := hk
    have hent : ∀ e ∈ readRoot demoLayout d, e.size = 0 ∧ e.first_block = 65534 := by
      intro e he
      have : (e.size, e.first_block) ∈ (readRoot demoLayout d).map
          (fun e => (e.size, e.first_block)) := List.mem_map_of_mem _ he
      rw [hrootE] at this
      simp only [List.mem_cons, Prod.mk.injEq, List.mem_singleton, List.not_mem_nil,
        or_false, or_self] at this
      exact this
    have hlive : ∀ blk, LiveArr demoLayout d blk → blk = none := by
      intro blk hl
      induction hl with
      | root => rfl
      | sub blk k e _ he _ hflag ih =>
        subst ih
        have := (hent e (List.getElem?_mem he)).1
        rw [this] at hflag
        exact absurd (Nat.zero_and _) hflag
    refine ⟨d, rfl, htab, ?_⟩
    intro blk k e bs hl he _ hchain
    have hb := hlive blk hl
    subst hb
    have hfb := (hent e (List.getElem?_mem he)).2
    rw [hfb] at hchain
    cases bs with
    | nil => simp
    | cons x xs =>
      obtain ⟨-, hne, -⟩ := hchain
      exact absurd rfl hne

/-! ### sfs_mkdir without a free pair -/

theorem mkdirAlloc_no_pair (L : Layout) (d : Disk)
    (hno : ∀ i, i + 1 < L.BLOCKTBL_NENTRIES →
      ¬ ((readTable L d)[i]? = some L.BLOCKIDX_EMPTY ∧
        (readTable L d)[i + 1]? = some L.BLOCKIDX_EMPTY)) :
    mkdirAlloc L d = (L.BLOCKIDX_EMPTY % L.IDX_MOD, d) := by
  have hnone : findFreePair L (readTable L d) 0 (L.BLOCKTBL_NENTRIES - 1) = none := by
    cases hf : findFreePair L (readTable L d) 0 (L.BLOCKTBL_NENTRIES - 1) with
    | none => rfl
    | some i =>
      obtain ⟨-, hi, h1, h2⟩ := findFreePair_some L _ _ _ _ hf
      have hlen := length_readTable L d
      refine absurd ?_ (hno i (by omega))
      rw [getElem?_of_lt_getD _ i (by omega), getElem?_of_lt_getD _ (i + 1) (by omega), h1, h2]
      exact ⟨rfl, rfl⟩
  simp only [mkdirAlloc, hnone]

/-- C16: when the block table has no two adjacent EMPTY cells, `sfs_mkdir` of a
path `/c1/.../cn` with `cn` shorter than FILENAME_MAX whose parent's array has
an empty slot `k0` does not fail: it returns 0, leaves the block table as it
was, and (unless the parent's array is itself the one in block EMPTY) writes
into slot `k0` a directory entry named `cn` whose `first_block` is the value
EMPTY. -/
theorem sfs_mkdir_without_free_pair (L : Layout) (d stack : Disk) (cs : List CStr) (c : CStr)
    (blk0 : Option Nat) (k0 : Nat)
    (hroot : L.ROOTDIR_OFF + L.ROOTDIR_SIZE ≤ L.BLOCKTBL_OFF)
    (htbl : L.BLOCKTBL_OFF + L.BLOCKTBL_SIZE ≤ L.DATA_OFF)
    (hDS : L.DIR_SIZE ≤ L.BLOCK_SIZE)
    (hN : L.BLOCKTBL_NENTRIES ≠ 0)
    (hv : ∀ x ∈ cs ++ [c], validComp x)
    (hname : strlen c < L.FILENAME_MAX)
    (hno : ∀ i, i + 1 < L.BLOCKTBL_NENTRIES →
      ¬ ((readTable L d)[i]? = some L.BLOCKIDX_EMPTY ∧
        (readTable L d)[i + 1]? = some L.BLOCKIDX_EMPTY))
    (hpar : parentBlock L d (fixParent (if cs = [] then [] else joinPath cs)) = some blk0)
    (hfind : findSlot isEmptySlot (dirArray L d blk0) = some k0) :
    ∃ d' e0, sfs_mkdir L d stack (joinPath (cs ++ [c])) = some (0, d') ∧
      readTable L d' = readTable L d ∧
      (dirArray L d blk0)[k0]? = some e0 ∧
      (blk0 ≠ some (L.BLOCKIDX_EMPTY % L.IDX_MOD) →
        dirArray L d' blk0 = (dirArray L d blk0).set k0
          { filename := strcpy e0.filename c, size := L.DIRECTORY % L.SIZE_MOD,
            first_block := L.BLOCKIDX_EMPTY % L.IDX_MOD }) := by
  have halloc := mkdirAlloc_no_pair L d hno
  have hfst : (mkdirAlloc L d).1 = L.BLOCKIDX_EMPTY % L.IDX_MOD := by rw [halloc]
  have hsnd : (mkdirAlloc L d).2 = d := by rw [halloc]
  obtain ⟨⟨e0, hslot, -⟩, -⟩ := findSlot_some_spec _ _ _ hfind
  have hwf0 : e0.WF L := dirArray_WF L d blk0 e0 (List.getElem?_mem hslot)
  have hwf : (mkdirSlot L (L.BLOCKIDX_EMPTY % L.IDX_MOD) c e0).WF L :=
    mkdirSlot_WF L _ c e0 hwf0 hname (Nat.mod_lt _ (IDX_MOD_pos L))
  obtain ⟨hw1, -, hw3⟩ := write_slot_effects L d blk0 k0
    (mkdirSlot L (L.BLOCKIDX_EMPTY % L.IDX_MOD) c) e0 hslot hwf
  have hk := (getElem?_dirArray L d blk0 k0 e0 hslot).1
  refine ⟨writeDir L (disk_write (mkdirAlloc L d).2 (encodeEntries L ((dirArray L d blk0).modify
    (mkdirSlot L (mkdirAlloc L d).1 c) k0)) (dirOff L blk0)) (mkdirAlloc L d).1
    (newEntries L stack), e0, ?_, ?_, hslot, ?_⟩
  · rw [sfs_mkdir_ok_iff L d stack _ _ hroot htbl]
    refine ⟨_, c, blk0, k0, splitLast_joinPath cs c hv, hname, hN, ?_, hfind, rfl⟩
    rw [hsnd]
    exact hpar
  · rw [readTable_writeDir L _ _ _ htbl, hsnd, hfst, hw1]
    exact readTable_slot_frame L d _ blk0 k0 hroot htbl hk hw3
  · intro hb
    rw [hfst, hsnd, dirArray_writeDir_other L _ _ _ blk0 hroot htbl hDS
      (length_newEntries L stack) (newEntries_WF L stack) hb,
      dirArray_modify_write L d blk0 k0 _ e0 hroot htbl hDS hslot hwf blk0, if_pos rfl]
    rfl

theorem sfs_mkdir_without_free_pair_witness :
    ∃ d', sfs_mkdir demoLayout demoFull (fun _ => 9) (joinPath ([nameA] ++ [nameX]))
        = some (0, d') ∧
      readTable demoLayout d' = [1, 65534, 3, 65534, 5, 65534, 65534, 65535] ∧
      dirArray demoLayout d' (some 0) =
        [{ filename := [98, 0, 0, 0], size := 2 ^ 31, first_block := 2 },
         { filename := [120, 0, 0, 0], size := 2 ^ 31, first_block := 65535 }] := by
  obtain ⟨d', e0, h1, h2, h3, h4⟩ := sfs_mkdir_without_free_pair demoLayout demoFull
    (fun _ => 9) [nameA] nameX (some 0) 1
    (by decide) (by decide) (by decide) (by decide) (by decide) (by decide)
    (by
      intro i hi
      have hi' : i < 7 := by
        have : demoLayout.BLOCKTBL_NENTRIES = 8 := rfl
        omega
      interval_cases i <;> decide)
    (by decide) (by decide)
  have he0 : e0 = { filename := [0, 0, 0, 0], size := 0, first_block := 65535 } := by
    have : (dirArray demoLayout demoFull (some 0))[1]?
        = some { filename := [0, 0, 0, 0], size := 0, first_block := 65535 } := by decide
    rw [this] at h3
    exact (Option.some.inj h3).symm
  refine ⟨d', h1, ?_, ?_⟩
  · rw [h2]
    decide
  · rw [h4 (by decide), he0]
    decide

/-! ### sfs_read on a chain that ends before the file size -/

theorem IsChain_of_full (L : Layout) (t : List Nat) :
    ∀ (bs : List Nat) (b : Nat), IsFullChain L t b bs → IsChain L t b bs := by
  intro bs
  induction bs with
  | nil => intro _ _; trivial
  | cons x xs ih =>
    intro b h
    exact ⟨h.1, h.2.1, h.2.2.1, ih _ h.2.2.2⟩

theorem IsFullChain_drop (L : Layout) (t : List Nat) :
    ∀ (k b : Nat) (bs : List Nat), IsFullChain L t b bs → (h : k < bs.length) →
      IsFullChain L t bs[k] (bs.drop k) := by
  intro k
  induction k with
  | zero =>
    intro b bs hc h
    cases bs with
    | nil => simp at h
    | cons x xs =>
      obtain ⟨rfl, h2⟩ := hc
      exact ⟨rfl, h2⟩
  | succ k ih =>
    intro b bs hc h
    cases bs with
    | nil => simp at h
    | cons x xs =>
      simp only [List.getElem_cons_succ, List.drop_succ_cons]
      exact ih _ xs hc.2.2.2 (by simpa using h)

/-- The skip loop asked for more links than the chain has stops at END. -/
theorem skipBlocks_past_end (L : Layout) (t : List Nat) :
    ∀ (k b : Nat) (bs : List Nat), IsFullChain L t b bs → bs.length ≤ k →
      skipBlocks L t k b = some L.BLOCKIDX_END := by
  intro k
  induction k with
  | zero =>
    intro b bs hc h
    cases bs with
    | nil =>
      have hb : b = L.BLOCKIDX_END := hc
      rw [skipBlocks, hb]
    | cons x xs => simp at h
  | succ k ih =>
    intro b bs hc h
    cases bs with
    | nil =>
      have hb : b = L.BLOCKIDX_END := hc
      simp only [skipBlocks, hb, if_true]
    | cons x xs =>
      obtain ⟨rfl, hne, hlt, hrest⟩ := hc
      simp only [skipBlocks, if_neg hne, getElem?_of_lt_getD t x hlt]
      by_cases hnb : t.getD x 0 = L.BLOCKIDX_END
      · rw [if_pos hnb, hnb]
      · rw [if_neg hnb]
        exact ih _ xs hrest (by simpa using h)

/-- The copy loop on a chain that reaches END: it copies what the chain holds
from `boff` on, at most `n` bytes, and stops at END when the chain is used up. -/
theorem copyLoop_full (L : Layout) (d : Disk) (table : List Nat) (hBS : 0 < L.BLOCK_SIZE) :
    ∀ (fuel n block boff : Nat) (cs : List Nat), IsFullChain L table block cs →
      boff < L.BLOCK_SIZE → n ≤ fuel →
      copyLoop L d table fuel n block boff = some (((chainBytes L d cs).drop boff).take n) := by
  intro fuel
  induction fuel with
  | zero =>
    intro n block boff cs _ _ hn
    have : n = 0 := by omega
    subst this
    simp [copyLoop]
  | succ fuel ih =>
    intro n block boff cs hc hboff hn
    by_cases hn0 : n = 0
    · subst hn0
      simp [copyLoop]
    · have hpos : 0 < n := Nat.pos_of_ne_zero hn0
      cases cs with
      | nil =>
        have hb : block = L.BLOCKIDX_END := hc
        simp [copyLoop, hb, chainBytes]
      | cons x xs =>
        obtain ⟨rfl, hne, hlt, hrest⟩ := hc
        rw [copyLoop, if_pos ⟨hpos, hne⟩]
        simp only [getElem?_of_lt_getD table x hlt]
        rw [chainBytes_cons, List.drop_append_of_le_length (by simp; omega),
          List.take_append_eq_append_take]
        simp only [List.length_drop, length_disk_read]
        by_cases hbig : L.BLOCK_SIZE - boff > n
        · rw [if_pos hbig]
          rw [ih (n - n) _ 0 xs hrest hBS (by omega)]
          have : n - (L.BLOCK_SIZE - boff) = 0 := by omega
          simp [this]
        · rw [if_neg hbig]
          rw [ih (n - (L.BLOCK_SIZE - boff)) _ 0 xs hrest hBS (by omega)]
          simp only [List.drop_zero, Option.map_some', Option.some.injEq]
          congr 1
          rw [List.take_of_length_le (by simp), List.take_of_length_le (by simp; omega)]

/-- C21: for a path that resolves to a regular file whose chain `bs` (valid
block indices from `first_block`, ended by END) holds fewer bytes than
`file_size = entry.size & SIZEMASK`, and for every `size` and every `offset`
below `file_size`: `sfs_read` returns
`n = min(size, file_size - offset, |bs| * BLOCK_SIZE - offset)`, which is 0 when
`offset` is at or past the end of the chain and never negative, and stores in
`buf[0..n)` the bytes of the chain's data blocks from `offset` on. -/
theorem sfs_read_short_chain (L : Layout) (d : Disk) (path : List Byte) (e : Entry)
    (eoff : Nat) (bs : List Nat) (size offset : Nat)
    (hBS : 0 < L.BLOCK_SIZE) (hmask : L.SIZEMASK < 2 ^ 31)
    (hres : get_entry L d path = some (Lookup.found e eoff))
    (hreg : e.size &&& L.DIRECTORY = 0)
    (hchain : IsFullChain L (readTable L d) e.first_block bs)
    (hshort : bs.length * L.BLOCK_SIZE < e.size &&& L.SIZEMASK)
    (hoff : offset < e.size &&& L.SIZEMASK) :
    sfs_read L d path size (offset : Int) =
      some (((min size (min ((e.size &&& L.SIZEMASK) - offset)
                (bs.length * L.BLOCK_SIZE - offset)) : Nat) : Int),
            ((chainBytes L d bs).drop offset).take
              (min size (min ((e.size &&& L.SIZEMASK) - offset)
                (bs.length * L.BLOCK_SIZE - offset)))) ∧
    (bs.length * L.BLOCK_SIZE ≤ offset → sfs_read L d path size (offset : Int) = some (0, [])) := by
  have hfs : e.size &&& L.SIZEMASK ≤ L.SIZEMASK := Nat.and_le_right
  set fs := e.size &&& L.SIZEMASK with hfsdef
  set LB := bs.length * L.BLOCK_SIZE with hLB
  set n := min size (min (fs - offset) (LB - offset)) with hn
  have h64 : (2 : Nat) ^ 31 < 2 ^ 64 := by norm_num
  have huoff : ((offset : Int) % 2 ^ 64).toNat = offset := by
    have : ((offset : Int) % 2 ^ 64) = ((offset % 2 ^ 64 : Nat) : Int) := by
      norm_cast
    rw [this, Int.toNat_ofNat, Nat.mod_eq_of_lt (by omega)]
  have hbo : ((Int.tmod (offset : Int) (L.BLOCK_SIZE : Int)) % 2 ^ 64).toNat
      = offset % L.BLOCK_SIZE := by
    rw [← Int.ofNat_tmod]
    have : (((offset % L.BLOCK_SIZE : Nat) : Int) % 2 ^ 64)
        = (((offset % L.BLOCK_SIZE) % 2 ^ 64 : Nat) : Int) := by norm_cast
    rw [this, Int.toNat_ofNat]
    apply Nat.mod_eq_of_lt
    have := Nat.mod_le offset L.BLOCK_SIZE
    omega
  have hbi : (Int.tdiv (offset : Int) (L.BLOCK_SIZE : Int)).toNat = offset / L.BLOCK_SIZE := by
    rw [← Int.ofNat_tdiv, Int.toNat_ofNat]
  have hmod := Nat.mod_lt offset hBS
  have hdm := Nat.div_add_mod offset L.BLOCK_SIZE
  have hkm : L.BLOCK_SIZE * (offset / L.BLOCK_SIZE) = offset / L.BLOCK_SIZE * L.BLOCK_SIZE :=
    Nat.mul_comm _ _
  -- the size after clamping reaches at least to the end of the chain, or is `size`
  set s' := (if (size + offset) % 2 ^ 64 > fs then fs - offset else size) with hs'
  have hmin : min s' (LB - offset) = min n (LB - offset) := by
    by_cases h : (size + offset) % 2 ^ 64 > fs
    · have hs : s' = fs - offset := by rw [hs', if_pos h]
      have hsize : LB - offset ≤ size := by
        by_cases hw : size + offset < 2 ^ 64
        · rw [Nat.mod_eq_of_lt hw] at h
          omega
        · omega
      rw [hs, hn]
      omega
    · have hs : s' = size := by rw [hs', if_neg h]
      rw [hs, hn]
      omega
  have hlenl : ((chainBytes L d bs).drop offset).length = LB - offset := by
    rw [List.length_drop, length_chainBytes]
  have htake : ((chainBytes L d bs).drop offset).take s'
      = ((chainBytes L d bs).drop offset).take n := by
    rw [List.take_eq_take, hlenl]
    exact hmin
  have hlenbuf : (((chainBytes L d bs).drop offset).take n).length = n := by
    rw [List.length_take, hlenl, hn]
    omega
  have hne : ¬ offset ≥ fs := by omega
  have hnlt : n < 2 ^ 31 := by
    rw [hn]
    omega
  -- the two loops
  have hloops : ∃ block, skipBlocks L (readTable L d) (offset / L.BLOCK_SIZE) e.first_block
        = some block ∧
      copyLoop L d (readTable L d) s' s' block (offset % L.BLOCK_SIZE)
        = some (((chainBytes L d bs).drop offset).take n) := by
    by_cases hk : offset / L.BLOCK_SIZE < bs.length
    · refine ⟨bs[offset / L.BLOCK_SIZE],
        skipBlocks_chain L _ _ _ bs (IsChain_of_full L _ bs _ hchain) hk, ?_⟩
      rw [copyLoop_full L d _ hBS s' s' _ _ (bs.drop (offset / L.BLOCK_SIZE))
        (IsFullChain_drop L _ _ _ bs hchain hk) hmod (le_refl _), ← chainBytes_drop,
        List.drop_drop]
      have : offset / L.BLOCK_SIZE * L.BLOCK_SIZE + offset % L.BLOCK_SIZE = offset := by omega
      rw [this, htake]
    · refine ⟨L.BLOCKIDX_END,
        skipBlocks_past_end L _ _ _ bs hchain (by omega), ?_⟩
      rw [copyLoop_full L d _ hBS s' s' _ _ [] rfl hmod (le_refl _)]
      have hpast : LB ≤ offset := by
        have h1 : bs.length ≤ offset / L.BLOCK_SIZE := by omega
        have h2 := Nat.mul_le_mul_right L.BLOCK_SIZE h1
        omega
      have hn0 : n = 0 := by
        rw [hn]
        omega
      rw [hn0]
      simp [chainBytes]
  obtain ⟨block, hskip, hcopy⟩ := hloops
  have hread : sfs_read L d path size (offset : Int)
      = some ((n : Int), ((chainBytes L d bs).drop offset).take n) := by
    simp only [sfs_read, hres, hreg, ne_eq, not_true_eq_false, if_false, huoff, hbo, hbi,
      ← hfsdef, hne, Nat.pos_iff_ne_zero.1 hBS, ← hs', hskip, hcopy, hlenbuf]
    rw [toInt32_small n hnlt]
  refine ⟨hread, ?_⟩
  intro hpast
  have hn0 : n = 0 := by
    rw [hn]
    omega
  rw [hread, hn0]
  simp

theorem sfs_read_short_chain_witness :
    sfs_read demoLayout demoShort (joinPath [nameF]) 100 ((10 : Nat) : Int)
      = some (10, [110, 111, 112, 113, 114, 115, 116, 117, 118, 119]) ∧
    sfs_read demoLayout demoShort (joinPath [nameF]) 100 ((22 : Nat) : Int) = some (0, []) :=
  ⟨(sfs_read_short_chain demoLayout demoShort (joinPath [nameF])
      { filename := [102, 0, 0, 0], size := 25, first_block := 4 } 12 [4] 100 10
      (by decide) (by decide) (by decide) (by decide) (by decide) (by decide) (by decide)).1,
   (sfs_read_short_chain demoLayout demoShort (joinPath [nameF])
      { filename := [102, 0, 0, 0], size := 25, first_block := 4 } 12 [4] 100 22
      (by decide) (by decide) (by decide) (by decide) (by decide) (by decide) (by decide)).2
      (by decide)⟩

/-! ### Termination of sfs_read -/

/-- The skip loop stays inside a set of table values that is closed under
following the table and holds only END and valid indices. -/
theorem skipBlocks_closed (L : Layout) (t : List Nat) (S : List Nat)
    (hcl : ∀ x ∈ S, x = L.BLOCKIDX_END ∨ (x < t.length ∧ t.getD x 0 ∈ S)) :
    ∀ (k b : Nat), b ∈ S → ∃ b' ∈ S, skipBlocks L t k b = some b' := by
  intro k
  induction k with
  | zero => intro b hb; exact ⟨b, hb, rfl⟩
  | succ k ih =>
    intro b hb
    by_cases hend : b = L.BLOCKIDX_END
    · exact ⟨b, hb, by simp only [skipBlocks, hend, if_true]⟩
    · rcases hcl b hb with h | ⟨hlt, hnext⟩
      · exact absurd h hend
      · simp only [skipBlocks, if_neg hend, getElem?_of_lt_getD t b hlt]
        by_cases hnb : t.getD b 0 = L.BLOCKIDX_END
        · rw [if_pos hnb]
          exact ⟨_, hnext, rfl⟩
        · rw [if_neg hnb]
          exact ih _ hnext

/-- The copy loop ends within `n` rounds for a request of `n` bytes, whatever
the shape of the chain (each round copies at least one byte), and copies at
most `n` bytes. -/
theorem copyLoop_closed (L : Layout) (d : Disk) (t : List Nat) (S : List Nat)
    (hBS : 0 < L.BLOCK_SIZE)
    (hcl : ∀ x ∈ S, x = L.BLOCKIDX_END ∨ (x < t.length ∧ t.getD x 0 ∈ S)) :
    ∀ (fuel n b boff : Nat), n ≤ fuel → b ∈ S → boff < L.BLOCK_SIZE →
      ∃ buf, copyLoop L d t fuel n b boff = some buf ∧ buf.length ≤ n := by
  intro fuel
  induction fuel with
  | zero =>
    intro n b boff hn _ _
    have : n = 0 := by omega
    subst this
    exact ⟨[], by simp [copyLoop], by simp⟩
  | succ fuel ih =>
    intro n b boff hn hb hboff
    by_cases hgo : 0 < n ∧ b ≠ L.BLOCKIDX_END
    · rcases hcl b hb with h | ⟨hlt, hnext⟩
      · exact absurd h hgo.2
      · have hbb : 1 ≤ (if L.BLOCK_SIZE - boff > n then n else L.BLOCK_SIZE - boff) := by
          split <;> omega
        have hbn : (if L.BLOCK_SIZE - boff > n then n else L.BLOCK_SIZE - boff) ≤ n := by
          split <;> omega
        obtain ⟨r, hr, hrlen⟩ := ih
          (n - (if L.BLOCK_SIZE - boff > n then n else L.BLOCK_SIZE - boff)) (t.getD b 0) 0
          (by omega) hnext hBS
        refine ⟨((disk_read d L.BLOCK_SIZE (L.blockOff b)).drop boff).take
          (if L.BLOCK_SIZE - boff > n then n else L.BLOCK_SIZE - boff) ++ r, ?_, ?_⟩
        · rw [copyLoop, if_pos hgo]
          simp only [getElem?_of_lt_getD t b hlt, hr, Option.map_some']
        · simp only [List.length_append, List.length_take, List.length_drop, length_disk_read]
          omega
    · exact ⟨[], by rw [copyLoop, if_neg hgo], by simp⟩

/-- C22: for a path that resolves to a regular file, `offset ≥ 0` and
`offset + size` within `size_t`, and a block table in which the values reached
from `first_block` (a set `S` holding `first_block` and closed under following
the table; it may hold a cycle) are END or valid indices: the skip loop makes
its `offset / BLOCK_SIZE` steps without leaving the table, the copy loop ends
within `n` rounds for a request of `n` bytes, and `sfs_read` returns; the value
returned is the number of bytes stored in `buf`, it is not negative and it is
at most `min(size, file_size - offset)` (0 when `offset ≥ file_size`). -/
theorem sfs_read_terminates (L : Layout) (d : Disk) (path : List Byte) (e : Entry)
    (eoff : Nat) (S : List Nat) (size offset : Nat)
    (hBS : 0 < L.BLOCK_SIZE) (hmask : L.SIZEMASK < 2 ^ 31)
    (hres : get_entry L d path = some (Lookup.found e eoff))
    (hreg : e.size &&& L.DIRECTORY = 0)
    (hS : e.first_block ∈ S)
    (hcl : ∀ x ∈ S, x = L.BLOCKIDX_END ∨
      (x < L.BLOCKTBL_NENTRIES ∧ (readTable L d).getD x 0 ∈ S))
    (hsz : offset + size < 2 ^ 64) :
    (∃ b ∈ S, skipBlocks L (readTable L d) (offset / L.BLOCK_SIZE) e.first_block = some b) ∧
    (∀ fuel n b boff, n ≤ fuel → b ∈ S → boff < L.BLOCK_SIZE →
      ∃ buf, copyLoop L d (readTable L d) fuel n b boff = some buf ∧ buf.length ≤ n) ∧
    ∃ buf, sfs_read L d path size (offset : Int) = some ((buf.length : Int), buf) ∧
      buf.length ≤ min size ((e.size &&& L.SIZEMASK) - offset) := by
  have hcl' : ∀ x ∈ S, x = L.BLOCKIDX_END ∨
      (x < (readTable L d).length ∧ (readTable L d).getD x 0 ∈ S) := by
    intro x hx
    rw [length_readTable]
    exact hcl x hx
  have hskip := skipBlocks_closed L (readTable L d) S hcl' (offset / L.BLOCK_SIZE)
    e.first_block hS
  have hcopy := copyLoop_closed L d (readTable L d) S hBS hcl'
  refine ⟨hskip, hcopy, ?_⟩
  have hfs : e.size &&& L.SIZEMASK ≤ L.SIZEMASK := Nat.and_le_right
  set fs := e.size &&& L.SIZEMASK with hfsdef
  have huoff : ((offset : Int) % 2 ^ 64).toNat = offset := by
    have : ((offset : Int) % 2 ^ 64) = ((offset % 2 ^ 64 : Nat) : Int) := by
      norm_cast
    rw [this, Int.toNat_ofNat, Nat.mod_eq_of_lt (by omega)]
  by_cases hoff : offset ≥ fs
  · refine ⟨[], ?_, by simp⟩
    simp only [sfs_read, hres, hreg, ne_eq, not_true_eq_false, if_false, huoff, ← hfsdef, hoff,
      if_true]
    rfl
  · have hbo : ((Int.tmod (offset : Int) (L.BLOCK_SIZE : Int)) % 2 ^ 64).toNat
        = offset % L.BLOCK_SIZE := by
      rw [← Int.ofNat_tmod]
      have : (((offset % L.BLOCK_SIZE : Nat) : Int) % 2 ^ 64)
          = (((offset % L.BLOCK_SIZE) % 2 ^ 64 : Nat) : Int) := by norm_cast
      rw [this, Int.toNat_ofNat]
      apply Nat.mod_eq_of_lt
      have := Nat.mod_le offset L.BLOCK_SIZE
      omega
    have hbi : (Int.tdiv (offset : Int) (L.BLOCK_SIZE : Int)).toNat
        = offset / L.BLOCK_SIZE := by
      rw [← Int.ofNat_tdiv, Int.toNat_ofNat]
    have hsize : (if (size + offset) % 2 ^ 64 > fs then fs - offset else size)
        = min size (fs - offset) := by
      rw [Nat.mod_eq_of_lt (by omega)]
      by_cases h : size + offset > fs
      · rw [if_pos h]; omega
      · rw [if_neg h]; omega
    obtain ⟨b, hb, hsk⟩ := hskip
    obtain ⟨buf, hbuf, hlen⟩ := hcopy (min size (fs - offset)) (min size (fs - offset)) b
      (offset % L.BLOCK_SIZE) (le_refl _) hb (Nat.mod_lt offset hBS)
    refine ⟨buf, ?_, hlen⟩
    simp only [sfs_read, hres, hreg, ne_eq, not_true_eq_false, if_false, huoff, hbo, hbi,
      ← hfsdef, hoff, Nat.pos_iff_ne_zero.1 hBS, hsize, hsk, hbuf]
    rw [toInt32_small buf.length (by omega)]

theorem sfs_read_terminates_witness :
    sfs_read demoLayout demoCycle (joinPath [nameF]) 100 ((21 : Nat) : Int)
      = some (4, [121, 122, 123, 124]) ∧
    ∃ buf, sfs_read demoLayout demoCycle (joinPath [nameF]) 100 ((21 : Nat) : Int)
        = some ((buf.length : Int), buf) ∧
      buf.length ≤ min 100 ((25 &&& demoLayout.SIZEMASK) - 21) :=
  ⟨by decide,
   (sfs_read_terminates demoLayout demoCycle (joinPath [nameF])
    { filename := [102, 0, 0, 0], size := 25, first_block := 4 } 12 [4, 5] 100 21
    (by decide) (by decide) (by decide) (by decide) (by decide) (by decide) (by decide)).2.2⟩

end SFS
